import Mathlib

/-!
# Expression trees from infix expressions (`infixExp.c`)

A shallow embedding of the tree builder `treeInfixExpr`, of `duplicate`,
`differentiate`, `simplify` and of the helpers they use, followed by theorems
about them.

Conventions of the embedding.

* An `ExpTree` of the C code is a pointer to a node; here it is the tree it
  points to, `ExpTree.null` standing for `NULL`.  Assignments through a pointer
  (`p->right = q`) become functional updates of the tree value.
* The number of a token is read into a `double` by the C code; no arithmetic
  is ever done on it by the functions embedded here (it is copied and compared
  with `0` and `1`), and it is modelled by a rational number.
* The C loops run on a token list; the builder is embedded with a fuel argument
  that bounds the number of loop iterations, and `treeInfixExpr` supplies
  `length + 1`, which is enough whenever every iteration consumes a token.
* `Run` makes the three ways in which a C run does not return explicit.
* The builder tests `(*lp)->t.symbol` against the two parentheses without
  looking at the tag of the token.  What a number or an identifier reads as
  through the member `symbol` depends on the declaration of the token union,
  which is not among the sources; it is the parameter `Layout` of the builder.
* Trees are values here: a pointer that is stored twice shows as the same
  subtree occurring twice, and freeing is not modelled.
-/

namespace InfixExp

/-- Modelled from the spec: the token tags of `scanner.h`, a header that is not
among the sources; a token is a number, an identifier or a symbol. -/
inductive TokenType
  | Number
  | Identifier
  | Symbol
deriving DecidableEq, Repr

/-- Modelled from the spec: the tagged token of `scanner.h` (tag `tt` together
with the union `t`), a header that is not among the sources.  The tag is the
constructor; a symbol carries one character. -/
inductive Token
  | number (w : ℚ)
  | identifier (s : String)
  | symbol (c : Char)
deriving DecidableEq, Repr

/-- The tag `tt` of a token. -/
def Token.tt : Token → TokenType
  | .number _ => .Number
  | .identifier _ => .Identifier
  | .symbol _ => .Symbol

/-- Modelled from the spec: the union `t` of a token (`scanner.h`, not among the
sources) holds the number, the pointer to the name of an identifier, or the
character of a symbol, at one address.  Read through its member `symbol`, a
number token gives the first byte of its number and an identifier token the
first byte of its pointer.  Which characters these are depends on the
declaration of the union and on the machine; they are parameters here, the
byte of a pointer being given per name. -/
structure Layout where
  numberByte : ℚ → Char
  identifierByte : String → Char

/-- The member `symbol` of the union of a token (`(*lp)->t.symbol`), read
whatever the tag of the token is. -/
def Layout.readSymbol (m : Layout) : Token → Char
  | .number w => m.numberByte w
  | .identifier s => m.identifierByte s
  | .symbol c => c

/-- Modelled from the spec: the expression tree node of `prefixExp.h` (not among
the sources): a tagged payload and two children, `null` for an absent child. -/
inductive ExpTree
  | null
  | node (t : Token) (left right : ExpTree)
deriving DecidableEq, Repr

/-- Modelled from the spec: `newExpTreeNode(tt, t, tL, tR)` of `prefixExp.c` (not
among the sources) allocates a node with the given payload and children. -/
def newExpTreeNode (t : Token) (tL tR : ExpTree) : ExpTree := .node t tL tR

/-- Outcome of a C run: it returns a value, or it calls `abort()` (pop of an
empty stack), or it has undefined behaviour (a store through a null pointer, the
use of a variable that was never assigned), or the fuel of the model ran out. -/
inductive Run (α : Type)
  | done (a : α)
  | abort
  | undefined
  | diverge
deriving DecidableEq, Repr

/-- Modelled from the spec: `isOperator` of `scanner.c`/`recognizeExp.c` (not
among the sources); the operators are `+ - * /`. -/
def isOperator (c : Char) : Bool :=
  c = '+' || c = '-' || c = '*' || c = '/'

/-- Modelled from the spec: `valueOperator(lp, &c)` (not among the sources): when
the cursor is at an operator symbol, store it and advance the cursor. -/
def valueOperator : List Token → Option (Char × List Token)
  | .symbol c :: rest => if isOperator c then some (c, rest) else none
  | _ => none

/-- Modelled from the spec: `valueNumber(lp, &w)` (not among the sources): when
the cursor is at a number token, store its value and advance the cursor. -/
def valueNumber : List Token → Option (ℚ × List Token)
  | .number w :: rest => some (w, rest)
  | _ => none

/-- Modelled from the spec: `valueIdentifier(lp, &s)` (not among the sources):
when the cursor is at an identifier token, store its name and advance. -/
def valueIdentifier : List Token → Option (String × List Token)
  | .identifier s :: rest => some (s, rest)
  | _ => none

/-- The precedence of an operator character (`getPrecedence`). -/
def getPrecedence (c : Char) : Int :=
  if c = '+' then 1
  else if c = '-' then 1
  else if c = '*' then 2
  else if c = '/' then 2
  else 0

/-- The assignment `p->right = r`; undefined when `p` is `NULL`. -/
def setRight : ExpTree → ExpTree → Option ExpTree
  | .null, _ => none
  | .node t l _, r => some (.node t l r)

/-- The two draining loops of `treeInfixExpr` (lines 106-110 and 155-159): while
the stack is not empty, pop a node, make the tree built so far its right child
and go on with the popped node. -/
def attachAll : ExpTree → List ExpTree → Option ExpTree
  | acc, [] => some acc
  | acc, x :: xs =>
    match setRight x acc with
    | none => none
    | some x1 => attachAll x1 xs

/-- What `treeInfixExpr` hands back: the returned flag, the cursor `*lp`, the
tree variable `*tp` (`none` while it was never assigned) and the counter
`*paranthesis`. -/
structure Result where
  ret : Int
  lp : List Token
  tp : Option ExpTree
  paren : Int
deriving DecidableEq, Repr

/-- Lines 151-171: drain the stack into `*tp`, then fail when the input is
exhausted with a non-zero parenthesis counter, else return `checker`. -/
def finish (lp : List Token) (stack : List ExpTree) (tp : Option ExpTree)
    (paren : Int) (checker : Int) : Run Result :=
  match stack with
  | [] => .done ⟨if lp = [] ∧ paren ≠ 0 then 0 else checker, lp, tp, paren⟩
  | x :: xs =>
    match attachAll x xs with
    | none => .undefined
    | some t => .done ⟨if lp = [] ∧ paren ≠ 0 then 0 else checker, lp, some t, paren⟩

/-- Lines 88-113: the three ways an operator `c` is put on the stack, by its
precedence against `prio`.  Returns the new stack and the new value of the
local `tempoTree`. -/
def pushOperator (c : Char) (prio : Int) (stack : List ExpTree)
    (tempo : Option ExpTree) : Run (List ExpTree × Option ExpTree) :=
  if getPrecedence c > prio then
    match stack with
    | [] => .abort
    | x :: xs => .done (newExpTreeNode (.symbol c) x .null :: xs, tempo)
  else if getPrecedence c = prio then
    match stack with
    | r :: f :: xs =>
      match setRight f r with
      | none => .undefined
      | some f1 => .done (newExpTreeNode (.symbol c) f1 .null :: xs, some r)
    | _ => .abort
  else
    match stack with
    | [] => .abort
    | x :: xs =>
      match attachAll x xs with
      | none => .undefined
      | some f =>
        .done ([newExpTreeNode (.symbol c) f .null], if xs = [] then tempo else some f)

/-- Lines 128-148: `prio = currentPrio`, push a number or identifier leaf, then
fail when a further number or identifier follows; otherwise go round the loop
(`k`). -/
def operandStep
    (k : List Token → List ExpTree → Option ExpTree → Int → Int → Int →
      Option ExpTree → Run Result)
    (lp : List Token) (stack : List ExpTree) (tempo : Option ExpTree)
    (cur : Int) (paren : Int) (tp : Option ExpTree) : Run Result :=
  let pushed : List Token × List ExpTree :=
    match valueNumber lp with
    | some (w, rest) => (rest, newExpTreeNode (.number w) .null .null :: stack)
    | none =>
      match valueIdentifier lp with
      | some (s, rest) => (rest, newExpTreeNode (.identifier s) .null .null :: stack)
      | none => (lp, stack)
  match valueNumber pushed.1 with
  | some (_, rest) => finish rest pushed.2 tp paren 0
  | none =>
    match valueIdentifier pushed.1 with
    | some (_, rest) => finish rest pushed.2 tp paren 0
    | none => k pushed.1 pushed.2 tempo cur cur paren tp

/-- Lines 82-126: an operator at the cursor is consumed; a second operator or an
empty stack ends the loop with `checker = 0`; otherwise the operator goes on the
stack, and in the equal and lower precedence cases the run returns 0 when the
input ends there. -/
def operatorStep
    (k : List Token → List ExpTree → Option ExpTree → Int → Int → Int →
      Option ExpTree → Run Result)
    (lp : List Token) (stack : List ExpTree) (tempo : Option ExpTree)
    (prio cur : Int) (paren : Int) (tp : Option ExpTree) : Run Result :=
  match valueOperator lp with
  | none => operandStep k lp stack tempo cur paren tp
  | some (c, rest) =>
    match valueOperator rest with
    | some (_, rest2) => finish rest2 stack tp paren 0
    | none =>
      if stack = [] then finish rest stack tp paren 0
      else
        match pushOperator c prio stack tempo with
        | .done (stack1, tempo1) =>
          if getPrecedence c ≤ prio ∧ rest = [] then .done ⟨0, rest, tp, paren⟩
          else operandStep k rest stack1 tempo1 (getPrecedence c) paren tp
        | .abort => .abort
        | .undefined => .undefined
        | .diverge => .diverge

/-- Lines 76-148, entered with a non-empty list `tok :: rest`: a token whose
member `symbol` reads as a closing parenthesis (line 76 does not look at the
tag) is consumed, decrements the counter and ends the loop. -/
def closeStep (m : Layout)
    (k : List Token → List ExpTree → Option ExpTree → Int → Int → Int →
      Option ExpTree → Run Result)
    (tok : Token) (rest : List Token) (stack : List ExpTree) (tempo : Option ExpTree)
    (prio cur : Int) (paren : Int) (tp : Option ExpTree) : Run Result :=
  if m.readSymbol tok = ')' then finish rest stack tp (paren - 1) 1
  else operatorStep k (tok :: rest) stack tempo prio cur paren tp

/-- Lines 68-148 after a parenthesised operand was pushed: the end of the input
breaks out of the loop, otherwise the iteration goes on at line 76. -/
def afterOperand (m : Layout)
    (k : List Token → List ExpTree → Option ExpTree → Int → Int → Int →
      Option ExpTree → Run Result)
    (lp : List Token) (stack : List ExpTree) (tempo : Option ExpTree)
    (prio cur : Int) (paren : Int) (tp : Option ExpTree) : Run Result :=
  match lp with
  | [] => finish [] stack tp paren 1
  | tok :: rest => closeStep m k tok rest stack tempo prio cur paren tp

/-- The `while` loop of `treeInfixExpr` together with the code after it, from a
loop state: cursor, stack (top first), the locals `tempoTree`, `prio`,
`currentPrio`, and the caller-owned `*paranthesis` and `*tp`.  A recursive call
of `treeInfixExpr` is this loop from the initial state, writing to the
local `tempoTree` of the caller.  Line 61 takes for an opening parenthesis every
token whose member `symbol` reads as `(`; it does not look at the tag. -/
def treeInfixExprLoop (m : Layout) : Nat → List Token → List ExpTree → Option ExpTree → Int → Int →
    Int → Option ExpTree → Run Result
  | 0, _, _, _, _, _, _, _ => .diverge
  | _ + 1, [], stack, _, _, _, paren, tp => finish [] stack tp paren 1
  | fuel + 1, tok :: rest, stack, tempo, prio, cur, paren, tp =>
    if m.readSymbol tok = '(' then
      match treeInfixExprLoop m fuel rest [] none (-1) (-1) (paren + 1) tempo with
      | .done r =>
        if r.ret ≠ 0 then
          match r.tp with
          | none => .undefined
          | some t =>
            afterOperand m (treeInfixExprLoop m fuel) r.lp (t :: stack) (some t)
              prio (prio + 1) r.paren tp
        else .done ⟨0, r.lp, tp, r.paren⟩
      | .abort => .abort
      | .undefined => .undefined
      | .diverge => .diverge
    else closeStep m (treeInfixExprLoop m fuel) tok rest stack tempo prio cur paren tp

/-- The builder `treeInfixExpr(lp, tp, paranthesis)`: an empty stack,
`tempoTree` unassigned, `prio = currentPrio = -1`. -/
def treeInfixExpr (m : Layout) (lp : List Token) (tp : Option ExpTree) (paren : Int) :
    Run Result :=
  treeInfixExprLoop m (lp.length + 1) lp [] none (-1) (-1) paren tp



/-! ## The grammar of infix expressions -/

/-- The additive operators. -/
inductive AddOp
  | plus
  | minus
deriving DecidableEq, Repr

/-- The multiplicative operators. -/
inductive MulOp
  | times
  | divide
deriving DecidableEq, Repr

/-- The character of an additive operator. -/
def AddOp.char : AddOp → Char
  | .plus => '+'
  | .minus => '-'

/-- The character of a multiplicative operator. -/
def MulOp.char : MulOp → Char
  | .times => '*'
  | .divide => '/'

mutual
/-- Derivations of `E ::= T { ('+'|'-') T }`, read left to right. -/
inductive GExpr
  | term (t : GTerm)
  | bin (e : GExpr) (op : AddOp) (t : GTerm)
/-- Derivations of `T ::= F { ('*'|'/') F }`, read left to right. -/
inductive GTerm
  | factor (f : GFactor)
  | bin (t : GTerm) (op : MulOp) (f : GFactor)
/-- Derivations of `F ::= number | identifier | '(' E ')'`. -/
inductive GFactor
  | number (w : ℚ)
  | identifier (s : String)
  | paren (e : GExpr)
end

mutual
/-- The token sequence derived by an expression. -/
def GExpr.tokens : GExpr → List Token
  | .term t => t.tokens
  | .bin e op t => e.tokens ++ .symbol op.char :: t.tokens
/-- The token sequence derived by a term. -/
def GTerm.tokens : GTerm → List Token
  | .factor f => f.tokens
  | .bin t op f => t.tokens ++ .symbol op.char :: f.tokens
/-- The token sequence derived by a factor. -/
def GFactor.tokens : GFactor → List Token
  | .number w => [.number w]
  | .identifier s => [.identifier s]
  | .paren e => .symbol '(' :: (e.tokens ++ [.symbol ')'])
end

mutual
/-- The standard parse tree of an expression: operators of one level nest to
the left. -/
def GExpr.tree : GExpr → ExpTree
  | .term t => t.tree
  | .bin e op t => .node (.symbol op.char) e.tree t.tree
/-- The standard parse tree of a term. -/
def GTerm.tree : GTerm → ExpTree
  | .factor f => f.tree
  | .bin t op f => .node (.symbol op.char) t.tree f.tree
/-- The standard parse tree of a factor; parentheses leave no node. -/
def GFactor.tree : GFactor → ExpTree
  | .number w => .node (.number w) .null .null
  | .identifier s => .node (.identifier s) .null .null
  | .paren e => e.tree
end

/-- Whether a tree pointer is `NULL`. -/
def ExpTree.isNull : ExpTree → Bool
  | .null => true
  | .node _ _ _ => false

/-- Well-formed trees: an operator node carries one of `+ - * /` and has two
children that are present and well formed; a number or identifier node has no
child. -/
def wellFormed : ExpTree → Bool
  | .null => true
  | .node (.symbol c) l r =>
    isOperator c && !l.isNull && !r.isNull && wellFormed l && wellFormed r
  | .node _ l r => l.isNull && r.isNull

/-! ## The flat view of a derivation, used to follow the loop -/

/-- A binary operator of either level. -/
inductive BinOp
  | add (a : AddOp)
  | mul (m : MulOp)
deriving DecidableEq, Repr

/-- The character of a binary operator. -/
def BinOp.char : BinOp → Char
  | .add a => a.char
  | .mul m => m.char

/-- The expression read so far, extended by one more operator and factor. -/
def extend : GExpr → BinOp → GFactor → GExpr
  | e, .add a, f => .bin e a (.factor f)
  | .term t, .mul m, f => .term (.bin t m f)
  | .bin e a t, .mul m, f => .bin e a (.bin t m f)

/-- Extension by a sequence of operator and factor pairs. -/
def extendAll : GExpr → List (BinOp × GFactor) → GExpr
  | e, [] => e
  | e, p :: ps => extendAll (extend e p.1 p.2) ps

/-- The first factor of a term. -/
def GTerm.first : GTerm → GFactor
  | .factor f => f
  | .bin t _ _ => t.first

/-- The operator and factor pairs that follow the first factor of a term. -/
def GTerm.pairs : GTerm → List (BinOp × GFactor)
  | .factor _ => []
  | .bin t m f => t.pairs ++ [(.mul m, f)]

/-- The first factor of an expression. -/
def GExpr.first : GExpr → GFactor
  | .term t => t.first
  | .bin e _ _ => e.first

/-- The operator and factor pairs that follow the first factor of an
expression. -/
def GExpr.pairs : GExpr → List (BinOp × GFactor)
  | .term t => t.pairs
  | .bin e a t => e.pairs ++ (.add a, t.first) :: t.pairs

/-- The tokens of a sequence of operator and factor pairs. -/
def pairsTokens : List (BinOp × GFactor) → List Token
  | [] => []
  | p :: ps => .symbol p.1.char :: (p.2.tokens ++ pairsTokens ps)

/-- The operand stack (top first) once the expression `e` has been read. -/
def stackOf : GExpr → List ExpTree
  | .term (.factor f) => [f.tree]
  | .term (.bin t m f) => [f.tree, .node (.symbol m.char) t.tree .null]
  | .bin e a (.factor f) => [f.tree, .node (.symbol a.char) e.tree .null]
  | .bin e a (.bin t m f) =>
    [f.tree, .node (.symbol m.char) t.tree .null, .node (.symbol a.char) e.tree .null]

/-- The value of `prio` once the expression `e` has been read. -/
def prioOf : GExpr → Int
  | .term (.factor _) => -1
  | .term (.bin _ _ _) => 2
  | .bin _ _ (.factor _) => 1
  | .bin _ _ (.bin _ _ _) => 2

/-- What a call returns that stops at the end of the input or at the closing
parenthesis heading `rest`, having built `tree`. -/
def closeResult (tree : ExpTree) (rest : List Token) (paren : Int) : Run Result :=
  match rest with
  | [] => .done ⟨1, [], some tree, paren⟩
  | _ :: rest1 => .done ⟨1, rest1, some tree, paren - 1⟩

/-- The input after an expression of a call at counter `paren`: nothing, at
counter 0, or a closing parenthesis, followed by more input unless it brings the
counter to 0. -/
def RestOk (rest : List Token) (paren : Int) : Prop :=
  match rest with
  | [] => paren = 0
  | tok :: rest1 => tok = .symbol ')' ∧ (rest1 = [] → paren - 1 = 0)

/-! ## Operands, leaves and the value of a tree -/

/-- A token that is an operand: a number or an identifier. -/
def Token.isOperand : Token → Bool
  | .number _ => true
  | .identifier _ => true
  | .symbol _ => false

/-- A token that the two parenthesis tests of the builder read as what it is:
a symbol, or a number or identifier whose member `symbol` reads as neither
parenthesis. -/
def Layout.plain (m : Layout) (tok : Token) : Bool :=
  !tok.isOperand || (m.readSymbol tok != '(' && m.readSymbol tok != ')')

/-- No number or identifier of the list reads as a parenthesis. -/
def Layout.plainOn (m : Layout) (lp : List Token) : Bool := lp.all m.plain

/-- A layout: the number of a token is an `int` stored low byte first, so that
a number from 0 to 255 reads as the character with that code (40 as `(`, 41 as
`)`); the names of identifiers lie at addresses whose first byte is 0. -/
def lowByteFirst : Layout :=
  ⟨fun w => Char.ofNat (w.num.toNat / w.den % 256), fun _ => Char.ofNat 0⟩

/-- A layout in which every number and every identifier reads as the character
with code 0. -/
def Layout.blank : Layout := ⟨fun _ => Char.ofNat 0, fun _ => Char.ofNat 0⟩

/-- The leaf node the builder makes of an operand token (lines 133 and 139). -/
def leaf (a : Token) : ExpTree := newExpTreeNode a .null .null

/-- Modelled from the spec: the evaluator of a built tree (`valueExpTree`, not
among the sources), in exact arithmetic over a field, with an environment that
gives identifiers their values: a number is its value, an operator node combines
the values of its two children. -/
def evalTree {K : Type} [Field K] (env : String → K) : ExpTree → K
  | .null => 0
  | .node (.number w) _ _ => (w : K)
  | .node (.identifier s) _ _ => env s
  | .node (.symbol c) l r =>
    if c = '+' then evalTree env l + evalTree env r
    else if c = '-' then evalTree env l - evalTree env r
    else if c = '*' then evalTree env l * evalTree env r
    else if c = '/' then evalTree env l / evalTree env r
    else 0

/-! ## Malformed neighbours in a token sequence -/

/-- A token that is one of the operator symbols `+ - * /`. -/
def Token.isOperatorTok : Token → Bool
  | .symbol c => isOperator c
  | _ => false

/-- An operator with no left operand or followed by an operator: `y` is an
operator and `x`, the token before it, is an operator or an opening
parenthesis (which also stands for the start of the input). -/
def operatorDefect (x y : Token) : Bool :=
  (x.isOperatorTok || x == .symbol '(') && y.isOperatorTok

/-- Two operands next to each other: `x` and `y` are both numbers or
identifiers. -/
def operandDefect (x y : Token) : Bool :=
  x.isOperand && y.isOperand

/-- Either kind of malformed neighbours. -/
def anyDefect (x y : Token) : Bool :=
  operatorDefect x y || operandDefect x y

/-- No two neighbours of the list are `bad`. -/
def chainAll (bad : Token → Token → Bool) : List Token → Bool
  | a :: b :: l => !bad a b && chainAll bad (b :: l)
  | _ => true

/-- Opening minus closing parentheses of a token. -/
def tokBalance : Token → Int
  | .symbol c => if c = '(' then 1 else if c = ')' then -1 else 0
  | _ => 0

/-- Opening minus closing parentheses of a token list. -/
def balance : List Token → Int
  | [] => 0
  | a :: l => tokBalance a + balance l

/-- What a returned result says about the input `lp` of a loop state, `prev`
being the token consumed last (an opening parenthesis at the start of a call):
a result at the end of the input with a non-zero counter is a failure; the
result cursor is a suffix of `lp`, the counter has moved by the balance of the
consumed tokens, and on success no two neighbours among the consumed tokens and
the token at the cursor are malformed. -/
def Post (prev : Token) (lp : List Token) (paren : Int) (r : Result) : Prop :=
  (r.lp = [] → r.paren ≠ 0 → r.ret = 0) ∧
  ∃ P, lp = P ++ r.lp ∧ r.paren = paren + balance P ∧
    (r.ret ≠ 0 → chainAll anyDefect (prev :: (P ++ r.lp.take 1)) = true)

/-- What a loop state knows of the token before the cursor: with an empty stack
the call has just started; otherwise that token and the one at the cursor are
not malformed neighbours. -/
def Pre (prev : Token) (stack : List ExpTree) (lp : List Token) : Prop :=
  (stack = [] → prev = .symbol '(') ∧
  (stack ≠ [] → chainAll anyDefect (prev :: lp.take 1) = true)

/-- A continuation of the loop body all of whose results satisfy `Post`. -/
def KPost (k : List Token → List ExpTree → Option ExpTree → Int → Int → Int →
    Option ExpTree → Run Result) : Prop :=
  ∀ prev lp stack tempo prio cur paren tp r,
    k lp stack tempo prio cur paren tp = .done r → Pre prev stack lp → Post prev lp paren r

/-- A continuation of the loop body all of whose results at the end of the
input with a non-zero counter are failures. -/
def KEnd (k : List Token → List ExpTree → Option ExpTree → Int → Int → Int →
    Option ExpTree → Run Result) : Prop :=
  ∀ lp stack tempo prio cur paren tp r,
    k lp stack tempo prio cur paren tp = .done r → r.lp = [] → r.paren ≠ 0 → r.ret = 0

/-- Whether the token at the cursor is a number or an identifier. -/
def nextIsOperand : List Token → Bool
  | b :: _ => b.isOperand
  | [] => false

/-- Whether the token at the cursor is an operator symbol. -/
def nextIsOperator : List Token → Bool
  | b :: _ => b.isOperatorTok
  | [] => false

/-- A token list without parentheses: every token is a number, an identifier or
an operator symbol. -/
def parenFree (lp : List Token) : Prop :=
  ∀ t ∈ lp, t.isOperand = true ∨ t.isOperatorTok = true

/-- The stack of a loop state on parenthesis-free input: every entry is a node,
and when `prio` comes from an operator and input is left, the stack holds that
operator node and an operand. -/
def StackInv (stack : List ExpTree) (prio : Int) (lp : List Token) : Prop :=
  (∀ x ∈ stack, x.isNull = false) ∧ (lp ≠ [] → 1 ≤ prio → 2 ≤ stack.length)

/-! ## Duplication and differentiation -/

/-- The number of nodes of a tree. -/
def ExpTree.size : ExpTree → Nat
  | .null => 0
  | .node _ l r => 1 + l.size + r.size

/-- The deep copy `duplicate(source)`: `NULL` for `NULL`, otherwise a new node
with the same tag and payload whose children are the copies of the children
that are present. -/
def duplicate : ExpTree → ExpTree
  | .null => .null
  | .node t l r =>
    .node t (if l.isNull then .null else duplicate l)
      (if r.isNull then .null else duplicate r)

/-- The in-place `differentiate(root, differentVar)`, as a function from the
tree at `*root` and the flag `*differentVar` to their values on return.  A
number becomes 0; the identifier `x` becomes 1 and clears the flag, any other
identifier becomes 0; `+` and `-` differentiate both children; `*` and `/`
build the product and the quotient rule from the children and from
differentiated copies of them. -/
def differentiate (root : ExpTree) (differentVar : Int) : ExpTree × Int :=
  match root with
  | .null => (.null, differentVar)
  | .node (.number _) l r => (.node (.number 0) l r, differentVar)
  | .node (.identifier s) l r =>
    if s ≠ "x" then (.node (.number 0) l r, differentVar)
    else (.node (.number 1) l r, 0)
  | .node (.symbol c) l r =>
    if c = '+' then
      let dl := differentiate l differentVar
      let dr := differentiate r dl.2
      (.node (.symbol c) dl.1 dr.1, dr.2)
    else if c = '-' then
      let dl := differentiate l differentVar
      let dr := differentiate r dl.2
      (.node (.symbol c) dl.1 dr.1, dr.2)
    else if c = '*' then
      let p1 := differentiate (duplicate l) differentVar
      let p2 := differentiate (duplicate r) p1.2
      (.node (.symbol '+')
        (newExpTreeNode (.symbol '*') p1.1 r)
        (newExpTreeNode (.symbol '*') l p2.1), p2.2)
    else if c = '/' then
      let p1 := differentiate (duplicate l) differentVar
      let p2 := differentiate (duplicate r) p1.2
      (.node (.symbol c)
        (newExpTreeNode (.symbol '-')
          (newExpTreeNode (.symbol '*') p1.1 r)
          (newExpTreeNode (.symbol '*') l p2.1))
        (newExpTreeNode (.symbol '*') (duplicate r) (duplicate r)), p2.2)
    else (.node (.symbol c) l r, differentVar)
termination_by root.size
decreasing_by
  all_goals
    have hd : ∀ t : ExpTree, (duplicate t).size = t.size := by
      intro t
      induction t with
      | null => rfl
      | node t l r ihl ihr =>
        cases l <;> cases r <;> simp_all [duplicate, ExpTree.size, ExpTree.isNull]
    simp only [hd, ExpTree.size]
    omega

/-- The environment `env` with the variable `x` set to the value `v`. -/
def envAt {K : Type} (env : String → K) (v : K) : String → K :=
  fun s => if s = "x" then v else env s

/-- Every divisor subexpression of the tree has a non-zero value. -/
def divisorsNonzero {K : Type} [Field K] (env : String → K) : ExpTree → Prop
  | .null => True
  | .node (.symbol c) l r =>
    divisorsNonzero env l ∧ divisorsNonzero env r ∧ (c = '/' → evalTree env r ≠ 0)
  | .node _ _ _ => True

/-! ## Simplification -/

/-- The node overwritten as a number leaf: `t->tt = Number`, `t->t.number = w`,
both children freed and set to `NULL`. -/
def toNumber (w : ℚ) : ExpTree := .node (.number w) .null .null

/-- The node overwritten as an identifier leaf: `t->tt = Identifier`,
`t->t.identifier = s`, both children freed and set to `NULL`. -/
def toIdentifier (s : String) : ExpTree := .node (.identifier s) .null .null

/-- Lines 467-590, the node `t0` being a `*` whose simplified children are the
nodes `tl(ll, lr)` and `tr(rl, rr)`: the five tag combinations with a number
child, each with its tests against 1 and 0; an operator child that survives is
spliced in (its symbol and children are taken over). -/
def simplifyTimes (t0 : ExpTree) (tl : Token) (ll lr : ExpTree) (tr : Token)
    (rl rr : ExpTree) : ExpTree :=
  match tl, tr with
  | .number a, .number b =>
    if b = 1 then toNumber a
    else if b = 0 then toNumber 0
    else if a = 1 then toNumber b
    else if a = 0 then toNumber 0
    else t0
  | .number a, .identifier s =>
    if a = 1 then toIdentifier s
    else if a = 0 then toNumber 0
    else t0
  | .number a, .symbol cr =>
    if a = 1 then .node (.symbol cr) rl rr
    else if a = 0 then toNumber 0
    else t0
  | .identifier s, .number b =>
    if b = 1 then toIdentifier s
    else if b = 0 then toNumber 0
    else t0
  | .symbol cl, .number b =>
    if b = 1 then .node (.symbol cl) ll lr
    else if b = 0 then toNumber 0
    else t0
  | _, _ => t0

/-- Lines 591-627, the node `t0` being a `/`: a right child that is the number
1 leaves the left child. -/
def simplifyDivide (t0 : ExpTree) (tl : Token) (ll lr : ExpTree) (tr : Token) : ExpTree :=
  match tl, tr with
  | .number a, .number b => if b = 1 then toNumber a else t0
  | .identifier s, .number b => if b = 1 then toIdentifier s else t0
  | .symbol cl, .number b => if b = 1 then .node (.symbol cl) ll lr else t0
  | _, _ => t0

/-- Lines 628-697, the node `t0` being a `+`: a child that is the number 0
leaves the other child. -/
def simplifyPlus (t0 : ExpTree) (tl : Token) (ll lr : ExpTree) (tr : Token)
    (rl rr : ExpTree) : ExpTree :=
  match tl, tr with
  | .number a, .number b =>
    if a = 0 then toNumber b
    else if b = 0 then toNumber a
    else t0
  | .number a, .identifier s => if a = 0 then toIdentifier s else t0
  | .identifier s, .number b => if b = 0 then toIdentifier s else t0
  | .number a, .symbol cr => if a = 0 then .node (.symbol cr) rl rr else t0
  | .symbol cl, .number b => if b = 0 then .node (.symbol cl) ll lr else t0
  | _, _ => t0

/-- Lines 698-734, the node `t0` being a `-`: a right child that is the number
0 leaves the left child. -/
def simplifyMinus (t0 : ExpTree) (tl : Token) (ll lr : ExpTree) (tr : Token) : ExpTree :=
  match tl, tr with
  | .number a, .number b => if b = 0 then toNumber a else t0
  | .identifier s, .number b => if b = 0 then toIdentifier s else t0
  | .symbol cl, .number b => if b = 0 then .node (.symbol cl) ll lr else t0
  | _, _ => t0

/-- The in-place `simplifyRec(t)`, as a function from the tree at `t` to the
tree found there on return: both children are simplified first; a node that is
one of the four operators is then rewritten by the tags and numbers of its
children.  Reading the tag of a child that is `NULL` is undefined. -/
def simplifyRec : ExpTree → Run ExpTree
  | .null => .done .null
  | .node t l r =>
    match simplifyRec l with
    | .done L =>
      match simplifyRec r with
      | .done R =>
        match t with
        | .symbol c =>
          if c = '*' ∨ c = '/' ∨ c = '+' ∨ c = '-' then
            match L, R with
            | .node tl ll lr, .node tr rl rr =>
              if c = '*' then .done (simplifyTimes (.node t L R) tl ll lr tr rl rr)
              else if c = '/' then .done (simplifyDivide (.node t L R) tl ll lr tr)
              else if c = '+' then .done (simplifyPlus (.node t L R) tl ll lr tr rl rr)
              else .done (simplifyMinus (.node t L R) tl ll lr tr)
            | _, _ => .undefined
          else .done (.node t L R)
        | _ => .done (.node t L R)
      | .abort => .abort
      | .undefined => .undefined
      | .diverge => .diverge
    | .abort => .abort
    | .undefined => .undefined
    | .diverge => .diverge

/-- The function `simplify(t)`: run `simplifyRec` and return the tree. -/
def simplify (t : ExpTree) : Run ExpTree := simplifyRec t

/-! ## The pattern table of the simplifier, as the specification words it -/

/-- The tree is a number node with the value `w`. -/
def isNumberOf (w : ℚ) : ExpTree → Bool
  | .node (.number v) _ _ => v == w
  | _ => false

/-- The pattern table applied to an operator `c` and its simplified children
`L` and `R`, row by row in the order of the specification. -/
def simplifyTable (c : Char) (L R : ExpTree) : ExpTree :=
  if c = '*' ∧ (isNumberOf 0 L = true ∨ isNumberOf 0 R = true) then toNumber 0
  else if c = '*' ∧ isNumberOf 1 L = true then R
  else if c = '*' ∧ isNumberOf 1 R = true then L
  else if c = '/' ∧ isNumberOf 1 R = true then L
  else if c = '+' ∧ isNumberOf 0 L = true then R
  else if c = '+' ∧ isNumberOf 0 R = true then L
  else if c = '-' ∧ isNumberOf 0 R = true then L
  else .node (.symbol c) L R

/-- Bottom-up simplification by the pattern table: leaves stay, an operator
node has both children simplified and is then looked up in the table. -/
def simplifySpec : ExpTree → ExpTree
  | .null => .null
  | .node (.symbol c) l r => simplifyTable c (simplifySpec l) (simplifySpec r)
  | .node t l r => .node t l r

/-- The tree contains an identifier named `x`. -/
def containsX : ExpTree → Bool
  | .null => false
  | .node (.identifier s) l r => s == "x" || containsX l || containsX r
  | .node _ l r => containsX l || containsX r

/-! ## Trees in memory: differentiation with node addresses

To speak of one node under two parents a node needs an identity.  Here a tree
carries, at every node, the address the node is allocated at.  Storing a
pointer in a child slot puts the subtree it points to there, addresses
included, so a pointer stored in two slots shows as the same address occurring
twice.  `newExpTreeNode` allocates: it takes the next free address `next` and
moves `next` on; no node is freed by `duplicate` or `differentiate`.  An
assignment through `(*root)->` overwrites the node and keeps its address. -/

/-- A tree in memory: `null`, or a node at an address with payload and
children. -/
inductive MemTree
  | null
  | node (addr : Nat) (t : Token) (left right : MemTree)
deriving DecidableEq, Repr

/-- Whether the pointer is `NULL`. -/
def MemTree.isNull : MemTree → Bool
  | .null => true
  | .node _ _ _ _ => false

/-- The number of nodes. -/
def MemTree.size : MemTree → Nat
  | .null => 0
  | .node _ _ l r => 1 + l.size + r.size

/-- The addresses of the nodes of the tree, each as often as the tree holds a
node at it. -/
def MemTree.addrs : MemTree → Multiset Nat
  | .null => 0
  | .node a _ l r => {a} + l.addrs + r.addrs

/-- The tree without its addresses. -/
def MemTree.erase : MemTree → ExpTree
  | .null => .null
  | .node _ t l r => .node t l.erase r.erase

/-- The function `duplicate` with allocation: the new node is allocated first,
then the copy of the left child, then the copy of the right child.  Returns the
copy and the next free address. -/
def duplicateMem : MemTree → Nat → MemTree × Nat
  | .null, next => (.null, next)
  | .node _ t l r, next =>
    let dl := if l.isNull then (MemTree.null, next + 1) else duplicateMem l (next + 1)
    let dr := if r.isNull then (MemTree.null, dl.2) else duplicateMem r dl.2
    (.node next t dl.1 dr.1, dr.2)

/-- What `differentiate` leaves: the tree at `*root`, the flag and the next
free address. -/
structure MemResult where
  tree : MemTree
  flag : Int
  next : Nat
deriving DecidableEq, Repr

/-- The function `differentiate` with allocation.  The product rule allocates
`multiplication1` and `multiplication2`, then copies and differentiates the
left child, then the right child; the quotient rule allocates `quotient`,
`multiplication1`, `multiplication2` and `denominator`, copies and
differentiates both children and then copies the right child twice more. -/
def differentiateMem (root : MemTree) (differentVar : Int) (next : Nat) : MemResult :=
  match root with
  | .null => ⟨.null, differentVar, next⟩
  | .node a (.number _) l r => ⟨.node a (.number 0) l r, differentVar, next⟩
  | .node a (.identifier s) l r =>
    if s ≠ "x" then ⟨.node a (.number 0) l r, differentVar, next⟩
    else ⟨.node a (.number 1) l r, 0, next⟩
  | .node a (.symbol c) l r =>
    if c = '+' then
      let dl := differentiateMem l differentVar next
      let dr := differentiateMem r dl.flag dl.next
      ⟨.node a (.symbol c) dl.tree dr.tree, dr.flag, dr.next⟩
    else if c = '-' then
      let dl := differentiateMem l differentVar next
      let dr := differentiateMem r dl.flag dl.next
      ⟨.node a (.symbol c) dl.tree dr.tree, dr.flag, dr.next⟩
    else if c = '*' then
      let c1 := duplicateMem l (next + 2)
      let p1 := differentiateMem c1.1 differentVar c1.2
      let c2 := duplicateMem r p1.next
      let p2 := differentiateMem c2.1 p1.flag c2.2
      ⟨.node a (.symbol '+')
        (.node next (.symbol '*') p1.tree r)
        (.node (next + 1) (.symbol '*') l p2.tree), p2.flag, p2.next⟩
    else if c = '/' then
      let c1 := duplicateMem l (next + 4)
      let p1 := differentiateMem c1.1 differentVar c1.2
      let c2 := duplicateMem r p1.next
      let p2 := differentiateMem c2.1 p1.flag c2.2
      let p3 := duplicateMem r p2.next
      let p4 := duplicateMem r p3.2
      ⟨.node a (.symbol c)
        (.node next (.symbol '-')
          (.node (next + 1) (.symbol '*') p1.tree r)
          (.node (next + 2) (.symbol '*') l p2.tree))
        (.node (next + 3) (.symbol '*') p3.1 p4.1), p2.flag, p4.2⟩
    else ⟨.node a (.symbol c) l r, differentVar, next⟩
termination_by root.size
decreasing_by
  all_goals
    have hif : ∀ (l : MemTree) (m : Nat),
        (if l.isNull = true then (MemTree.null, m) else duplicateMem l m) =
          duplicateMem l m := by
      intro l m
      cases l <;> rfl
    have hd : ∀ (t : MemTree) (n : Nat), (duplicateMem t n).1.size = t.size := by
      intro t
      induction t with
      | null => intro n; rfl
      | node a t l r ihl ihr =>
        intro n
        rw [duplicateMem]
        simp only [hif, MemTree.size, ihl, ihr]
    simp only [hd, MemTree.size]
    omega

/-! ## Theorems -/

theorem extendAll_append (e : GExpr) (ps qs : List (BinOp × GFactor)) :
    extendAll e (ps ++ qs) = extendAll (extendAll e ps) qs := by
  induction ps generalizing e with
  | nil => rfl
  | cons p ps ih => simp [extendAll, ih]

theorem pairsTokens_append (ps qs : List (BinOp × GFactor)) :
    pairsTokens (ps ++ qs) = pairsTokens ps ++ pairsTokens qs := by
  induction ps with
  | nil => rfl
  | cons p ps ih => simp [pairsTokens, ih]

theorem gterm_tokens_flat : ∀ t : GTerm,
    t.tokens = t.first.tokens ++ pairsTokens t.pairs
  | .factor f => by simp [GTerm.tokens, GTerm.first, GTerm.pairs, pairsTokens]
  | .bin t m f => by
    simp [GTerm.tokens, GTerm.first, GTerm.pairs, pairsTokens, pairsTokens_append,
      gterm_tokens_flat t, BinOp.char]

theorem gexpr_tokens_flat : ∀ e : GExpr,
    e.tokens = e.first.tokens ++ pairsTokens e.pairs
  | .term t => by simp [GExpr.tokens, GExpr.first, GExpr.pairs, gterm_tokens_flat t]
  | .bin e a t => by
    simp [GExpr.tokens, GExpr.first, GExpr.pairs, pairsTokens, pairsTokens_append,
      gexpr_tokens_flat e, gterm_tokens_flat t, BinOp.char]

theorem gterm_extendAll_term : ∀ t : GTerm,
    extendAll (.term (.factor t.first)) t.pairs = .term t
  | .factor f => by simp [GTerm.first, GTerm.pairs, extendAll]
  | .bin t m f => by
    simp [GTerm.first, GTerm.pairs, extendAll, extendAll_append,
      gterm_extendAll_term t, extend]

theorem gterm_extendAll_bin (e : GExpr) (a : AddOp) : ∀ t : GTerm,
    extendAll (.bin e a (.factor t.first)) t.pairs = .bin e a t
  | .factor f => by simp [GTerm.first, GTerm.pairs, extendAll]
  | .bin t m f => by
    simp [GTerm.first, GTerm.pairs, extendAll, extendAll_append,
      gterm_extendAll_bin e a t, extend]

theorem gexpr_extendAll_flat : ∀ e : GExpr,
    extendAll (.term (.factor e.first)) e.pairs = e
  | .term t => by simp [GExpr.first, GExpr.pairs, gterm_extendAll_term t]
  | .bin e a t => by
    simp [GExpr.first, GExpr.pairs, extendAll, extendAll_append,
      gexpr_extendAll_flat e, extend, gterm_extendAll_bin e a t]

/-! ### Steps of the loop on the tokens of a derivation -/

theorem getPrecedence_add (a : AddOp) : getPrecedence a.char = 1 := by
  cases a <;> rfl

theorem getPrecedence_mul (m : MulOp) : getPrecedence m.char = 2 := by
  cases m <;> rfl

theorem isOperator_binOp (op : BinOp) : isOperator op.char = true := by
  rcases op with a | m
  · cases a <;> rfl
  · cases m <;> rfl

theorem binOp_ne_open (op : BinOp) : op.char ≠ '(' := by
  rcases op with a | m
  · cases a <;> decide
  · cases m <;> decide

theorem binOp_ne_close (op : BinOp) : op.char ≠ ')' := by
  rcases op with a | m
  · cases a <;> decide
  · cases m <;> decide

theorem plain_symbol (m : Layout) (c : Char) : m.plain (.symbol c) = true := rfl

theorem readSymbol_symbol (m : Layout) (c : Char) : m.readSymbol (.symbol c) = c := rfl

theorem plain_readOpen (m : Layout) (tok : Token) (h : m.plain tok = true) :
    m.readSymbol tok = '(' ↔ tok = .symbol '(' := by
  rcases tok with w | s | c
  · simp only [Layout.plain, Token.isOperand, Bool.not_true, Bool.false_or,
      Bool.and_eq_true, bne_iff_ne] at h
    simp [h.1]
  · simp only [Layout.plain, Token.isOperand, Bool.not_true, Bool.false_or,
      Bool.and_eq_true, bne_iff_ne] at h
    simp [h.1]
  · simp [Layout.readSymbol]

theorem plain_readClose (m : Layout) (tok : Token) (h : m.plain tok = true) :
    m.readSymbol tok = ')' ↔ tok = .symbol ')' := by
  rcases tok with w | s | c
  · simp only [Layout.plain, Token.isOperand, Bool.not_true, Bool.false_or,
      Bool.and_eq_true, bne_iff_ne] at h
    simp [h.2]
  · simp only [Layout.plain, Token.isOperand, Bool.not_true, Bool.false_or,
      Bool.and_eq_true, bne_iff_ne] at h
    simp [h.2]
  · simp [Layout.readSymbol]

theorem blank_plain (tok : Token) : Layout.blank.plain tok = true := by
  rcases tok with w | s | c <;> rfl

theorem plainOn_cons (m : Layout) (tok : Token) (rest : List Token) :
    m.plainOn (tok :: rest) = (m.plain tok && m.plainOn rest) := rfl

theorem plainOn_append (m : Layout) (A B : List Token) :
    m.plainOn (A ++ B) = (m.plainOn A && m.plainOn B) := by
  simp [Layout.plainOn]

theorem closeStep_plain (m : Layout)
    (k : List Token → List ExpTree → Option ExpTree → Int → Int → Int →
      Option ExpTree → Run Result)
    (tok : Token) (rest : List Token) (stack : List ExpTree) (tempo : Option ExpTree)
    (prio cur : Int) (paren : Int) (tp : Option ExpTree) (h : m.plain tok = true) :
    closeStep m k tok rest stack tempo prio cur paren tp =
      if tok = .symbol ')' then finish rest stack tp (paren - 1) 1
      else operatorStep k (tok :: rest) stack tempo prio cur paren tp := by
  unfold closeStep
  simp only [plain_readClose m tok h]

theorem loop_zero (m : Layout) (lp : List Token) (stack : List ExpTree)
    (tempo : Option ExpTree) (prio cur paren : Int) (tp : Option ExpTree) :
    treeInfixExprLoop m 0 lp stack tempo prio cur paren tp = .diverge := by
  rw [treeInfixExprLoop]

theorem loop_nil (m : Layout) (fuel : Nat) (stack : List ExpTree)
    (tempo : Option ExpTree) (prio cur paren : Int) (tp : Option ExpTree) :
    treeInfixExprLoop m (fuel + 1) [] stack tempo prio cur paren tp =
      finish [] stack tp paren 1 := by
  rw [treeInfixExprLoop]

theorem loop_plain_cons (m : Layout) (fuel : Nat) (tok : Token) (rest : List Token)
    (stack : List ExpTree) (tempo : Option ExpTree) (prio cur paren : Int)
    (tp : Option ExpTree) (h : m.plain tok = true) :
    treeInfixExprLoop m (fuel + 1) (tok :: rest) stack tempo prio cur paren tp =
      if tok = .symbol '(' then
        match treeInfixExprLoop m fuel rest [] none (-1) (-1) (paren + 1) tempo with
        | .done r =>
          if r.ret ≠ 0 then
            match r.tp with
            | none => .undefined
            | some t =>
              afterOperand m (treeInfixExprLoop m fuel) r.lp (t :: stack) (some t)
                prio (prio + 1) r.paren tp
          else .done ⟨0, r.lp, tp, r.paren⟩
        | .abort => .abort
        | .undefined => .undefined
        | .diverge => .diverge
      else closeStep m (treeInfixExprLoop m fuel) tok rest stack tempo prio cur paren tp := by
  rw [treeInfixExprLoop]
  simp only [plain_readOpen m tok h]

theorem closeStep_blank
    (k : List Token → List ExpTree → Option ExpTree → Int → Int → Int →
      Option ExpTree → Run Result)
    (tok : Token) (rest : List Token) (stack : List ExpTree) (tempo : Option ExpTree)
    (prio cur : Int) (paren : Int) (tp : Option ExpTree) :
    closeStep Layout.blank k tok rest stack tempo prio cur paren tp =
      if tok = .symbol ')' then finish rest stack tp (paren - 1) 1
      else operatorStep k (tok :: rest) stack tempo prio cur paren tp :=
  closeStep_plain Layout.blank k tok rest stack tempo prio cur paren tp (blank_plain tok)

theorem loop_blank_cons (fuel : Nat) (tok : Token) (rest : List Token)
    (stack : List ExpTree) (tempo : Option ExpTree) (prio cur paren : Int)
    (tp : Option ExpTree) :
    treeInfixExprLoop Layout.blank (fuel + 1) (tok :: rest) stack tempo prio cur paren tp =
      if tok = .symbol '(' then
        match treeInfixExprLoop Layout.blank fuel rest [] none (-1) (-1) (paren + 1)
            tempo with
        | .done r =>
          if r.ret ≠ 0 then
            match r.tp with
            | none => .undefined
            | some t =>
              afterOperand Layout.blank (treeInfixExprLoop Layout.blank fuel) r.lp
                (t :: stack) (some t) prio (prio + 1) r.paren tp
          else .done ⟨0, r.lp, tp, r.paren⟩
        | .abort => .abort
        | .undefined => .undefined
        | .diverge => .diverge
      else closeStep Layout.blank (treeInfixExprLoop Layout.blank fuel) tok rest stack tempo
        prio cur paren tp :=
  loop_plain_cons Layout.blank fuel tok rest stack tempo prio cur paren tp (blank_plain tok)

/-- A token list that may follow an operand in a derivation: it is empty or
starts with a symbol other than the opening parenthesis. -/
theorem follow_of_restOk (ps : List (BinOp × GFactor)) (rest : List Token) (paren : Int)
    (h : RestOk rest paren) :
    pairsTokens ps ++ rest = [] ∨
      ∃ c tl, pairsTokens ps ++ rest = .symbol c :: tl ∧ c ≠ '(' := by
  cases ps with
  | nil =>
    cases rest with
    | nil => exact Or.inl rfl
    | cons tok rest1 =>
      refine Or.inr ⟨')', rest1, ?_, by decide⟩
      simp [pairsTokens, h.1]
  | cons p ps =>
    exact Or.inr ⟨p.1.char, p.2.tokens ++ (pairsTokens ps ++ rest), by simp [pairsTokens],
      binOp_ne_open p.1⟩

theorem finish_stackOf (e : GExpr) (lp : List Token) (tp : Option ExpTree)
    (paren checker : Int) :
    finish lp (stackOf e) tp paren checker =
      .done ⟨if lp = [] ∧ paren ≠ 0 then 0 else checker, lp, some e.tree, paren⟩ := by
  rcases e with t | ⟨e, a, t⟩ <;> rcases t with f | ⟨t, m, f⟩ <;>
    simp [finish, stackOf, attachAll, setRight, GExpr.tree, GTerm.tree]

theorem pushOperator_stackOf (e : GExpr) (op : BinOp) (tempo : Option ExpTree) :
    ∃ stk tempo1, pushOperator op.char (prioOf e) (stackOf e) tempo = .done (stk, tempo1) ∧
      ∀ f : GFactor, f.tree :: stk = stackOf (extend e op f) := by
  rcases e with t | ⟨e, a, t⟩ <;> rcases t with f | ⟨t, m, f⟩ <;> rcases op with b | n <;>
    simp [pushOperator, stackOf, prioOf, extend, BinOp.char, getPrecedence_add,
      getPrecedence_mul, newExpTreeNode, attachAll, setRight, GExpr.tree, GTerm.tree]

theorem prioOf_extend (e : GExpr) (op : BinOp) (f : GFactor) :
    getPrecedence op.char = prioOf (extend e op f) := by
  rcases e with t | ⟨e, a, t⟩ <;> rcases op with b | n <;>
    simp [prioOf, extend, BinOp.char, getPrecedence_add, getPrecedence_mul]

theorem stackOf_ne_nil (e : GExpr) : stackOf e ≠ [] := by
  rcases e with t | ⟨e, a, t⟩ <;> rcases t with f | ⟨t, m, f⟩ <;> simp [stackOf]

theorem loop_follow (fuel : Nat) (R : List Token) (stack : List ExpTree)
    (tempo : Option ExpTree) (prio cur paren : Int) (tp : Option ExpTree)
    (h : R = [] ∨ ∃ c tl, R = .symbol c :: tl ∧ c ≠ '(') :
    treeInfixExprLoop Layout.blank (fuel + 1) R stack tempo prio cur paren tp =
      afterOperand Layout.blank (treeInfixExprLoop Layout.blank fuel) R stack tempo prio cur paren tp := by
  rcases h with h | ⟨c, tl, h, hc⟩
  · subst h
    simp [loop_nil, afterOperand]
  · subst h
    simp [loop_blank_cons, afterOperand, hc]

theorem operandStep_follow
    (k : List Token → List ExpTree → Option ExpTree → Int → Int → Int →
      Option ExpTree → Run Result)
    (R : List Token) (stack : List ExpTree) (tempo : Option ExpTree)
    (cur paren : Int) (tp : Option ExpTree)
    (h : R = [] ∨ ∃ c tl, R = .symbol c :: tl) :
    operandStep k R stack tempo cur paren tp = k R stack tempo cur cur paren tp := by
  rcases h with h | ⟨c, tl, h⟩ <;> subst h <;>
    simp [operandStep, valueNumber, valueIdentifier]

theorem operandStep_number
    (k : List Token → List ExpTree → Option ExpTree → Int → Int → Int →
      Option ExpTree → Run Result)
    (w : ℚ) (R : List Token) (stack : List ExpTree) (tempo : Option ExpTree)
    (cur paren : Int) (tp : Option ExpTree)
    (h : R = [] ∨ ∃ c tl, R = .symbol c :: tl) :
    operandStep k (.number w :: R) stack tempo cur paren tp =
      k R (.node (.number w) .null .null :: stack) tempo cur cur paren tp := by
  rcases h with h | ⟨c, tl, h⟩ <;> subst h <;>
    simp [operandStep, valueNumber, valueIdentifier, newExpTreeNode]

theorem operandStep_identifier
    (k : List Token → List ExpTree → Option ExpTree → Int → Int → Int →
      Option ExpTree → Run Result)
    (s : String) (R : List Token) (stack : List ExpTree) (tempo : Option ExpTree)
    (cur paren : Int) (tp : Option ExpTree)
    (h : R = [] ∨ ∃ c tl, R = .symbol c :: tl) :
    operandStep k (.identifier s :: R) stack tempo cur paren tp =
      k R (.node (.identifier s) .null .null :: stack) tempo cur cur paren tp := by
  rcases h with h | ⟨c, tl, h⟩ <;> subst h <;>
    simp [operandStep, valueNumber, valueIdentifier, newExpTreeNode]

theorem valueOperator_factor (f : GFactor) (X : List Token) :
    valueOperator (f.tokens ++ X) = none := by
  rcases f with w | s | e <;> simp [GFactor.tokens, valueOperator, isOperator]

theorem factor_tokens_ne_nil (f : GFactor) (X : List Token) : f.tokens ++ X ≠ [] := by
  rcases f with w | s | e <;> simp [GFactor.tokens]

/-- An operator of a derivation, met with the stack of the expression read so
far, is pushed and the iteration goes on with the operand that follows. -/
theorem closeStep_binOp
    (k : List Token → List ExpTree → Option ExpTree → Int → Int → Int →
      Option ExpTree → Run Result)
    (e : GExpr) (op : BinOp) (f : GFactor) (X : List Token) (tempo : Option ExpTree)
    (cur paren : Int) (tp : Option ExpTree) :
    ∃ stk tempo1, (∀ g : GFactor, g.tree :: stk = stackOf (extend e op g)) ∧
      closeStep Layout.blank k (.symbol op.char) (f.tokens ++ X) (stackOf e) tempo (prioOf e) cur paren tp
        = operandStep k (f.tokens ++ X) stk tempo1 (getPrecedence op.char) paren tp := by
  obtain ⟨stk, tempo1, hpush, hstk⟩ := pushOperator_stackOf e op tempo
  refine ⟨stk, tempo1, hstk, ?_⟩
  have h1 : valueOperator (.symbol op.char :: (f.tokens ++ X)) =
      some (op.char, f.tokens ++ X) := by
    simp [valueOperator, isOperator_binOp op]
  have h2 := valueOperator_factor f X
  have h3 := factor_tokens_ne_nil f X
  have h4 : (Token.symbol op.char = Token.symbol ')') = False := by
    simp [binOp_ne_close op]
  simp only [closeStep_blank, operatorStep, h1, h2, hpush, h4, if_false, stackOf_ne_nil, h3,
    and_false]

/-- A parenthesised operand whose recursive call returns the tree `t` at the
input `R` is pushed, and the loop is then where a leaf would have left it. -/
theorem loop_paren (fuel : Nat) (inner R : List Token) (t : ExpTree)
    (stack : List ExpTree) (tempo : Option ExpTree) (prio cur paren : Int)
    (tp : Option ExpTree)
    (hcall : treeInfixExprLoop Layout.blank fuel (inner ++ .symbol ')' :: R) [] none (-1) (-1)
      (paren + 1) tempo = .done ⟨1, R, some t, paren⟩)
    (hR : R = [] ∨ ∃ c tl, R = .symbol c :: tl ∧ c ≠ '(') :
    treeInfixExprLoop Layout.blank (fuel + 1) (.symbol '(' :: (inner ++ .symbol ')' :: R)) stack tempo
        prio cur paren tp =
      treeInfixExprLoop Layout.blank (fuel + 1) R (t :: stack) (some t) prio (prio + 1) paren tp := by
  rw [loop_follow fuel R _ _ _ _ _ _ hR]
  simp [loop_blank_cons, hcall]

theorem follow_weaken {R : List Token}
    (h : R = [] ∨ ∃ c tl, R = .symbol c :: tl ∧ c ≠ '(') :
    R = [] ∨ ∃ c tl, R = .symbol c :: tl := by
  rcases h with h | ⟨c, tl, h, _⟩
  · exact Or.inl h
  · exact Or.inr ⟨c, tl, h⟩

theorem restOk_close (R : List Token) (paren : Int) (h : R = [] → paren = 0) :
    RestOk (.symbol ')' :: R) (paren + 1) := by
  refine ⟨rfl, fun hR => ?_⟩
  have := h hR
  omega

theorem closeResult_close (t : ExpTree) (R : List Token) (paren : Int) :
    closeResult t (.symbol ')' :: R) (paren + 1) = .done ⟨1, R, some t, paren⟩ := by
  simp [closeResult]

/-- The loop on the tokens of a derivation.  First part: with the stack of the
expression `e` read so far, the remaining operator and factor pairs `ps` are
read and the call returns the tree of `e` extended by `ps`.  Second part: a
fresh call reads a whole expression.  `L` bounds the length of the input. -/
theorem loop_derivation (L : Nat) :
    (∀ (ps : List (BinOp × GFactor)) (e : GExpr) (rest : List Token) (fuel : Nat)
        (tempo : Option ExpTree) (cur paren : Int) (tp : Option ExpTree),
        RestOk rest paren → (pairsTokens ps ++ rest).length ≤ L →
        (pairsTokens ps ++ rest).length + 1 ≤ fuel →
        treeInfixExprLoop Layout.blank fuel (pairsTokens ps ++ rest) (stackOf e) tempo (prioOf e) cur
          paren tp = closeResult (extendAll e ps).tree rest paren) ∧
    (∀ (e : GExpr) (rest : List Token) (fuel : Nat) (paren : Int) (tp : Option ExpTree),
        RestOk rest paren → (e.tokens ++ rest).length ≤ L →
        (e.tokens ++ rest).length + 1 ≤ fuel →
        treeInfixExprLoop Layout.blank fuel (e.tokens ++ rest) [] none (-1) (-1) paren tp =
          closeResult e.tree rest paren) := by
  induction L using Nat.strong_induction_on with
  | _ L ih =>
  constructor
  · intro ps e rest fuel tempo cur paren tp hrest hL hfuel
    obtain ⟨fuel1, rfl⟩ : ∃ n, fuel = n + 1 := ⟨fuel - 1, by omega⟩
    cases ps with
    | nil =>
      simp only [pairsTokens, List.nil_append, extendAll]
      cases rest with
      | nil =>
        have hp : paren = 0 := hrest
        simp [loop_nil, finish_stackOf, closeResult, hp]
      | cons tok rest1 =>
        obtain ⟨rfl, h2⟩ := hrest
        have h3 : ¬ (rest1 = [] ∧ ¬ paren - 1 = 0) := fun h => h.2 (h2 h.1)
        simp [loop_blank_cons, closeStep_blank, finish_stackOf, closeResult, h3]
    | cons p ps =>
      obtain ⟨op, f⟩ := p
      have hfollow := follow_of_restOk ps rest paren hrest
      have htok : pairsTokens ((op, f) :: ps) ++ rest =
          .symbol op.char :: (f.tokens ++ (pairsTokens ps ++ rest)) := by
        simp [pairsTokens]
      rw [htok] at hL hfuel ⊢
      rw [loop_follow fuel1 _ _ _ _ _ _ _ (Or.inr ⟨op.char, _, rfl, binOp_ne_open op⟩)]
      obtain ⟨stk, tempo1, hstk, hstep⟩ :=
        closeStep_binOp (treeInfixExprLoop Layout.blank fuel1) e op f (pairsTokens ps ++ rest) tempo
          cur paren tp
      simp only [afterOperand]
      rw [hstep, prioOf_extend e op f]
      simp only [List.length_cons, List.length_append] at hL hfuel
      have hIH := fun (m : Nat) (hm : m < L) => (ih m hm).1 ps (extend e op f) rest
      simp only [List.length_append] at hIH
      rcases f with w | s | e1
      · simp only [GFactor.tokens, List.cons_append, List.nil_append]
        rw [operandStep_number _ _ _ _ _ _ _ _ (follow_weaken hfollow)]
        have := hstk (.number w)
        simp only [GFactor.tree] at this
        rw [this]
        simp only [GFactor.tokens, List.length_cons, List.length_nil] at hL hfuel
        exact hIH _ (by omega) fuel1 tempo1 _ paren tp hrest (le_refl _) (by omega)
      · simp only [GFactor.tokens, List.cons_append, List.nil_append]
        rw [operandStep_identifier _ _ _ _ _ _ _ _ (follow_weaken hfollow)]
        have := hstk (.identifier s)
        simp only [GFactor.tree] at this
        rw [this]
        simp only [GFactor.tokens, List.length_cons, List.length_nil] at hL hfuel
        exact hIH _ (by omega) fuel1 tempo1 _ paren tp hrest (le_refl _) (by omega)
      · simp only [GFactor.tokens, List.cons_append, List.nil_append, List.append_assoc]
        rw [operandStep_follow _ _ _ _ _ _ _ (Or.inr ⟨_, _, rfl⟩)]
        simp only [GFactor.tokens, List.length_cons, List.length_nil, List.length_append]
          at hL hfuel
        obtain ⟨fuel2, rfl⟩ : ∃ n, fuel1 = n + 1 := ⟨fuel1 - 1, by omega⟩
        have hR0 : pairsTokens ps ++ rest = [] → paren = 0 := by
          intro h0
          have : rest = [] := (List.append_eq_nil.mp h0).2
          subst this
          exact hrest
        have hcall := (ih ((e1.tokens ++ .symbol ')' :: (pairsTokens ps ++ rest)).length)
          (by simp only [List.length_append, List.length_cons]; omega)).2 e1
          (.symbol ')' :: (pairsTokens ps ++ rest)) fuel2 (paren + 1) tempo1
          (restOk_close _ _ hR0) (le_refl _)
          (by simp only [List.length_append, List.length_cons]; omega)
        rw [closeResult_close] at hcall
        rw [loop_paren fuel2 _ _ _ _ _ _ _ _ _ hcall hfollow]
        have := hstk (.paren e1)
        simp only [GFactor.tree] at this
        rw [this]
        exact hIH _ (by omega) (fuel2 + 1) _ _ paren tp hrest (le_refl _) (by omega)
  · intro e rest fuel paren tp hrest hL hfuel
    obtain ⟨fuel1, rfl⟩ : ∃ n, fuel = n + 1 := ⟨fuel - 1, by omega⟩
    have hfollow := follow_of_restOk e.pairs rest paren hrest
    have hIH := fun (m : Nat) (hm : m < L) =>
      (ih m hm).1 e.pairs (.term (.factor e.first)) rest
    simp only [List.length_append] at hIH
    rw [gexpr_extendAll_flat] at hIH
    rw [gexpr_tokens_flat e, List.append_assoc] at hL hfuel ⊢
    simp only [List.length_append] at hL hfuel
    generalize e.first = f at *
    rcases f with w | s | e1
    · simp only [GFactor.tokens, List.length_cons, List.length_nil] at hL hfuel
      have h1 : treeInfixExprLoop Layout.blank (fuel1 + 1)
          (.number w :: (pairsTokens e.pairs ++ rest)) [] none (-1) (-1) paren tp =
          operandStep (treeInfixExprLoop Layout.blank fuel1) (.number w :: (pairsTokens e.pairs ++ rest))
            [] none (-1) paren tp := by
        simp [loop_blank_cons, closeStep_blank, operatorStep, valueOperator]
      simp only [GFactor.tokens, List.cons_append, List.nil_append]
      rw [h1, operandStep_number _ _ _ _ _ _ _ _ (follow_weaken hfollow)]
      have := hIH _ (by omega : (pairsTokens e.pairs).length + rest.length < L) fuel1 none
        (-1) paren tp hrest (le_refl _) (by omega)
      simpa [stackOf, prioOf, GFactor.tree] using this
    · simp only [GFactor.tokens, List.length_cons, List.length_nil] at hL hfuel
      have h1 : treeInfixExprLoop Layout.blank (fuel1 + 1)
          (.identifier s :: (pairsTokens e.pairs ++ rest)) [] none (-1) (-1) paren tp =
          operandStep (treeInfixExprLoop Layout.blank fuel1)
            (.identifier s :: (pairsTokens e.pairs ++ rest)) [] none (-1) paren tp := by
        simp [loop_blank_cons, closeStep_blank, operatorStep, valueOperator]
      simp only [GFactor.tokens, List.cons_append, List.nil_append]
      rw [h1, operandStep_identifier _ _ _ _ _ _ _ _ (follow_weaken hfollow)]
      have := hIH _ (by omega : (pairsTokens e.pairs).length + rest.length < L) fuel1 none
        (-1) paren tp hrest (le_refl _) (by omega)
      simpa [stackOf, prioOf, GFactor.tree] using this
    · simp only [GFactor.tokens, List.length_cons, List.length_nil, List.length_append]
        at hL hfuel
      simp only [GFactor.tokens, List.cons_append, List.nil_append, List.append_assoc]
      have hR0 : pairsTokens e.pairs ++ rest = [] → paren = 0 := by
        intro h0
        have : rest = [] := (List.append_eq_nil.mp h0).2
        subst this
        exact hrest
      have hcall := (ih ((e1.tokens ++ .symbol ')' :: (pairsTokens e.pairs ++ rest)).length)
        (by simp only [List.length_append, List.length_cons]; omega)).2 e1
        (.symbol ')' :: (pairsTokens e.pairs ++ rest)) fuel1 (paren + 1) none
        (restOk_close _ _ hR0) (le_refl _)
        (by simp only [List.length_append, List.length_cons]; omega)
      rw [closeResult_close] at hcall
      rw [loop_paren fuel1 _ _ _ _ _ _ _ _ _ hcall hfollow]
      have := hIH _ (by omega : (pairsTokens e.pairs).length + rest.length < L) (fuel1 + 1)
        (some e1.tree) (-1 + 1) paren tp hrest (le_refl _) (by omega)
      simpa [stackOf, prioOf, GFactor.tree] using this

/-- A fresh call at counter 0 on the tokens of a derivation returns success,
the empty input, the tree of the derivation and counter 0. -/
theorem treeInfixExpr_derivation (e : GExpr) (tp : Option ExpTree) :
    treeInfixExpr Layout.blank e.tokens tp 0 = .done ⟨1, [], some e.tree, 0⟩ := by
  have h := (loop_derivation (e.tokens ++ []).length).2 e [] ((e.tokens ++ []).length + 1)
    0 tp rfl (le_refl _) (le_refl _)
  simpa [treeInfixExpr, closeResult] using h

theorem isNull_node (t : Token) (l r : ExpTree) : (ExpTree.node t l r).isNull = false := rfl

mutual
theorem gexpr_tree_wellFormed : ∀ e : GExpr,
    e.tree.isNull = false ∧ wellFormed e.tree = true
  | .term t => by simpa [GExpr.tree] using gterm_tree_wellFormed t
  | .bin e a t => by
    have h1 := gexpr_tree_wellFormed e
    have h2 := gterm_tree_wellFormed t
    have h3 : isOperator a.char = true := isOperator_binOp (.add a)
    simp [GExpr.tree, wellFormed, isNull_node, h1, h2, h3]
theorem gterm_tree_wellFormed : ∀ t : GTerm,
    t.tree.isNull = false ∧ wellFormed t.tree = true
  | .factor f => by simpa [GTerm.tree] using gfactor_tree_wellFormed f
  | .bin t m f => by
    have h1 := gterm_tree_wellFormed t
    have h2 := gfactor_tree_wellFormed f
    have h3 : isOperator m.char = true := isOperator_binOp (.mul m)
    simp [GTerm.tree, wellFormed, isNull_node, h1, h2, h3]
theorem gfactor_tree_wellFormed : ∀ f : GFactor,
    f.tree.isNull = false ∧ wellFormed f.tree = true
  | .number w => by simp [GFactor.tree, wellFormed, ExpTree.isNull]
  | .identifier s => by simp [GFactor.tree, wellFormed, ExpTree.isNull]
  | .paren e => by simpa [GFactor.tree] using gexpr_tree_wellFormed e
end

theorem operand_factor (a : Token) (h : a.isOperand = true) :
    ∃ f : GFactor, f.tokens = [a] ∧ f.tree = leaf a := by
  rcases a with w | s | c
  · exact ⟨.number w, rfl, rfl⟩
  · exact ⟨.identifier s, rfl, rfl⟩
  · simp [Token.isOperand] at h

theorem isOperator_cases (c : Char) (h : isOperator c = true) :
    (∃ a : AddOp, c = a.char) ∨ (∃ m : MulOp, c = m.char) := by
  simp only [isOperator, Bool.or_eq_true, decide_eq_true_eq] at h
  rcases h with ((h | h) | h) | h
  · exact Or.inl ⟨.plus, h⟩
  · exact Or.inl ⟨.minus, h⟩
  · exact Or.inr ⟨.times, h⟩
  · exact Or.inr ⟨.divide, h⟩

/-! ### What every returned result satisfies -/

theorem balance_append (A B : List Token) : balance (A ++ B) = balance A + balance B := by
  induction A with
  | nil => simp [balance]
  | cons a A ih => simp [balance, ih, add_assoc]

theorem chainAll_cons_cons (bad : Token → Token → Bool) (a b : Token) (l : List Token) :
    chainAll bad (a :: b :: l) = (!bad a b && chainAll bad (b :: l)) := rfl

theorem chainAll_split (bad : Token → Token → Bool) (X Y : List Token) (a : Token) :
    chainAll bad (a :: (X ++ Y)) =
      (chainAll bad (a :: X) && chainAll bad (X.getLastD a :: Y)) := by
  induction X generalizing a with
  | nil => simp [chainAll]
  | cons x X ih =>
    simp only [List.cons_append, chainAll_cons_cons, ih x, List.getLastD_cons,
      Bool.and_assoc]

theorem finish_done (lp : List Token) (stack : List ExpTree) (tp : Option ExpTree)
    (paren checker : Int) (r : Result) (h : finish lp stack tp paren checker = .done r) :
    r.lp = lp ∧ r.paren = paren ∧ r.ret = if lp = [] ∧ paren ≠ 0 then 0 else checker := by
  unfold finish at h
  split at h
  · cases h
    exact ⟨rfl, rfl, rfl⟩
  · split at h
    · cases h
    · cases h
      exact ⟨rfl, rfl, rfl⟩

theorem post_of_finish (prev : Token) (lp : List Token) (stack : List ExpTree)
    (tp : Option ExpTree) (paren checker : Int) (r : Result)
    (h : finish lp stack tp paren checker = .done r)
    (hc : checker ≠ 0 → chainAll anyDefect (prev :: lp.take 1) = true) :
    Post prev lp paren r := by
  obtain ⟨h1, h2, h3⟩ := finish_done lp stack tp paren checker r h
  refine ⟨fun hl hp => ?_, [], by simp [h1], by simp [h2, balance], fun hr => ?_⟩
  · rw [h3, if_pos ⟨h1 ▸ hl, h2 ▸ hp⟩]
  · rw [h1]
    apply hc
    intro hc0
    apply hr
    rw [h3, hc0]
    simp

theorem post_cons (prev a : Token) (rest : List Token) (paren : Int) (r : Result)
    (h : Post a rest (paren + tokBalance a) r)
    (hb : r.ret ≠ 0 → anyDefect prev a = false) :
    Post prev (a :: rest) paren r := by
  obtain ⟨h1, P, hP, hbal, hchain⟩ := h
  refine ⟨h1, a :: P, by simp [hP], by simp [hbal, balance, add_assoc], fun hr => ?_⟩
  simp only [List.cons_append, chainAll_cons_cons, hb hr, hchain hr, Bool.not_false,
    Bool.and_self]

theorem anyDefect_close_right (x : Token) : anyDefect x (.symbol ')') = false := by
  simp [anyDefect, operatorDefect, operandDefect, Token.isOperatorTok, isOperator,
    Token.isOperand]

theorem anyDefect_close_left (y : Token) : anyDefect (.symbol ')') y = false := by
  simp [anyDefect, operatorDefect, operandDefect, Token.isOperatorTok, isOperator,
    Token.isOperand]

theorem anyDefect_open_right (x : Token) : anyDefect x (.symbol '(') = false := by
  simp [anyDefect, operatorDefect, operandDefect, Token.isOperatorTok, isOperator,
    Token.isOperand]

theorem chain_one (bad : Token → Token → Bool) (a : Token) (l : List Token) :
    chainAll bad (a :: l.take 1) = true ↔ ∀ y tl, l = y :: tl → bad a y = false := by
  cases l with
  | nil => simp [chainAll]
  | cons y tl => simp [chainAll]

theorem valueOperator_eq_none (lp : List Token) :
    valueOperator lp = none ↔ nextIsOperator lp = false := by
  rcases lp with _ | ⟨a, rest⟩
  · simp [valueOperator, nextIsOperator]
  · rcases a with w | s | c <;>
      simp [valueOperator, nextIsOperator, Token.isOperatorTok]

theorem valueOperator_symbol (c : Char) (rest : List Token) (h : isOperator c = true) :
    valueOperator (.symbol c :: rest) = some (c, rest) := by
  simp [valueOperator, h]

theorem operandStep_operand
    (k : List Token → List ExpTree → Option ExpTree → Int → Int → Int →
      Option ExpTree → Run Result)
    (a : Token) (rest : List Token) (stack : List ExpTree) (tempo : Option ExpTree)
    (cur paren : Int) (tp : Option ExpTree) (ha : a.isOperand = true) :
    operandStep k (a :: rest) stack tempo cur paren tp =
      if nextIsOperand rest = true then finish rest.tail (leaf a :: stack) tp paren 0
      else k rest (leaf a :: stack) tempo cur cur paren tp := by
  rcases a with w | s | c
  · rcases rest with _ | ⟨b, rest1⟩
    · simp [operandStep, valueNumber, valueIdentifier, nextIsOperand, leaf]
    · rcases b with w2 | s2 | c2 <;>
        simp [operandStep, valueNumber, valueIdentifier, nextIsOperand, leaf,
          Token.isOperand]
  · rcases rest with _ | ⟨b, rest1⟩
    · simp [operandStep, valueNumber, valueIdentifier, nextIsOperand, leaf]
    · rcases b with w2 | s2 | c2 <;>
        simp [operandStep, valueNumber, valueIdentifier, nextIsOperand, leaf,
          Token.isOperand]
  · simp [Token.isOperand] at ha

theorem operandStep_other
    (k : List Token → List ExpTree → Option ExpTree → Int → Int → Int →
      Option ExpTree → Run Result)
    (lp : List Token) (stack : List ExpTree) (tempo : Option ExpTree)
    (cur paren : Int) (tp : Option ExpTree) (h : nextIsOperand lp = false) :
    operandStep k lp stack tempo cur paren tp = k lp stack tempo cur cur paren tp := by
  rcases lp with _ | ⟨a, rest⟩
  · simp [operandStep, valueNumber, valueIdentifier]
  · rcases a with w | s | c
    · simp [nextIsOperand, Token.isOperand] at h
    · simp [nextIsOperand, Token.isOperand] at h
    · simp [operandStep, valueNumber, valueIdentifier]

theorem operatorStep_other
    (k : List Token → List ExpTree → Option ExpTree → Int → Int → Int →
      Option ExpTree → Run Result)
    (lp : List Token) (stack : List ExpTree) (tempo : Option ExpTree)
    (prio cur paren : Int) (tp : Option ExpTree) (h : nextIsOperator lp = false) :
    operatorStep k lp stack tempo prio cur paren tp =
      operandStep k lp stack tempo cur paren tp := by
  have := (valueOperator_eq_none lp).2 h
  simp [operatorStep, this]

theorem operatorStep_operator
    (k : List Token → List ExpTree → Option ExpTree → Int → Int → Int →
      Option ExpTree → Run Result)
    (c : Char) (rest : List Token) (stack : List ExpTree) (tempo : Option ExpTree)
    (prio cur paren : Int) (tp : Option ExpTree) (hc : isOperator c = true) :
    operatorStep k (.symbol c :: rest) stack tempo prio cur paren tp =
      if nextIsOperator rest = true then finish rest.tail stack tp paren 0
      else if stack = [] then finish rest stack tp paren 0
      else
        match pushOperator c prio stack tempo with
        | .done (stack1, tempo1) =>
          if getPrecedence c ≤ prio ∧ rest = [] then .done ⟨0, rest, tp, paren⟩
          else operandStep k rest stack1 tempo1 (getPrecedence c) paren tp
        | .abort => .abort
        | .undefined => .undefined
        | .diverge => .diverge := by
  unfold operatorStep
  rw [valueOperator_symbol c rest hc]
  by_cases hn : nextIsOperator rest = true
  · rcases rest with _ | ⟨b, rest1⟩
    · simp [nextIsOperator] at hn
    · rcases b with w | s | c2
      · simp [nextIsOperator, Token.isOperatorTok] at hn
      · simp [nextIsOperator, Token.isOperatorTok] at hn
      · have hc2 : isOperator c2 = true := by
          simpa [nextIsOperator, Token.isOperatorTok] using hn
        simp [valueOperator, hc2, nextIsOperator, Token.isOperatorTok]
  · have hn2 : nextIsOperator rest = false := by simpa using hn
    have := (valueOperator_eq_none rest).2 hn2
    simp [this, hn2]

theorem post_of_fail (prev : Token) (lp P : List Token) (paren : Int) (r : Result)
    (h0 : r.ret = 0) (hl : lp = P ++ r.lp) (hb : r.paren = paren + balance P) :
    Post prev lp paren r :=
  ⟨fun _ _ => h0, P, hl, hb, fun hr => absurd h0 hr⟩

theorem tokBalance_operand (a : Token) (h : a.isOperand = true) : tokBalance a = 0 := by
  rcases a with w | s | c
  · rfl
  · rfl
  · simp [Token.isOperand] at h

theorem tokBalance_operator (a : Token) (h : a.isOperatorTok = true) : tokBalance a = 0 := by
  rcases a with w | s | c
  · rfl
  · rfl
  · have h1 : c ≠ '(' := by
      rintro rfl
      simp [Token.isOperatorTok, isOperator] at h
    have h2 : c ≠ ')' := by
      rintro rfl
      simp [Token.isOperatorTok, isOperator] at h
    simp [tokBalance, h1, h2]

theorem anyDefect_operand_left (a y : Token) (ha : a.isOperand = true)
    (hy : y.isOperand = false) : anyDefect a y = false := by
  rcases a with w | s | c
  · simp [anyDefect, operatorDefect, operandDefect, Token.isOperatorTok, hy]
  · simp [anyDefect, operatorDefect, operandDefect, Token.isOperatorTok, hy]
  · simp [Token.isOperand] at ha

theorem anyDefect_operand_right (x a : Token) (ha : a.isOperand = true)
    (hx : x.isOperand = false) : anyDefect x a = false := by
  rcases a with w | s | c
  · simp [anyDefect, operatorDefect, operandDefect, Token.isOperatorTok, hx]
  · simp [anyDefect, operatorDefect, operandDefect, Token.isOperatorTok, hx]
  · simp [Token.isOperand] at ha

theorem anyDefect_operator_left (x y : Token) (hx : x.isOperatorTok = true)
    (hy : y.isOperatorTok = false) : anyDefect x y = false := by
  rcases x with w | s | c
  · simp [Token.isOperatorTok] at hx
  · simp [Token.isOperatorTok] at hx
  · simp [anyDefect, operatorDefect, operandDefect, Token.isOperand, hy]

theorem nextIsOperand_cons {lp : List Token} (h : nextIsOperand lp = true) :
    ∃ a rest, lp = a :: rest ∧ a.isOperand = true := by
  rcases lp with _ | ⟨a, rest⟩
  · simp [nextIsOperand] at h
  · exact ⟨a, rest, rfl, h⟩

theorem nextIsOperator_cons {lp : List Token} (h : nextIsOperator lp = true) :
    ∃ c rest, lp = .symbol c :: rest ∧ isOperator c = true := by
  rcases lp with _ | ⟨a, rest⟩
  · simp [nextIsOperator] at h
  · rcases a with w | s | c
    · simp [nextIsOperator, Token.isOperatorTok] at h
    · simp [nextIsOperator, Token.isOperatorTok] at h
    · exact ⟨c, rest, rfl, h⟩

theorem pushOperator_ne_nil (c : Char) (prio : Int) (stack stack1 : List ExpTree)
    (tempo tempo1 : Option ExpTree)
    (h : pushOperator c prio stack tempo = .done (stack1, tempo1)) : stack1 ≠ [] := by
  unfold pushOperator at h
  split at h
  · split at h
    · cases h
    · cases h
      simp
  · split at h
    · split at h
      · split at h
        · cases h
        · cases h
          simp
      · cases h
    · split at h
      · cases h
      · split at h
        · cases h
        · cases h
          simp

theorem operandStep_post
    (k : List Token → List ExpTree → Option ExpTree → Int → Int → Int →
      Option ExpTree → Run Result) (hk : KPost k)
    (prev : Token) (lp : List Token) (stack : List ExpTree) (tempo : Option ExpTree)
    (cur paren : Int) (tp : Option ExpTree) (r : Result)
    (hnop : nextIsOperator lp = false) (hpre : Pre prev stack lp)
    (h : operandStep k lp stack tempo cur paren tp = .done r) : Post prev lp paren r := by
  by_cases hopd : nextIsOperand lp = true
  · obtain ⟨a, rest, rfl, ha⟩ := nextIsOperand_cons hopd
    have ha0 := tokBalance_operand a ha
    have hb : anyDefect prev a = false := by
      by_cases hs : stack = []
      · rw [hpre.1 hs]
        exact anyDefect_operand_right _ _ ha rfl
      · exact (chain_one _ _ _).1 (hpre.2 hs) a rest rfl
    rw [operandStep_operand _ _ _ _ _ _ _ _ ha] at h
    split at h
    · rename_i hnext
      obtain ⟨b, rest1, rfl, hb1⟩ := nextIsOperand_cons hnext
      have hf := finish_done _ _ _ _ _ _ h
      have hr0 : r.ret = 0 := by
        rw [hf.2.2]
        simp
      refine post_of_fail prev _ [a, b] paren r hr0 ?_ ?_
      · simp [hf.1]
      · simp [balance, ha0, tokBalance_operand b hb1, hf.2.1]
    · rename_i hnext
      have hnext2 : nextIsOperand rest = false := by simpa using hnext
      have p1 := hk a rest (leaf a :: stack) tempo cur cur paren tp r h
        ⟨by simp, fun _ => (chain_one _ _ _).2 (fun y tl hy =>
          anyDefect_operand_left a y ha (by simpa [hy, nextIsOperand] using hnext2))⟩
      exact post_cons prev a rest paren r (by simpa [ha0] using p1) (fun _ => hb)
  · have hopd2 : nextIsOperand lp = false := by simpa using hopd
    rw [operandStep_other _ _ _ _ _ _ _ hopd2] at h
    exact hk prev lp stack tempo cur cur paren tp r h hpre

theorem operatorStep_post
    (k : List Token → List ExpTree → Option ExpTree → Int → Int → Int →
      Option ExpTree → Run Result) (hk : KPost k)
    (prev : Token) (lp : List Token) (stack : List ExpTree) (tempo : Option ExpTree)
    (prio cur paren : Int) (tp : Option ExpTree) (r : Result)
    (hpre : Pre prev stack lp)
    (h : operatorStep k lp stack tempo prio cur paren tp = .done r) :
    Post prev lp paren r := by
  by_cases hop : nextIsOperator lp = true
  · obtain ⟨c, rest, rfl, hc⟩ := nextIsOperator_cons hop
    have hc0 : tokBalance (.symbol c) = 0 := tokBalance_operator _ hc
    rw [operatorStep_operator _ _ _ _ _ _ _ _ _ hc] at h
    split at h
    · rename_i hnext
      obtain ⟨c2, rest1, rfl, hc2⟩ := nextIsOperator_cons hnext
      have hf := finish_done _ _ _ _ _ _ h
      have hr0 : r.ret = 0 := by
        rw [hf.2.2]
        simp
      refine post_of_fail prev _ [.symbol c, .symbol c2] paren r hr0 ?_ ?_
      · simp [hf.1]
      · simp [balance, hc0, tokBalance_operator (.symbol c2) hc2, hf.2.1]
    · rename_i hnext
      have hnext2 : nextIsOperator rest = false := by simpa using hnext
      split at h
      · have hf := finish_done _ _ _ _ _ _ h
        have hr0 : r.ret = 0 := by
          rw [hf.2.2]
          simp
        refine post_of_fail prev _ [.symbol c] paren r hr0 ?_ ?_
        · simp [hf.1]
        · simp [balance, hc0, hf.2.1]
      · rename_i hstack
        split at h
        · rename_i stack1 tempo1 hpush
          split at h
          · cases h
            refine post_of_fail prev _ [.symbol c] paren _ rfl ?_ ?_
            · simp
            · simp [balance, hc0]
          · have p1 := operandStep_post k hk (.symbol c) rest stack1 tempo1
              (getPrecedence c) paren tp r hnext2
              ⟨fun h0 => absurd h0 (pushOperator_ne_nil _ _ _ _ _ _ hpush),
                fun _ => (chain_one _ _ _).2 (fun y tl hy =>
                  anyDefect_operator_left _ y hc
                    (by simpa [hy, nextIsOperator] using hnext2))⟩ h
            exact post_cons prev _ rest paren r (by simpa [hc0] using p1)
              (fun _ => (chain_one _ _ _).1 (hpre.2 hstack) _ rest rfl)
        · cases h
        · cases h
        · cases h
  · have hop2 : nextIsOperator lp = false := by simpa using hop
    rw [operatorStep_other _ _ _ _ _ _ _ _ hop2] at h
    exact operandStep_post k hk prev lp stack tempo cur paren tp r hop2 hpre h

theorem closeStep_post
    (k : List Token → List ExpTree → Option ExpTree → Int → Int → Int →
      Option ExpTree → Run Result) (hk : KPost k)
    (prev tok : Token) (rest : List Token) (stack : List ExpTree)
    (tempo : Option ExpTree) (prio cur paren : Int) (tp : Option ExpTree) (r : Result)
    (hpre : Pre prev stack (tok :: rest))
    (h : closeStep Layout.blank k tok rest stack tempo prio cur paren tp = .done r) :
    Post prev (tok :: rest) paren r := by
  rw [closeStep_blank] at h
  split at h
  · rename_i htok
    subst htok
    have p0 := post_of_finish (.symbol ')') rest stack tp (paren - 1) 1 r h
      (fun _ => (chain_one _ _ _).2 (fun y _ _ => anyDefect_close_left y))
    refine post_cons prev _ rest paren r ?_ (fun _ => anyDefect_close_right prev)
    have : paren + tokBalance (.symbol ')') = paren - 1 := by
      simp [tokBalance]
      omega
    rw [this]
    exact p0
  · exact operatorStep_post k hk prev _ stack tempo prio cur paren tp r hpre h

theorem afterOperand_post
    (k : List Token → List ExpTree → Option ExpTree → Int → Int → Int →
      Option ExpTree → Run Result) (hk : KPost k)
    (prev : Token) (lp : List Token) (stack : List ExpTree)
    (tempo : Option ExpTree) (prio cur paren : Int) (tp : Option ExpTree) (r : Result)
    (hpre : Pre prev stack lp)
    (h : afterOperand Layout.blank k lp stack tempo prio cur paren tp = .done r) :
    Post prev lp paren r := by
  rcases lp with _ | ⟨tok, rest⟩
  · exact post_of_finish prev [] stack tp paren 1 r h (fun _ => by simp [chainAll])
  · exact closeStep_post k hk prev tok rest stack tempo prio cur paren tp r hpre h

/-- Every result the loop returns satisfies `Post`. -/
theorem loop_post (fuel : Nat) : KPost (treeInfixExprLoop Layout.blank fuel) := by
  induction fuel with
  | zero =>
    intro prev lp stack tempo prio cur paren tp r h _
    simp [loop_zero] at h
  | succ fuel ih =>
    intro prev lp stack tempo prio cur paren tp r h hpre
    rcases lp with _ | ⟨tok, rest⟩
    · rw [loop_nil] at h
      exact post_of_finish prev [] stack tp paren 1 r h (fun _ => by simp [chainAll])
    · rw [loop_blank_cons] at h
      split at h
      · rename_i htok
        subst htok
        split at h
        · rename_i r1 hcall
          have p1 := ih (.symbol '(') rest [] none (-1) (-1) (paren + 1) tempo r1 hcall
            ⟨fun _ => rfl, fun h0 => absurd rfl h0⟩
          obtain ⟨_, P1, hP1, hbal1, hch1⟩ := p1
          split at h
          · rename_i hret
            split at h
            · cases h
            · rename_i t ht
              have hc := hch1 hret
              rw [chainAll_split, Bool.and_eq_true] at hc
              have p2 := afterOperand_post _ ih (P1.getLastD (.symbol '(')) r1.lp
                (t :: stack) (some t) prio (prio + 1) r1.paren tp r
                ⟨fun h0 => by simp at h0, fun _ => hc.2⟩ h
              obtain ⟨hend, P2, hP2, hbal2, hch2⟩ := p2
              refine ⟨hend, .symbol '(' :: (P1 ++ P2), ?_, ?_, fun hr => ?_⟩
              · rw [hP1]
                conv_lhs => rw [hP2]
                simp
              · rw [hbal2, hbal1]
                simp [balance, tokBalance, balance_append]
                omega
              · rw [List.cons_append, chainAll_cons_cons, anyDefect_open_right,
                  List.append_assoc, chainAll_split, hc.1, hch2 hr]
                rfl
          · rename_i hret
            cases h
            refine post_of_fail prev _ (.symbol '(' :: P1) paren _ rfl ?_ ?_
            · simp [← hP1]
            · simp only [hbal1, balance, tokBalance]
              simp
              omega
        · cases h
        · cases h
        · cases h
      · exact closeStep_post _ ih prev tok rest stack tempo prio cur paren tp r hpre h

/-! ### The loop on parenthesis-free input always returns -/

theorem attachAll_total (xs : List ExpTree) (x : ExpTree) (hx : x.isNull = false)
    (hxs : ∀ y ∈ xs, y.isNull = false) :
    ∃ t, attachAll x xs = some t ∧ t.isNull = false := by
  induction xs generalizing x with
  | nil => exact ⟨x, rfl, hx⟩
  | cons y ys ih =>
    have hy := hxs y (List.mem_cons_self _ _)
    rcases y with _ | ⟨t, l, r⟩
    · simp [ExpTree.isNull] at hy
    · simp only [attachAll, setRight]
      exact ih _ rfl (fun z hz => hxs z (List.mem_cons_of_mem _ hz))

theorem finish_total (lp : List Token) (stack : List ExpTree) (tp : Option ExpTree)
    (paren checker : Int) (hs : ∀ x ∈ stack, x.isNull = false) :
    ∃ r, finish lp stack tp paren checker = .done r ∧ r.lp = lp ∧
      r.ret = if lp = [] ∧ paren ≠ 0 then 0 else checker := by
  rcases stack with _ | ⟨x, xs⟩
  · exact ⟨_, rfl, rfl, rfl⟩
  · obtain ⟨t, ht, _⟩ := attachAll_total xs x (hs x (List.mem_cons_self _ _))
      (fun z hz => hs z (List.mem_cons_of_mem _ hz))
    simp only [finish, ht]
    exact ⟨_, rfl, rfl, rfl⟩

theorem getPrecedence_operator (c : Char) (h : isOperator c = true) :
    1 ≤ getPrecedence c := by
  rcases isOperator_cases c h with ⟨a, rfl⟩ | ⟨m, rfl⟩
  · rw [getPrecedence_add]
  · rw [getPrecedence_mul]
    omega

theorem pushOperator_total (c : Char) (prio : Int) (stack : List ExpTree)
    (tempo : Option ExpTree) (hne : stack ≠ []) (hs : ∀ x ∈ stack, x.isNull = false)
    (hlen : getPrecedence c = prio → 2 ≤ stack.length) :
    ∃ stack1 tempo1, pushOperator c prio stack tempo = .done (stack1, tempo1) ∧
      stack1 ≠ [] ∧ ∀ x ∈ stack1, x.isNull = false := by
  rcases stack with _ | ⟨x, xs⟩
  · exact absurd rfl hne
  · unfold pushOperator
    split
    · refine ⟨_, _, rfl, by simp, ?_⟩
      intro z hz
      rcases List.mem_cons.1 hz with rfl | hz
      · rfl
      · exact hs z (List.mem_cons_of_mem _ hz)
    · split
      · rename_i heq
        have h2 := hlen heq
        rcases xs with _ | ⟨f, ys⟩
        · simp at h2
        · have hf := hs f (by simp)
          rcases f with _ | ⟨t, l, r⟩
          · simp [ExpTree.isNull] at hf
          · refine ⟨_, _, rfl, by simp, ?_⟩
            intro z hz
            rcases List.mem_cons.1 hz with rfl | hz
            · rfl
            · exact hs z (by simp [hz])
      · obtain ⟨t, ht, _⟩ := attachAll_total xs x (hs x (List.mem_cons_self _ _))
          (fun z hz => hs z (List.mem_cons_of_mem _ hz))
        simp only [ht]
        refine ⟨_, _, rfl, by simp, ?_⟩
        intro z hz
        rcases List.mem_singleton.1 hz with rfl
        rfl

theorem parenFree_tail {a : Token} {rest : List Token} (h : parenFree (a :: rest)) :
    parenFree rest :=
  fun t ht => h t (List.mem_cons_of_mem _ ht)

theorem operandStep_total (fuel : Nat) (paren : Int) (tp : Option ExpTree)
    (hk : ∀ lp stack tempo prio, parenFree lp → StackInv stack prio lp →
      lp.length + 1 ≤ fuel →
      ∃ r, treeInfixExprLoop Layout.blank fuel lp stack tempo prio prio paren tp = .done r ∧
        (r.ret ≠ 0 → r.lp = []))
    (lp : List Token) (stack : List ExpTree) (tempo : Option ExpTree) (q : Int)
    (hpf : parenFree lp) (hs : ∀ x ∈ stack, x.isNull = false)
    (hq : 1 ≤ q → 1 ≤ stack.length) (hnop : nextIsOperator lp = false)
    (hfuel : lp.length ≤ fuel) (hfuel1 : 1 ≤ fuel) :
    ∃ r, operandStep (treeInfixExprLoop Layout.blank fuel) lp stack tempo q paren tp = .done r ∧
      (r.ret ≠ 0 → r.lp = []) := by
  rcases lp with _ | ⟨a, rest⟩
  · rw [operandStep_other _ [] _ _ _ _ _ rfl]
    exact hk [] stack tempo q (by intro t ht; simp at ht) ⟨hs, fun h => absurd rfl h⟩
      (by simpa using hfuel1)
  · have ha : a.isOperand = true := by
      rcases hpf a (List.mem_cons_self _ _) with h | h
      · exact h
      · simp [nextIsOperator, h] at hnop
    rw [operandStep_operand _ _ _ _ _ _ _ _ ha]
    split
    · obtain ⟨r, hr, _, hret⟩ := finish_total rest.tail (leaf a :: stack) tp paren 0
        (by
          intro z hz
          rcases List.mem_cons.1 hz with rfl | hz
          · rfl
          · exact hs z hz)
      refine ⟨r, hr, fun h => ?_⟩
      rw [hret] at h
      simp at h
    · refine hk rest (leaf a :: stack) tempo q (parenFree_tail hpf) ⟨?_, ?_⟩ ?_
      · intro z hz
        rcases List.mem_cons.1 hz with rfl | hz
        · rfl
        · exact hs z hz
      · intro _ h1
        have := hq h1
        simp only [List.length_cons]
        omega
      · simpa using hfuel

theorem loop_total (fuel : Nat) (paren : Int) (tp : Option ExpTree) :
    ∀ lp stack tempo prio, parenFree lp → StackInv stack prio lp →
      lp.length + 1 ≤ fuel →
      ∃ r, treeInfixExprLoop Layout.blank fuel lp stack tempo prio prio paren tp = .done r ∧
        (r.ret ≠ 0 → r.lp = []) := by
  induction fuel with
  | zero =>
    intro lp stack tempo prio _ _ h
    omega
  | succ fuel ih =>
    intro lp stack tempo prio hpf hinv hfuel
    rcases lp with _ | ⟨tok, rest⟩
    · rw [loop_nil]
      obtain ⟨r, hr, hl, _⟩ := finish_total [] stack tp paren 1 hinv.1
      exact ⟨r, hr, fun _ => hl⟩
    · have hlen : rest.length + 1 ≤ fuel := by simpa using hfuel
      have htok := hpf tok (List.mem_cons_self _ _)
      have hopen : tok ≠ .symbol '(' := by
        rintro rfl
        simp [Token.isOperand, Token.isOperatorTok, isOperator] at htok
      have hclose : tok ≠ .symbol ')' := by
        rintro rfl
        simp [Token.isOperand, Token.isOperatorTok, isOperator] at htok
      rw [loop_blank_cons, if_neg hopen, closeStep_blank, if_neg hclose]
      by_cases hop : nextIsOperator (tok :: rest) = true
      · obtain ⟨c, rest1, heq, hc⟩ := nextIsOperator_cons hop
        obtain ⟨rfl, rfl⟩ := List.cons.inj heq
        rw [operatorStep_operator _ _ _ _ _ _ _ _ _ hc]
        split
        · obtain ⟨r, hr, _, hret⟩ := finish_total rest.tail stack tp paren 0 hinv.1
          refine ⟨r, hr, fun h => ?_⟩
          rw [hret] at h
          simp at h
        · rename_i hnext
          have hnext2 : nextIsOperator rest = false := by simpa using hnext
          split
          · obtain ⟨r, hr, _, hret⟩ := finish_total rest stack tp paren 0 hinv.1
            refine ⟨r, hr, fun h => ?_⟩
            rw [hret] at h
            simp at h
          · rename_i hstack
            obtain ⟨stack1, tempo1, hpush, hne1, hs1⟩ := pushOperator_total c prio stack
              tempo hstack hinv.1 (fun heq => hinv.2 (by simp)
                (heq ▸ getPrecedence_operator c hc))
            rw [hpush]
            simp only []
            split
            · exact ⟨_, rfl, fun h => absurd rfl h⟩
            · exact operandStep_total fuel paren tp ih rest stack1 tempo1 _
                (parenFree_tail hpf) hs1
                (fun _ => List.length_pos.2 hne1) hnext2 (by omega) (by omega)
      · have hop2 : nextIsOperator (tok :: rest) = false := by simpa using hop
        rw [operatorStep_other _ _ _ _ _ _ _ _ hop2]
        exact operandStep_total fuel paren tp ih (tok :: rest) stack tempo prio hpf hinv.1
          (fun h1 => by
            have := hinv.2 (by simp) h1
            omega)
          hop2 (by simpa using hlen) (by omega)

/-! ### Malformed neighbours make the builder fail -/

theorem chainAll_tail (bad : Token → Token → Bool) (a : Token) (l : List Token)
    (h : chainAll bad (a :: l) = true) : chainAll bad l = true := by
  rcases l with _ | ⟨b, l⟩
  · rfl
  · rw [chainAll_cons_cons, Bool.and_eq_true] at h
    exact h.2

theorem chainAll_pair (bad : Token → Token → Bool) (A : List Token) (x y : Token)
    (B : List Token) (h : chainAll bad (A ++ x :: y :: B) = true) : bad x y = false := by
  induction A with
  | nil =>
    rw [List.nil_append, chainAll_cons_cons, Bool.and_eq_true] at h
    simpa using h.1
  | cons a A ih => exact ih (chainAll_tail bad a _ h)

theorem chainAll_false (bad : Token → Token → Bool) (L : List Token)
    (h : chainAll bad L = false) :
    ∃ pre x y rest, L = pre ++ x :: y :: rest ∧ bad x y = true := by
  induction L with
  | nil => simp [chainAll] at h
  | cons a L ih =>
    rcases L with _ | ⟨b, L⟩
    · simp [chainAll] at h
    · rw [chainAll_cons_cons] at h
      by_cases hab : bad a b = true
      · exact ⟨[], a, b, L, rfl, hab⟩
      · have hab2 : bad a b = false := by simpa using hab
        rw [hab2] at h
        obtain ⟨pre, x, y, rest, hL, hxy⟩ := ih (by simpa using h)
        exact ⟨a :: pre, x, y, rest, by rw [hL]; rfl, hxy⟩

theorem prefix_pair (pre : List Token) (x y : Token) (rest K : List Token)
    (hK : K <+: pre ++ x :: y :: rest) (hlen : pre.length + 2 ≤ K.length) :
    ∃ rest1, K = pre ++ x :: y :: rest1 := by
  induction pre generalizing K with
  | nil =>
    rcases K with _ | ⟨k1, K⟩
    · simp at hlen
    · rcases K with _ | ⟨k2, K⟩
      · simp at hlen
      · rw [List.nil_append, List.cons_prefix_cons, List.cons_prefix_cons] at hK
        obtain ⟨rfl, rfl, _⟩ := hK
        exact ⟨K, rfl⟩
  | cons p pre ih =>
    rcases K with _ | ⟨k1, K⟩
    · simp at hlen
    · rw [List.cons_append, List.cons_prefix_cons] at hK
      obtain ⟨rfl, hK2⟩ := hK
      obtain ⟨rest1, rfl⟩ := ih K hK2 (by simpa using hlen)
      exact ⟨rest1, rfl⟩

theorem treeInfixExpr_post (toks : List Token) (tp : Option ExpTree) (paren : Int)
    (r : Result) (h : treeInfixExpr Layout.blank toks tp paren = .done r) :
    Post (.symbol '(') toks paren r :=
  loop_post _ _ _ _ _ _ _ _ _ _ h ⟨fun _ => rfl, fun h0 => absurd rfl h0⟩

/-- A run that returns with the cursor past `x`, where `x` and `y` are
malformed neighbours of the input (the input being preceded by an opening
parenthesis that stands for its start), returns 0. -/
theorem defect_fails (toks : List Token) (tp : Option ExpTree) (paren : Int) (r : Result)
    (pre : List Token) (x y : Token) (rest : List Token)
    (h : treeInfixExpr Layout.blank toks tp paren = .done r)
    (hsplit : .symbol '(' :: toks = pre ++ x :: y :: rest)
    (hdef : anyDefect x y = true) (hcur : r.lp.length ≤ rest.length + 1) : r.ret = 0 := by
  by_contra hr
  obtain ⟨_, P, hP, _, hchain⟩ := treeInfixExpr_post toks tp paren r h
  have hc := hchain hr
  have hlen : (Token.symbol '(' :: toks).length = (pre ++ x :: y :: rest).length := by
    rw [hsplit]
  rw [hP] at hlen
  simp only [List.length_cons, List.length_append] at hlen
  have hpre : Token.symbol '(' :: (P ++ r.lp.take 1) <+: pre ++ x :: y :: rest := by
    rw [← hsplit, List.cons_prefix_cons]
    refine ⟨rfl, ?_⟩
    conv_rhs => rw [hP]
    exact (List.prefix_append_right_inj P).2 (List.take_prefix 1 r.lp)
  have hK : pre.length + 2 ≤ (Token.symbol '(' :: (P ++ r.lp.take 1)).length := by
    simp only [List.length_cons, List.length_append, List.length_take]
    omega
  obtain ⟨rest1, hrest1⟩ := prefix_pair pre x y rest _ hpre hK
  rw [hrest1] at hc
  have := chainAll_pair anyDefect pre x y rest1 hc
  rw [this] at hdef
  cases hdef

/-- On parenthesis-free input with malformed neighbours the builder returns 0. -/
theorem parenFree_defect_fails (toks : List Token) (tp : Option ExpTree) (paren : Int)
    (pre : List Token) (x y : Token) (rest : List Token) (hpf : parenFree toks)
    (hsplit : .symbol '(' :: toks = pre ++ x :: y :: rest)
    (hdef : anyDefect x y = true) :
    ∃ r, treeInfixExpr Layout.blank toks tp paren = .done r ∧ r.ret = 0 := by
  obtain ⟨r, hr, hall⟩ := loop_total (toks.length + 1) paren tp toks [] none (-1) hpf
    ⟨by simp, fun _ h => by omega⟩ (le_refl _)
  refine ⟨r, hr, ?_⟩
  by_contra hret
  have hl := hall hret
  exact hret (defect_fails toks tp paren r pre x y rest hr hsplit hdef (by simp [hl]))

/-! ### Input that the parenthesis tests read as it is tagged -/

theorem operandStep_congr
    (k k1 : List Token → List ExpTree → Option ExpTree → Int → Int → Int →
      Option ExpTree → Run Result)
    (lp : List Token) (stack : List ExpTree) (tempo : Option ExpTree)
    (cur paren : Int) (tp : Option ExpTree)
    (h : ∀ l, l <:+ lp → ∀ s t p c pa q, k l s t p c pa q = k1 l s t p c pa q) :
    operandStep k lp stack tempo cur paren tp = operandStep k1 lp stack tempo cur paren tp := by
  by_cases hopd : nextIsOperand lp = true
  · obtain ⟨a, rest, rfl, ha⟩ := nextIsOperand_cons hopd
    rw [operandStep_operand k _ _ _ _ _ _ _ ha, operandStep_operand k1 _ _ _ _ _ _ _ ha,
      h rest (List.suffix_cons a rest)]
  · have hopd2 : nextIsOperand lp = false := by simpa using hopd
    rw [operandStep_other k _ _ _ _ _ _ hopd2, operandStep_other k1 _ _ _ _ _ _ hopd2,
      h lp (List.suffix_refl lp)]

theorem operatorStep_congr
    (k k1 : List Token → List ExpTree → Option ExpTree → Int → Int → Int →
      Option ExpTree → Run Result)
    (lp : List Token) (stack : List ExpTree) (tempo : Option ExpTree)
    (prio cur paren : Int) (tp : Option ExpTree)
    (h : ∀ l, l <:+ lp → ∀ s t p c pa q, k l s t p c pa q = k1 l s t p c pa q) :
    operatorStep k lp stack tempo prio cur paren tp =
      operatorStep k1 lp stack tempo prio cur paren tp := by
  by_cases hop : nextIsOperator lp = true
  · obtain ⟨c, rest, rfl, hc⟩ := nextIsOperator_cons hop
    have e : ∀ s t, operandStep k rest s t (getPrecedence c) paren tp =
        operandStep k1 rest s t (getPrecedence c) paren tp := fun s t =>
      operandStep_congr k k1 rest s t _ paren tp
        (fun l hl => h l (hl.trans (List.suffix_cons _ rest)))
    rw [operatorStep_operator k _ _ _ _ _ _ _ _ hc, operatorStep_operator k1 _ _ _ _ _ _ _ _ hc]
    simp only [e]
  · have hop2 : nextIsOperator lp = false := by simpa using hop
    rw [operatorStep_other k _ _ _ _ _ _ _ hop2, operatorStep_other k1 _ _ _ _ _ _ _ hop2]
    exact operandStep_congr k k1 lp stack tempo cur paren tp h

theorem plainOn_suffix (m : Layout) (l lp : List Token) (hl : l <:+ lp)
    (h : m.plainOn lp = true) : m.plainOn l = true := by
  obtain ⟨P, rfl⟩ := hl
  rw [plainOn_append, Bool.and_eq_true] at h
  exact h.2

/-- On input none of whose numbers and identifiers reads as a parenthesis the
loop does not depend on the layout. -/
theorem loop_plain (m : Layout) (fuel : Nat) :
    ∀ (lp : List Token) (stack : List ExpTree) (tempo : Option ExpTree)
      (prio cur paren : Int) (tp : Option ExpTree), m.plainOn lp = true →
      treeInfixExprLoop m fuel lp stack tempo prio cur paren tp =
        treeInfixExprLoop Layout.blank fuel lp stack tempo prio cur paren tp := by
  induction fuel with
  | zero =>
    intro lp stack tempo prio cur paren tp _
    rw [loop_zero, loop_zero]
  | succ fuel ih =>
    intro lp stack tempo prio cur paren tp hlp
    rcases lp with _ | ⟨tok, rest⟩
    · rw [loop_nil, loop_nil]
    · rw [plainOn_cons, Bool.and_eq_true] at hlp
      obtain ⟨htok, hrest⟩ := hlp
      have hk : ∀ l, l <:+ tok :: rest → ∀ s t p c pa q,
          treeInfixExprLoop m fuel l s t p c pa q =
            treeInfixExprLoop Layout.blank fuel l s t p c pa q := by
        intro l hl s t p c pa q
        refine ih l s t p c pa q (plainOn_suffix m l (tok :: rest) hl ?_)
        rw [plainOn_cons, htok, hrest]
        rfl
      have hclose : ∀ (tok1 : Token) (rest1 : List Token) s t p c pa q,
          tok1 :: rest1 <:+ tok :: rest →
          closeStep m (treeInfixExprLoop m fuel) tok1 rest1 s t p c pa q =
            closeStep Layout.blank (treeInfixExprLoop Layout.blank fuel) tok1 rest1
              s t p c pa q := by
        intro tok1 rest1 s t p c pa q hsuf
        have hp1 : m.plainOn (tok1 :: rest1) = true :=
          plainOn_suffix m _ (tok :: rest) hsuf (by rw [plainOn_cons, htok, hrest]; rfl)
        rw [plainOn_cons, Bool.and_eq_true] at hp1
        rw [closeStep_plain m _ _ _ _ _ _ _ _ _ hp1.1, closeStep_blank,
          operatorStep_congr _ (treeInfixExprLoop Layout.blank fuel) _ _ _ _ _ _ _
            (fun l hl => hk l (hl.trans hsuf))]
      rw [loop_plain_cons m _ _ _ _ _ _ _ _ _ htok, loop_blank_cons]
      by_cases hopen : tok = .symbol '('
      · rw [if_pos hopen, if_pos hopen, ih rest [] none (-1) (-1) (paren + 1) tempo hrest]
        rcases hcall : treeInfixExprLoop Layout.blank fuel rest [] none (-1) (-1)
            (paren + 1) tempo with r | _ | _ | _
        · simp only []
          by_cases hret : r.ret ≠ 0
          · rw [if_pos hret, if_pos hret]
            obtain ⟨_, P, hP, _, _⟩ := loop_post fuel (.symbol '(') rest [] none (-1) (-1)
              (paren + 1) tempo r hcall ⟨fun _ => rfl, fun h0 => absurd rfl h0⟩
            have hsuf : r.lp <:+ tok :: rest :=
              List.IsSuffix.trans ⟨P, hP.symm⟩ (List.suffix_cons tok rest)
            rcases htp : r.tp with _ | t
            · rfl
            · simp only []
              rcases hl : r.lp with _ | ⟨tok1, rest1⟩
              · rfl
              · simp only [afterOperand]
                exact hclose tok1 rest1 _ _ _ _ _ _ (hl ▸ hsuf)
          · rw [if_neg hret, if_neg hret]
        · rfl
        · rfl
        · rfl
      · rw [if_neg hopen, if_neg hopen]
        exact hclose tok rest _ _ _ _ _ _ (List.suffix_refl _)

/-- On input none of whose numbers and identifiers reads as a parenthesis the
builder does not depend on the layout. -/
theorem treeInfixExpr_plain (m : Layout) (toks : List Token) (tp : Option ExpTree)
    (paren : Int) (h : m.plainOn toks = true) :
    treeInfixExpr m toks tp paren = treeInfixExpr Layout.blank toks tp paren :=
  loop_plain m _ toks [] none (-1) (-1) paren tp h

/-! ### The end of the input with a non-zero counter, under every layout -/

theorem finish_end (lp : List Token) (stack : List ExpTree) (tp : Option ExpTree)
    (paren checker : Int) (r : Result) (h : finish lp stack tp paren checker = .done r)
    (hl : r.lp = []) (hp : r.paren ≠ 0) : r.ret = 0 := by
  obtain ⟨h1, h2, h3⟩ := finish_done lp stack tp paren checker r h
  rw [h3, if_pos ⟨h1 ▸ hl, h2 ▸ hp⟩]

theorem operandStep_end
    (k : List Token → List ExpTree → Option ExpTree → Int → Int → Int →
      Option ExpTree → Run Result) (hk : KEnd k)
    (lp : List Token) (stack : List ExpTree) (tempo : Option ExpTree)
    (cur paren : Int) (tp : Option ExpTree) (r : Result)
    (h : operandStep k lp stack tempo cur paren tp = .done r)
    (hl : r.lp = []) (hp : r.paren ≠ 0) : r.ret = 0 := by
  by_cases hopd : nextIsOperand lp = true
  · obtain ⟨a, rest, rfl, ha⟩ := nextIsOperand_cons hopd
    rw [operandStep_operand _ _ _ _ _ _ _ _ ha] at h
    split at h
    · exact finish_end _ _ _ _ _ r h hl hp
    · exact hk _ _ _ _ _ _ _ r h hl hp
  · have hopd2 : nextIsOperand lp = false := by simpa using hopd
    rw [operandStep_other _ _ _ _ _ _ _ hopd2] at h
    exact hk _ _ _ _ _ _ _ r h hl hp

theorem operatorStep_end
    (k : List Token → List ExpTree → Option ExpTree → Int → Int → Int →
      Option ExpTree → Run Result) (hk : KEnd k)
    (lp : List Token) (stack : List ExpTree) (tempo : Option ExpTree)
    (prio cur paren : Int) (tp : Option ExpTree) (r : Result)
    (h : operatorStep k lp stack tempo prio cur paren tp = .done r)
    (hl : r.lp = []) (hp : r.paren ≠ 0) : r.ret = 0 := by
  by_cases hop : nextIsOperator lp = true
  · obtain ⟨c, rest, rfl, hc⟩ := nextIsOperator_cons hop
    rw [operatorStep_operator _ _ _ _ _ _ _ _ _ hc] at h
    split at h
    · exact finish_end _ _ _ _ _ r h hl hp
    · split at h
      · exact finish_end _ _ _ _ _ r h hl hp
      · split at h
        · split at h
          · cases h
            rfl
          · exact operandStep_end k hk _ _ _ _ _ _ r h hl hp
        · cases h
        · cases h
        · cases h
  · have hop2 : nextIsOperator lp = false := by simpa using hop
    rw [operatorStep_other _ _ _ _ _ _ _ _ hop2] at h
    exact operandStep_end k hk _ _ _ _ _ _ r h hl hp

theorem closeStep_end (m : Layout)
    (k : List Token → List ExpTree → Option ExpTree → Int → Int → Int →
      Option ExpTree → Run Result) (hk : KEnd k)
    (tok : Token) (rest : List Token) (stack : List ExpTree) (tempo : Option ExpTree)
    (prio cur paren : Int) (tp : Option ExpTree) (r : Result)
    (h : closeStep m k tok rest stack tempo prio cur paren tp = .done r)
    (hl : r.lp = []) (hp : r.paren ≠ 0) : r.ret = 0 := by
  unfold closeStep at h
  split at h
  · exact finish_end _ _ _ _ _ r h hl hp
  · exact operatorStep_end k hk _ _ _ _ _ _ _ r h hl hp

/-- Under every layout, a result of the loop at the end of the input with a
non-zero counter is a failure. -/
theorem loop_end (m : Layout) (fuel : Nat) : KEnd (treeInfixExprLoop m fuel) := by
  induction fuel with
  | zero =>
    intro lp stack tempo prio cur paren tp r h _ _
    rw [loop_zero] at h
    cases h
  | succ fuel ih =>
    intro lp stack tempo prio cur paren tp r h hl hp
    rcases lp with _ | ⟨tok, rest⟩
    · rw [loop_nil] at h
      exact finish_end _ _ _ _ _ r h hl hp
    · rw [treeInfixExprLoop] at h
      split at h
      · split at h
        · rename_i r1 hcall
          split at h
          · split at h
            · cases h
            · rename_i t ht
              rcases hlp : r1.lp with _ | ⟨tok1, rest1⟩
              · rw [hlp] at h
                simp only [afterOperand] at h
                exact finish_end _ _ _ _ _ r h hl hp
              · rw [hlp] at h
                simp only [afterOperand] at h
                exact closeStep_end m _ ih _ _ _ _ _ _ _ _ r h hl hp
          · cases h
            rfl
        · cases h
        · cases h
        · cases h
      · exact closeStep_end m _ ih _ _ _ _ _ _ _ _ r h hl hp

/-- Under every layout, a run of the builder that returns at the end of the
input with a non-zero parenthesis counter returns 0. -/
theorem treeInfixExpr_end (m : Layout) (toks : List Token) (tp : Option ExpTree)
    (paren : Int) (r : Result) (h : treeInfixExpr m toks tp paren = .done r)
    (hl : r.lp = []) (hp : r.paren ≠ 0) : r.ret = 0 :=
  loop_end m _ _ _ _ _ _ _ _ r h hl hp

/-! ### The builder on valid expressions -/

/-- On the token sequence of a derivation of the grammar
`E ::= T {('+'|'-') T}`, `T ::= F {('*'|'/') F}`, `F ::= number | identifier | '(' E ')'`,
none of whose numbers and identifiers reads as a parenthesis, `treeInfixExpr`
started at parenthesis depth 0 returns 1, leaves the cursor at the end of the
input, and hands back the standard parse tree of the derivation, which is well
formed. -/
theorem treeInfixExpr_valid_plain (m : Layout) (e : GExpr) (tp : Option ExpTree)
    (hplain : m.plainOn e.tokens = true) :
    treeInfixExpr m e.tokens tp 0 = .done ⟨1, [], some e.tree, 0⟩ ∧
      wellFormed e.tree = true ∧ e.tree.isNull = false := by
  rw [treeInfixExpr_plain m _ _ _ hplain]
  exact ⟨treeInfixExpr_derivation e tp, (gexpr_tree_wellFormed e).2,
    (gexpr_tree_wellFormed e).1⟩

/-- For operand tokens `a`, `b`, `c` that do not read as a parenthesis, an
additive operator `lo` and a multiplicative operator `hi`, building `a lo b hi c`
succeeds with the tree `lo(a, hi(b, c))`. -/
theorem treeInfixExpr_precedence_plain (m : Layout) (a b c : Token) (lo : AddOp)
    (hi : MulOp) (tp : Option ExpTree) (ha : a.isOperand = true) (hb : b.isOperand = true)
    (hc : c.isOperand = true)
    (hplain : m.plainOn [a, .symbol lo.char, b, .symbol hi.char, c] = true) :
    treeInfixExpr m [a, .symbol lo.char, b, .symbol hi.char, c] tp 0 =
        .done ⟨1, [], some (.node (.symbol lo.char) (leaf a)
          (.node (.symbol hi.char) (leaf b) (leaf c))), 0⟩ := by
  obtain ⟨fa, hfa, hta⟩ := operand_factor a ha
  obtain ⟨fb, hfb, htb⟩ := operand_factor b hb
  obtain ⟨fc, hfc, htc⟩ := operand_factor c hc
  rw [treeInfixExpr_plain m _ _ _ hplain]
  have h := treeInfixExpr_derivation
    (.bin (.term (.factor fa)) lo (.bin (.factor fb) hi fc)) tp
  simpa [GExpr.tokens, GTerm.tokens, GExpr.tree, GTerm.tree, hfa, hfb, hfc, hta, htb, htc]
    using h

/-- For operand tokens `a`, `b`, `c` that do not read as a parenthesis and
operators `op1`, `op2` of the same precedence, building `a op1 b op2 c` succeeds
with the left-nested tree `op2(op1(a, b), c)`. -/
theorem treeInfixExpr_associativity_plain (m : Layout) (a b c : Token) (op1 op2 : Char)
    (tp : Option ExpTree) (ha : a.isOperand = true) (hb : b.isOperand = true)
    (hc : c.isOperand = true) (h1 : isOperator op1 = true) (h2 : isOperator op2 = true)
    (hp : getPrecedence op1 = getPrecedence op2)
    (hplain : m.plainOn [a, .symbol op1, b, .symbol op2, c] = true) :
    treeInfixExpr m [a, .symbol op1, b, .symbol op2, c] tp 0 =
      .done ⟨1, [], some (.node (.symbol op2) (.node (.symbol op1) (leaf a) (leaf b))
        (leaf c)), 0⟩ := by
  obtain ⟨fa, hfa, hta⟩ := operand_factor a ha
  obtain ⟨fb, hfb, htb⟩ := operand_factor b hb
  obtain ⟨fc, hfc, htc⟩ := operand_factor c hc
  rw [treeInfixExpr_plain m _ _ _ hplain]
  rcases isOperator_cases op1 h1 with ⟨a1, rfl⟩ | ⟨m1, rfl⟩ <;>
    rcases isOperator_cases op2 h2 with ⟨a2, rfl⟩ | ⟨m2, rfl⟩
  · have h := treeInfixExpr_derivation
      (.bin (.bin (.term (.factor fa)) a1 (.factor fb)) a2 (.factor fc)) tp
    simpa [GExpr.tokens, GTerm.tokens, GExpr.tree, GTerm.tree, hfa, hfb, hfc, hta, htb, htc]
      using h
  · rw [getPrecedence_add, getPrecedence_mul] at hp
    omega
  · rw [getPrecedence_add, getPrecedence_mul] at hp
    omega
  · have h := treeInfixExpr_derivation
      (.term (.bin (.bin (.factor fa) m1 fb) m2 fc)) tp
    simpa [GExpr.tokens, GTerm.tokens, GExpr.tree, GTerm.tree, hfa, hfb, hfc, hta, htb, htc]
      using h

/-- For operand tokens `a`, `b`, `c` that do not read as a parenthesis, building
`( a + b ) * c` succeeds with the tree `*(+(a, b), c)`, the parenthesis counter
back at 0 and the whole input consumed. -/
theorem treeInfixExpr_parentheses_plain (m : Layout) (a b c : Token)
    (tp : Option ExpTree) (ha : a.isOperand = true) (hb : b.isOperand = true)
    (hc : c.isOperand = true)
    (hplain : m.plainOn
      [.symbol '(', a, .symbol '+', b, .symbol ')', .symbol '*', c] = true) :
    treeInfixExpr m [.symbol '(', a, .symbol '+', b, .symbol ')', .symbol '*', c] tp 0 =
      .done ⟨1, [], some (.node (.symbol '*') (.node (.symbol '+') (leaf a) (leaf b))
        (leaf c)), 0⟩ := by
  obtain ⟨fa, hfa, hta⟩ := operand_factor a ha
  obtain ⟨fb, hfb, htb⟩ := operand_factor b hb
  obtain ⟨fc, hfc, htc⟩ := operand_factor c hc
  rw [treeInfixExpr_plain m _ _ _ hplain]
  have h := treeInfixExpr_derivation
    (.term (.bin (.factor (.paren (.bin (.term (.factor fa)) .plus (.factor fb)))) .times fc))
    tp
  simpa [GExpr.tokens, GTerm.tokens, GFactor.tokens, GExpr.tree, GTerm.tree, GFactor.tree,
    hfa, hfb, hfc, hta, htb, htc, AddOp.char, MulOp.char] using h

/-- C1 (the code violates the claim): a number token that reads as `(` through
the member `symbol` is a valid one-token expression, and line 61 takes it for an
opening parenthesis: the builder counts it, calls itself on the empty rest,
which fails, and returns 0 with the counter at 1 and the tree never assigned.
With the number an `int` stored low byte first this is the expression `40`. -/
theorem treeInfixExpr_valid_misread (m : Layout) (w : ℚ) (tp : Option ExpTree)
    (hread : m.numberByte w = '(') :
    (GExpr.term (.factor (.number w))).tokens = [.number w] ∧
      treeInfixExpr m [.number w] tp 0 = .done ⟨0, [], tp, 1⟩ := by
  refine ⟨rfl, ?_⟩
  simp [treeInfixExpr, treeInfixExprLoop, Layout.readSymbol, finish, hread]

/-- Witness of C1: the expression `40`, the number an `int` stored low byte
first. -/
theorem treeInfixExpr_valid_misread_witness :
    lowByteFirst.numberByte 40 = '(' ∧
      treeInfixExpr lowByteFirst [.number 40] none 0 = .done ⟨0, [], none, 1⟩ :=
  ⟨by decide, (treeInfixExpr_valid_misread lowByteFirst 40 none (by decide)).2⟩

/-- C2 (the code violates the claim): let the number `w` read as `(` through
the member `symbol`, and let `b` be an operand.  On `w lo b hi c` line 61 takes
`w` for an opening parenthesis; the call on `lo b hi c` meets an operator with
an empty stack and fails, and the builder returns 0 with nothing built, the
cursor at `b` and the counter at 1, where the claim has the tree
`lo(w, hi(b, c))`. -/
theorem treeInfixExpr_precedence_misread (m : Layout) (w : ℚ) (b c : Token) (lo : AddOp)
    (hi : MulOp) (tp : Option ExpTree) (hb : b.isOperand = true)
    (hw : m.numberByte w = '(') :
    treeInfixExpr m [.number w, .symbol lo.char, b, .symbol hi.char, c] tp 0 =
      .done ⟨0, [b, .symbol hi.char, c], tp, 1⟩ := by
  have hread : m.readSymbol (.number w) = '(' := hw
  have hop : isOperator lo.char = true := isOperator_binOp (.add lo)
  have hne1 : lo.char ≠ '(' := binOp_ne_open (.add lo)
  have hne2 : lo.char ≠ ')' := binOp_ne_close (.add lo)
  rcases b with w | s | c0
  · simp [treeInfixExpr, treeInfixExprLoop, readSymbol_symbol, closeStep, operatorStep,
      valueOperator, finish, hread, hop, hne1, hne2]
  · simp [treeInfixExpr, treeInfixExprLoop, readSymbol_symbol, closeStep, operatorStep,
      valueOperator, finish, hread, hop, hne1, hne2]
  · simp [Token.isOperand] at hb

/-- Witness of C2: `40 + 3 * 4`, the number an `int` stored low byte first. -/
theorem treeInfixExpr_precedence_misread_witness :
    (Token.number 3).isOperand = true ∧ lowByteFirst.numberByte 40 = '(' ∧
      treeInfixExpr lowByteFirst
          [.number 40, .symbol '+', .number 3, .symbol '*', .number 4] none 0 =
        .done ⟨0, [.number 3, .symbol '*', .number 4], none, 1⟩ :=
  ⟨rfl, by decide,
    treeInfixExpr_precedence_misread lowByteFirst 40 (.number 3) (.number 4)
      .plus .times none rfl (by decide)⟩

/-- C3 (the code violates the claim): let the number `w` read as `(` through
the member `symbol`, let `b` be an operand and `op1` an operator.  On
`w op1 b op2 c` line 61 takes `w` for an opening parenthesis and the builder
returns 0 with nothing built, the cursor at `b` and the counter at 1, where the
claim has the tree `op2(op1(w, b), c)`. -/
theorem treeInfixExpr_associativity_misread (m : Layout) (w : ℚ) (b c : Token)
    (op1 op2 : Char) (tp : Option ExpTree) (hb : b.isOperand = true)
    (h1 : isOperator op1 = true) (hw : m.numberByte w = '(') :
    treeInfixExpr m [.number w, .symbol op1, b, .symbol op2, c] tp 0 =
      .done ⟨0, [b, .symbol op2, c], tp, 1⟩ := by
  have hread : m.readSymbol (.number w) = '(' := hw
  have hne1 : op1 ≠ '(' := by
    rintro rfl
    simp [isOperator] at h1
  have hne2 : op1 ≠ ')' := by
    rintro rfl
    simp [isOperator] at h1
  rcases b with w | s | c0
  · simp [treeInfixExpr, treeInfixExprLoop, readSymbol_symbol, closeStep, operatorStep,
      valueOperator, finish, hread, h1, hne1, hne2]
  · simp [treeInfixExpr, treeInfixExprLoop, readSymbol_symbol, closeStep, operatorStep,
      valueOperator, finish, hread, h1, hne1, hne2]
  · simp [Token.isOperand] at hb

/-- Witness of C3: `40 - 3 - 2`, the number an `int` stored low byte first. -/
theorem treeInfixExpr_associativity_misread_witness :
    (Token.number 3).isOperand = true ∧ isOperator '-' = true ∧
      lowByteFirst.numberByte 40 = '(' ∧
      treeInfixExpr lowByteFirst
          [.number 40, .symbol '-', .number 3, .symbol '-', .number 2] none 0 =
        .done ⟨0, [.number 3, .symbol '-', .number 2], none, 1⟩ :=
  ⟨rfl, rfl, by decide,
    treeInfixExpr_associativity_misread lowByteFirst 40 (.number 3) (.number 2)
      '-' '-' none rfl rfl (by decide)⟩

/-- C4 (the code violates the claim): let the number `w` read as `(` through
the member `symbol`, and let `b` be an operand.  On `( w + b ) * c` the call for
the parenthesis takes `w` for a second opening parenthesis, and the builder
returns 0 with nothing built, the cursor at `b` and the counter at 2, where the
claim has the tree `*(+(w, b), c)` and the counter back at 0. -/
theorem treeInfixExpr_parentheses_misread (m : Layout) (w : ℚ) (b c : Token)
    (tp : Option ExpTree) (hb : b.isOperand = true) (hw : m.numberByte w = '(') :
    treeInfixExpr m
        [.symbol '(', .number w, .symbol '+', b, .symbol ')', .symbol '*', c] tp 0 =
      .done ⟨0, [b, .symbol ')', .symbol '*', c], tp, 2⟩ := by
  have hread : m.readSymbol (.number w) = '(' := hw
  rcases b with w | s | c0
  · simp +decide [treeInfixExpr, treeInfixExprLoop, readSymbol_symbol, closeStep,
      operatorStep, valueOperator, finish, hread, isOperator]
  · simp +decide [treeInfixExpr, treeInfixExprLoop, readSymbol_symbol, closeStep,
      operatorStep, valueOperator, finish, hread, isOperator]
  · simp [Token.isOperand] at hb

/-- Witness of C4: `( 40 + 3 ) * 4`, the number an `int` stored low byte
first. -/
theorem treeInfixExpr_parentheses_misread_witness :
    (Token.number 3).isOperand = true ∧ lowByteFirst.numberByte 40 = '(' ∧
      treeInfixExpr lowByteFirst [.symbol '(', .number 40, .symbol '+', .number 3,
          .symbol ')', .symbol '*', .number 4] none 0 =
        .done ⟨0, [.number 3, .symbol ')', .symbol '*', .number 4], none, 2⟩ :=
  ⟨rfl, by decide,
    treeInfixExpr_parentheses_misread lowByteFirst 40 (.number 3) (.number 4)
      none rfl (by decide)⟩

/-- The claim's own example of precedence: `2+3*4`, the numbers not reading as
a parenthesis, builds `+(2, *(3, 4))`, whose value is 14. -/
theorem treeInfixExpr_precedence_example (m : Layout)
    (hplain : m.plainOn
      [.number 2, .symbol '+', .number 3, .symbol '*', .number 4] = true) :
    treeInfixExpr m [.number 2, .symbol '+', .number 3, .symbol '*', .number 4] none 0 =
        .done ⟨1, [], some (.node (.symbol '+') (leaf (.number 2))
          (.node (.symbol '*') (leaf (.number 3)) (leaf (.number 4)))), 0⟩ ∧
      evalTree (fun _ => (0 : ℚ)) (.node (.symbol '+') (leaf (.number 2))
          (.node (.symbol '*') (leaf (.number 3)) (leaf (.number 4)))) = 14 :=
  ⟨treeInfixExpr_precedence_plain m (.number 2) (.number 3) (.number 4) .plus .times none
      rfl rfl rfl hplain,
    by simp +decide [evalTree, leaf, newExpTreeNode]; norm_num⟩

/-- The claim's own example of associativity: `8-3-2`, the numbers not reading
as a parenthesis, builds `-(-(8, 3), 2)`, whose value is 3. -/
theorem treeInfixExpr_associativity_example (m : Layout)
    (hplain : m.plainOn
      [.number 8, .symbol '-', .number 3, .symbol '-', .number 2] = true) :
    treeInfixExpr m [.number 8, .symbol '-', .number 3, .symbol '-', .number 2] none 0 =
        .done ⟨1, [], some (.node (.symbol '-')
          (.node (.symbol '-') (leaf (.number 8)) (leaf (.number 3)))
          (leaf (.number 2))), 0⟩ ∧
      evalTree (fun _ => (0 : ℚ)) (.node (.symbol '-')
          (.node (.symbol '-') (leaf (.number 8)) (leaf (.number 3)))
          (leaf (.number 2))) = 3 :=
  ⟨treeInfixExpr_associativity_plain m (.number 8) (.number 3) (.number 2) '-' '-' none
      rfl rfl rfl rfl rfl rfl hplain,
    by simp +decide [evalTree, leaf, newExpTreeNode]; norm_num⟩

/-- The claim's own example of parentheses: `(2+3)*4`, the numbers not reading
as a parenthesis, builds `*(+(2, 3), 4)`, whose value is 20. -/
theorem treeInfixExpr_parentheses_example (m : Layout)
    (hplain : m.plainOn [.symbol '(', .number 2, .symbol '+', .number 3, .symbol ')',
      .symbol '*', .number 4] = true) :
    treeInfixExpr m [.symbol '(', .number 2, .symbol '+', .number 3, .symbol ')',
          .symbol '*', .number 4] none 0 =
        .done ⟨1, [], some (.node (.symbol '*')
          (.node (.symbol '+') (leaf (.number 2)) (leaf (.number 3)))
          (leaf (.number 4))), 0⟩ ∧
      evalTree (fun _ => (0 : ℚ)) (.node (.symbol '*')
          (.node (.symbol '+') (leaf (.number 2)) (leaf (.number 3)))
          (leaf (.number 4))) = 20 :=
  ⟨treeInfixExpr_parentheses_plain m (.number 2) (.number 3) (.number 4) none rfl rfl rfl
      hplain,
    by simp +decide [evalTree, leaf, newExpTreeNode]; norm_num⟩

/-! ### Success with a malformed tree, and malformed input that is not refused -/

/-- C5 (the code violates the claim): on the input `2 +`, the number 2 not
reading as a parenthesis, the builder returns 1 and hands back the tree
`+(2, NULL)`, an operator node without right child, which is not well formed. -/
theorem treeInfixExpr_success_malformed (m : Layout) (h2 : m.plain (.number 2) = true) :
    treeInfixExpr m [.number 2, .symbol '+'] none 0 =
        .done ⟨1, [], some (.node (.symbol '+') (leaf (.number 2)) .null), 0⟩ ∧
      wellFormed (.node (.symbol '+') (leaf (.number 2)) .null) = false := by
  have hp : m.plainOn [.number 2, .symbol '+'] = true := by
    simp only [Layout.plainOn, List.all_cons, List.all_nil, plain_symbol, h2, Bool.and_self]
  rw [treeInfixExpr_plain m _ _ _ hp]
  decide

/-- Witness of C5: the number an `int` stored low byte first, 2 reads as the
character with code 2. -/
theorem treeInfixExpr_success_malformed_witness :
    lowByteFirst.plain (.number 2) = true ∧
      treeInfixExpr lowByteFirst [.number 2, .symbol '+'] none 0 =
        .done ⟨1, [], some (.node (.symbol '+') (leaf (.number 2)) .null), 0⟩ :=
  ⟨by decide, (treeInfixExpr_success_malformed lowByteFirst (by decide)).1⟩

/-- C6 (the code violates the claim): the inputs `2 +` and `2 + 3 *` end right
after an operator and the builder returns 1 on both, while it returns 0 on
`2 + 3 +` and `2 * 3 +`: the end-of-input test of lines 114-123 is only made
when the operator does not bind tighter than the one before.  The numbers 2 and
3 do not read as a parenthesis. -/
theorem treeInfixExpr_trailing_operator (m : Layout) (h2 : m.plain (.number 2) = true)
    (h3 : m.plain (.number 3) = true) :
    treeInfixExpr m [.number 2, .symbol '+'] none 0 =
        .done ⟨1, [], some (.node (.symbol '+') (leaf (.number 2)) .null), 0⟩ ∧
      treeInfixExpr m [.number 2, .symbol '+', .number 3, .symbol '*'] none 0 =
        .done ⟨1, [], some (.node (.symbol '+') (leaf (.number 2))
          (.node (.symbol '*') (leaf (.number 3)) .null)), 0⟩ ∧
      treeInfixExpr m [.number 2, .symbol '+', .number 3, .symbol '+'] none 0 =
        .done ⟨0, [], none, 0⟩ ∧
      treeInfixExpr m [.number 2, .symbol '*', .number 3, .symbol '+'] none 0 =
        .done ⟨0, [], none, 0⟩ := by
  have hp1 : m.plainOn [.number 2, .symbol '+'] = true := by
    simp only [Layout.plainOn, List.all_cons, List.all_nil, plain_symbol, h2, Bool.and_self]
  have hp2 : m.plainOn [.number 2, .symbol '+', .number 3, .symbol '*'] = true := by
    simp only [Layout.plainOn, List.all_cons, List.all_nil, plain_symbol, h2, h3,
      Bool.and_self]
  have hp3 : m.plainOn [.number 2, .symbol '+', .number 3, .symbol '+'] = true := by
    simp only [Layout.plainOn, List.all_cons, List.all_nil, plain_symbol, h2, h3,
      Bool.and_self]
  have hp4 : m.plainOn [.number 2, .symbol '*', .number 3, .symbol '+'] = true := by
    simp only [Layout.plainOn, List.all_cons, List.all_nil, plain_symbol, h2, h3,
      Bool.and_self]
  rw [treeInfixExpr_plain m _ _ _ hp1, treeInfixExpr_plain m _ _ _ hp2,
    treeInfixExpr_plain m _ _ _ hp3, treeInfixExpr_plain m _ _ _ hp4]
  decide

/-- Witness of C6: the number an `int` stored low byte first; `2 + 3 *` is
returned as success. -/
theorem treeInfixExpr_trailing_operator_witness :
    lowByteFirst.plain (.number 2) = true ∧ lowByteFirst.plain (.number 3) = true ∧
      treeInfixExpr lowByteFirst [.number 2, .symbol '+', .number 3, .symbol '*'] none 0 =
        .done ⟨1, [], some (.node (.symbol '+') (leaf (.number 2))
          (.node (.symbol '*') (leaf (.number 3)) .null)), 0⟩ :=
  ⟨by decide, by decide,
    (treeInfixExpr_trailing_operator lowByteFirst (by decide) (by decide)).2.1⟩

/-- Let `x`, `y` be neighbours of the input, the input being preceded by an
opening parenthesis that stands for its start, with `y` an operator and `x` an
operator or an opening parenthesis, and let no number or identifier of the
input read as a parenthesis.  Then every run that returns with the cursor past
`x` returns 0; and on parenthesis-free input the builder does return, and it
returns 0. -/
theorem treeInfixExpr_operator_defect_plain (m : Layout) (toks : List Token)
    (tp : Option ExpTree) (paren : Int) (pre : List Token) (x y : Token)
    (rest : List Token) (hplain : m.plainOn toks = true)
    (hsplit : .symbol '(' :: toks = pre ++ x :: y :: rest)
    (hdef : operatorDefect x y = true) :
    (∀ r, treeInfixExpr m toks tp paren = .done r → r.lp.length ≤ rest.length + 1 →
        r.ret = 0) ∧
      (parenFree toks → ∃ r, treeInfixExpr m toks tp paren = .done r ∧ r.ret = 0) := by
  have hany : anyDefect x y = true := by simp [anyDefect, hdef]
  rw [treeInfixExpr_plain m _ _ _ hplain]
  exact ⟨fun r h hcur => defect_fails toks tp paren r pre x y rest h hsplit hany hcur,
    fun hpf => parenFree_defect_fails toks tp paren pre x y rest hpf hsplit hany⟩

/-- Let `x`, `y` be neighbours of the input that are both numbers or
identifiers, and let no number or identifier of the input read as a
parenthesis.  Then every run that returns with the cursor past `x` returns 0;
and on parenthesis-free input the builder does return, and it returns 0. -/
theorem treeInfixExpr_operand_defect_plain (m : Layout) (toks : List Token)
    (tp : Option ExpTree) (paren : Int) (pre : List Token) (x y : Token)
    (rest : List Token) (hplain : m.plainOn toks = true)
    (hsplit : toks = pre ++ x :: y :: rest)
    (hdef : operandDefect x y = true) :
    (∀ r, treeInfixExpr m toks tp paren = .done r → r.lp.length ≤ rest.length + 1 →
        r.ret = 0) ∧
      (parenFree toks → ∃ r, treeInfixExpr m toks tp paren = .done r ∧ r.ret = 0) := by
  have hany : anyDefect x y = true := by simp [anyDefect, hdef]
  have hsplit2 : Token.symbol '(' :: toks = (.symbol '(' :: pre) ++ x :: y :: rest := by
    rw [hsplit]
    rfl
  rw [treeInfixExpr_plain m _ _ _ hplain]
  exact ⟨fun r h hcur => defect_fails toks tp paren r _ x y rest h hsplit2 hany hcur,
    fun hpf => parenFree_defect_fails toks tp paren _ x y rest hpf hsplit2 hany⟩

/-- C7 (the code violates the claim): `w + * 3` is parenthesis-free and has two
consecutive operators.  When the number `w` reads as `)` through the member
`symbol`, line 76 takes it for a closing parenthesis and the builder returns 1
with the cursor at `+`.  On `( ) 2 + * 3`, under every layout, the call for the
parenthesis returns 1 without assigning its tree and line 66 pushes the
variable that was never assigned: the run is undefined, no failure is
reported. -/
theorem treeInfixExpr_operator_defect_missed (m : Layout) (w : ℚ)
    (hread : m.numberByte w = ')') :
    operatorDefect (.symbol '+') (.symbol '*') = true ∧
      parenFree [.number w, .symbol '+', .symbol '*', .number 3] ∧
      treeInfixExpr m [.number w, .symbol '+', .symbol '*', .number 3] none 0 =
        .done ⟨1, [.symbol '+', .symbol '*', .number 3], none, -1⟩ ∧
      treeInfixExpr m [.symbol '(', .symbol ')', .number 2, .symbol '+', .symbol '*',
        .number 3] none 0 = .undefined := by
  refine ⟨rfl, ?_, ?_, ?_⟩
  · intro t ht
    simp only [List.mem_cons, List.mem_singleton, List.not_mem_nil, or_false] at ht
    rcases ht with rfl | rfl | rfl | rfl <;> simp [Token.isOperand, Token.isOperatorTok,
      isOperator]
  · simp +decide [treeInfixExpr, treeInfixExprLoop, closeStep, Layout.readSymbol, finish,
      hread]
  · simp [treeInfixExpr, treeInfixExprLoop, closeStep, Layout.readSymbol, finish]

/-- Witness of C7: `41 + * 3`, the number an `int` stored low byte first. -/
theorem treeInfixExpr_operator_defect_missed_witness :
    lowByteFirst.numberByte 41 = ')' ∧
      treeInfixExpr lowByteFirst [.number 41, .symbol '+', .symbol '*', .number 3] none 0 =
        .done ⟨1, [.symbol '+', .symbol '*', .number 3], none, -1⟩ :=
  ⟨by decide, (treeInfixExpr_operator_defect_missed lowByteFirst 41 (by decide)).2.2.1⟩

/-- C8 (the code violates the claim): `w 2` is parenthesis-free and is two
adjacent numbers.  When the number `w` reads as `)` through the member `symbol`,
line 76 takes it for a closing parenthesis and the builder returns 1 with the
cursor at `2`.  On `( ) 2 3`, under every layout, line 66 pushes the tree
variable that the call for the parenthesis never assigned: the run is
undefined, no failure is reported. -/
theorem treeInfixExpr_operand_defect_missed (m : Layout) (w : ℚ)
    (hread : m.numberByte w = ')') :
    operandDefect (.number w) (.number 2) = true ∧
      parenFree [.number w, .number 2] ∧
      treeInfixExpr m [.number w, .number 2] none 0 = .done ⟨1, [.number 2], none, -1⟩ ∧
      treeInfixExpr m [.symbol '(', .symbol ')', .number 2, .number 3] none 0 =
        .undefined := by
  refine ⟨rfl, ?_, ?_, ?_⟩
  · intro t ht
    simp only [List.mem_cons, List.mem_singleton, List.not_mem_nil, or_false] at ht
    rcases ht with rfl | rfl <;> simp [Token.isOperand]
  · simp +decide [treeInfixExpr, treeInfixExprLoop, closeStep, Layout.readSymbol, finish,
      hread]
  · simp [treeInfixExpr, treeInfixExprLoop, closeStep, Layout.readSymbol, finish]

/-- Witness of C8: `41 2`, the number an `int` stored low byte first. -/
theorem treeInfixExpr_operand_defect_missed_witness :
    lowByteFirst.numberByte 41 = ')' ∧
      treeInfixExpr lowByteFirst [.number 41, .number 2] none 0 =
        .done ⟨1, [.number 2], none, -1⟩ :=
  ⟨by decide, (treeInfixExpr_operand_defect_missed lowByteFirst 41 (by decide)).2.2.1⟩

theorem balance_count (l : List Token) :
    balance l = (l.count (.symbol '(') : Int) - (l.count (.symbol ')') : Int) := by
  induction l with
  | nil => simp [balance]
  | cons a l ih =>
    rcases a with w | s | c
    · simp [balance, tokBalance, ih, List.count_cons]
    · simp [balance, tokBalance, ih, List.count_cons]
    · by_cases h1 : c = '('
      · subst h1
        simp [balance, tokBalance, ih, List.count_cons]
        omega
      · by_cases h2 : c = ')'
        · subst h2
          simp [balance, tokBalance, ih, List.count_cons]
          omega
        · simp [balance, tokBalance, ih, List.count_cons, h1, h2]

/-- When no number or identifier of the input reads as a parenthesis, a run
started at counter 0 that returns success with the whole input consumed had as
many opening as closing parentheses. -/
theorem treeInfixExpr_balanced_plain (m : Layout) (toks : List Token)
    (tp : Option ExpTree) (r : Result) (hplain : m.plainOn toks = true)
    (h : treeInfixExpr m toks tp 0 = .done r) (hret : r.ret ≠ 0) (hl : r.lp = []) :
    toks.count (.symbol '(') = toks.count (.symbol ')') := by
  rw [treeInfixExpr_plain m _ _ _ hplain] at h
  obtain ⟨hend, P, hP, hbal, _⟩ := treeInfixExpr_post toks tp 0 r h
  have hp0 : r.paren = 0 := by
    by_contra hp
    exact hret (hend hl hp)
  rw [hl, List.append_nil] at hP
  rw [← hP, hp0, balance_count] at hbal
  omega

/-- C9 (the code violates the claim): let the number `w` read as `(` through
the member `symbol`, and 2 as neither parenthesis.  The sequence `w 2 )` has no
opening and one closing parenthesis token; line 61 counts `w` as an opening
parenthesis, and the builder returns 1 with the whole input consumed, the
counter at 0 and the tree of `2`. -/
theorem treeInfixExpr_unbalanced_accepted (m : Layout) (w : ℚ)
    (hread : m.numberByte w = '(') (h2 : m.plain (.number 2) = true) :
    treeInfixExpr m [.number w, .number 2, .symbol ')'] none 0 =
        .done ⟨1, [], some (leaf (.number 2)), 0⟩ ∧
      [Token.number w, .number 2, .symbol ')'].count (.symbol '(') = 0 ∧
      [Token.number w, .number 2, .symbol ')'].count (.symbol ')') = 1 := by
  have hp : m.plainOn [.number 2, .symbol ')'] = true := by
    simp only [Layout.plainOn, List.all_cons, List.all_nil, plain_symbol, h2, Bool.and_self]
  have hcall : treeInfixExprLoop m 3 [.number 2, .symbol ')'] [] none (-1) (-1) (0 + 1)
      none = .done ⟨1, [], some (leaf (.number 2)), 0⟩ := by
    rw [loop_plain m 3 _ _ _ _ _ _ _ hp]
    decide
  refine ⟨?_, by simp [List.count_cons], by simp [List.count_cons]⟩
  have hw : m.readSymbol (.number w) = '(' := hread
  simp only [treeInfixExpr, List.length_cons, List.length_nil]
  rw [treeInfixExprLoop, if_pos hw, hcall]
  simp [afterOperand, finish, attachAll]

/-- Witness of C9: `40 2 )`, the number an `int` stored low byte first. -/
theorem treeInfixExpr_unbalanced_accepted_witness :
    lowByteFirst.numberByte 40 = '(' ∧ lowByteFirst.plain (.number 2) = true ∧
      treeInfixExpr lowByteFirst [.number 40, .number 2, .symbol ')'] none 0 =
        .done ⟨1, [], some (leaf (.number 2)), 0⟩ :=
  ⟨by decide, by decide,
    (treeInfixExpr_unbalanced_accepted lowByteFirst 40 (by decide) (by decide)).1⟩

/-! ### Differentiation -/

theorem duplicate_eq (t : ExpTree) : duplicate t = t := by
  induction t with
  | null => rfl
  | node t l r ihl ihr =>
    cases l <;> cases r <;> simp_all [duplicate, ExpTree.isNull]

theorem evalTree_number {K : Type} [Field K] (env : String → K) (w : ℚ) (l r : ExpTree) :
    evalTree env (.node (.number w) l r) = (w : K) := rfl

theorem evalTree_identifier {K : Type} [Field K] (env : String → K) (s : String)
    (l r : ExpTree) : evalTree env (.node (.identifier s) l r) = env s := rfl

theorem evalTree_plus {K : Type} [Field K] (env : String → K) (l r : ExpTree) :
    evalTree env (.node (.symbol '+') l r) = evalTree env l + evalTree env r := rfl

theorem evalTree_minus {K : Type} [Field K] (env : String → K) (l r : ExpTree) :
    evalTree env (.node (.symbol '-') l r) = evalTree env l - evalTree env r := rfl

theorem evalTree_times {K : Type} [Field K] (env : String → K) (l r : ExpTree) :
    evalTree env (.node (.symbol '*') l r) = evalTree env l * evalTree env r := rfl

theorem evalTree_divide {K : Type} [Field K] (env : String → K) (l r : ExpTree) :
    evalTree env (.node (.symbol '/') l r) = evalTree env l / evalTree env r := rfl

theorem wellFormed_symbol (c : Char) (l r : ExpTree)
    (h : wellFormed (.node (.symbol c) l r) = true) :
    isOperator c = true ∧ wellFormed l = true ∧ wellFormed r = true := by
  simp only [wellFormed, Bool.and_eq_true] at h
  exact ⟨h.1.1.1.1, h.1.2, h.2⟩

/-- The tree left by `differentiate` denotes the derivative with respect to `x`
of the function the tree denotes, at every point where no divisor vanishes. -/
theorem differentiate_hasDerivAt (env : String → ℝ) (x0 : ℝ) (t : ExpTree) :
    ∀ d : Int, wellFormed t = true → divisorsNonzero (envAt env x0) t →
      HasDerivAt (fun x => evalTree (envAt env x) t)
        (evalTree (envAt env x0) (differentiate t d).1) x0 := by
  induction t with
  | null =>
    intro d _ _
    rw [differentiate]
    exact hasDerivAt_const x0 (0 : ℝ)
  | node tok l r ihl ihr =>
    intro d hwf hdiv
    rcases tok with w | s | c
    · rw [differentiate]
      simp only [evalTree_number]
      simpa using hasDerivAt_const x0 ((w : ℚ) : ℝ)
    · rw [differentiate]
      by_cases hs : s = "x"
      · subst hs
        simp only [evalTree_identifier, envAt, ne_eq, not_true_eq_false, if_false, if_true,
          evalTree_number]
        simpa using hasDerivAt_id x0
      · simp only [evalTree_identifier, envAt, ne_eq, hs, not_false_eq_true, if_true,
          if_false, evalTree_number]
        simpa using hasDerivAt_const x0 (env s)
    · obtain ⟨hc, hl, hr⟩ := wellFormed_symbol c l r hwf
      obtain ⟨hdl, hdr, hdc⟩ := hdiv
      rw [differentiate]
      simp only [duplicate_eq, newExpTreeNode]
      simp only [isOperator, Bool.or_eq_true, decide_eq_true_eq] at hc
      rcases hc with ((rfl | rfl) | rfl) | rfl
      · simp only [if_true, evalTree_plus]
        exact (ihl d hl hdl).add (ihr _ hr hdr)
      · rw [if_neg (by decide), if_pos rfl]
        simp only [evalTree_minus]
        exact (ihl d hl hdl).sub (ihr _ hr hdr)
      · rw [if_neg (by decide), if_neg (by decide), if_pos rfl]
        simp only [evalTree_times, evalTree_plus]
        exact (ihl d hl hdl).mul (ihr _ hr hdr)
      · rw [if_neg (by decide), if_neg (by decide), if_neg (by decide), if_pos rfl]
        simp only [evalTree_times, evalTree_minus, evalTree_divide]
        have h := (ihl d hl hdl).div (ihr (differentiate l d).2 hr hdr) (hdc rfl)
        rw [sq] at h
        exact h

/-- C10: for a well-formed tree `t`, read as a real function of the variable
`x` with every other identifier held at the constant `env` gives it, at every
point `x0` where no divisor subexpression of `t` vanishes, the tree that
`differentiate` leaves in place denotes the derivative at `x0` of the function
denoted by `t`. -/
theorem differentiate_correct (env : String → ℝ) (x0 : ℝ) (t : ExpTree) (d : Int)
    (hwf : wellFormed t = true) (hdiv : divisorsNonzero (envAt env x0) t) :
    HasDerivAt (fun x => evalTree (envAt env x) t)
      (evalTree (envAt env x0) (differentiate t d).1) x0 :=
  differentiate_hasDerivAt env x0 t d hwf hdiv

/-- Witness of C10: `x / (x + 1)` at the point 3, where the divisor is 4. -/
theorem differentiate_correct_witness :
    wellFormed (.node (.symbol '/') (leaf (.identifier "x"))
        (.node (.symbol '+') (leaf (.identifier "x")) (leaf (.number 1)))) = true ∧
      divisorsNonzero (envAt (fun _ => (0 : ℝ)) 3)
        (.node (.symbol '/') (leaf (.identifier "x"))
          (.node (.symbol '+') (leaf (.identifier "x")) (leaf (.number 1)))) ∧
      HasDerivAt
        (fun x => evalTree (envAt (fun _ => (0 : ℝ)) x)
          (.node (.symbol '/') (leaf (.identifier "x"))
            (.node (.symbol '+') (leaf (.identifier "x")) (leaf (.number 1)))))
        (evalTree (envAt (fun _ => (0 : ℝ)) 3)
          (differentiate (.node (.symbol '/') (leaf (.identifier "x"))
            (.node (.symbol '+') (leaf (.identifier "x")) (leaf (.number 1)))) 1).1) 3 :=
  have hdiv : divisorsNonzero (envAt (fun _ => (0 : ℝ)) 3)
      (.node (.symbol '/') (leaf (.identifier "x"))
        (.node (.symbol '+') (leaf (.identifier "x")) (leaf (.number 1)))) := by
    simp [divisorsNonzero, leaf, newExpTreeNode, evalTree_plus, evalTree_identifier,
      evalTree_number, envAt]
    norm_num
  ⟨by decide, hdiv, differentiate_correct (fun _ => (0 : ℝ)) 3 _ 1 (by decide) hdiv⟩

/-! ### The simplifier against its pattern table -/

theorem wellFormed_number (w : ℚ) (l r : ExpTree)
    (h : wellFormed (.node (.number w) l r) = true) : l = .null ∧ r = .null := by
  cases l <;> cases r <;> simp_all [wellFormed, ExpTree.isNull]

theorem wellFormed_identifier (s : String) (l r : ExpTree)
    (h : wellFormed (.node (.identifier s) l r) = true) : l = .null ∧ r = .null := by
  cases l <;> cases r <;> simp_all [wellFormed, ExpTree.isNull]

theorem simplifyTable_times (L R : ExpTree) :
    simplifyTable '*' L R =
      if isNumberOf 0 L = true ∨ isNumberOf 0 R = true then toNumber 0
      else if isNumberOf 1 L = true then R
      else if isNumberOf 1 R = true then L
      else .node (.symbol '*') L R := by
  simp +decide only [simplifyTable, true_and, false_and, if_false]

theorem simplifyTable_divide (L R : ExpTree) :
    simplifyTable '/' L R =
      if isNumberOf 1 R = true then L else .node (.symbol '/') L R := by
  simp +decide only [simplifyTable, true_and, false_and, if_false]

theorem simplifyTable_plus (L R : ExpTree) :
    simplifyTable '+' L R =
      if isNumberOf 0 L = true then R
      else if isNumberOf 0 R = true then L
      else .node (.symbol '+') L R := by
  simp +decide only [simplifyTable, true_and, false_and, if_false]

theorem simplifyTable_minus (L R : ExpTree) :
    simplifyTable '-' L R =
      if isNumberOf 0 R = true then L else .node (.symbol '-') L R := by
  simp +decide only [simplifyTable, true_and, false_and, if_false]

theorem simplifyTimes_table (tl : Token) (ll lr : ExpTree) (tr : Token) (rl rr : ExpTree)
    (hL : wellFormed (.node tl ll lr) = true) (hR : wellFormed (.node tr rl rr) = true) :
    simplifyTimes (.node (.symbol '*') (.node tl ll lr) (.node tr rl rr)) tl ll lr tr rl rr =
      simplifyTable '*' (.node tl ll lr) (.node tr rl rr) := by
  rcases tl with a | s | cl
  · obtain ⟨rfl, rfl⟩ := wellFormed_number a ll lr hL
    clear hL
    rcases tr with b | s2 | cr
    · obtain ⟨rfl, rfl⟩ := wellFormed_number b rl rr hR
      clear hR
      simp only [simplifyTimes, simplifyTable_times, isNumberOf, toNumber, toIdentifier,
        beq_iff_eq]
      by_cases h1 : b = 1 <;> by_cases h2 : b = 0 <;> by_cases h3 : a = 1 <;>
        by_cases h4 : a = 0 <;> simp_all
    · obtain ⟨rfl, rfl⟩ := wellFormed_identifier s2 rl rr hR
      clear hR
      simp only [simplifyTimes, simplifyTable_times, isNumberOf, toNumber, toIdentifier,
        beq_iff_eq]
      by_cases h3 : a = 1 <;> by_cases h4 : a = 0 <;> simp_all
    · clear hR
      simp only [simplifyTimes, simplifyTable_times, isNumberOf, toNumber, toIdentifier,
        beq_iff_eq]
      by_cases h3 : a = 1 <;> by_cases h4 : a = 0 <;> simp_all
  · obtain ⟨rfl, rfl⟩ := wellFormed_identifier s ll lr hL
    clear hL
    rcases tr with b | s2 | cr
    · obtain ⟨rfl, rfl⟩ := wellFormed_number b rl rr hR
      clear hR
      simp only [simplifyTimes, simplifyTable_times, isNumberOf, toNumber, toIdentifier,
        beq_iff_eq]
      by_cases h1 : b = 1 <;> by_cases h2 : b = 0 <;> simp_all
    · simp [simplifyTimes, simplifyTable_times, isNumberOf]
    · simp [simplifyTimes, simplifyTable_times, isNumberOf]
  · clear hL
    rcases tr with b | s2 | cr
    · obtain ⟨rfl, rfl⟩ := wellFormed_number b rl rr hR
      clear hR
      simp only [simplifyTimes, simplifyTable_times, isNumberOf, toNumber, toIdentifier,
        beq_iff_eq]
      by_cases h1 : b = 1 <;> by_cases h2 : b = 0 <;> simp_all
    · simp [simplifyTimes, simplifyTable_times, isNumberOf]
    · simp [simplifyTimes, simplifyTable_times, isNumberOf]

theorem simplifyDivide_table (tl : Token) (ll lr : ExpTree) (tr : Token) (rl rr : ExpTree)
    (hL : wellFormed (.node tl ll lr) = true) (hR : wellFormed (.node tr rl rr) = true) :
    simplifyDivide (.node (.symbol '/') (.node tl ll lr) (.node tr rl rr)) tl ll lr tr =
      simplifyTable '/' (.node tl ll lr) (.node tr rl rr) := by
  rcases tr with b | s2 | cr
  · obtain ⟨rfl, rfl⟩ := wellFormed_number b rl rr hR
    clear hR
    rcases tl with a | s | cl
    · obtain ⟨rfl, rfl⟩ := wellFormed_number a ll lr hL
      simp only [simplifyDivide, simplifyTable_divide, isNumberOf, toNumber, beq_iff_eq]
    · obtain ⟨rfl, rfl⟩ := wellFormed_identifier s ll lr hL
      simp only [simplifyDivide, simplifyTable_divide, isNumberOf, toIdentifier, beq_iff_eq]
    · simp only [simplifyDivide, simplifyTable_divide, isNumberOf, beq_iff_eq]
  · rcases tl with a | s | cl <;> simp [simplifyDivide, simplifyTable_divide, isNumberOf]
  · rcases tl with a | s | cl <;> simp [simplifyDivide, simplifyTable_divide, isNumberOf]

theorem simplifyMinus_table (tl : Token) (ll lr : ExpTree) (tr : Token) (rl rr : ExpTree)
    (hL : wellFormed (.node tl ll lr) = true) (hR : wellFormed (.node tr rl rr) = true) :
    simplifyMinus (.node (.symbol '-') (.node tl ll lr) (.node tr rl rr)) tl ll lr tr =
      simplifyTable '-' (.node tl ll lr) (.node tr rl rr) := by
  rcases tr with b | s2 | cr
  · obtain ⟨rfl, rfl⟩ := wellFormed_number b rl rr hR
    clear hR
    rcases tl with a | s | cl
    · obtain ⟨rfl, rfl⟩ := wellFormed_number a ll lr hL
      simp only [simplifyMinus, simplifyTable_minus, isNumberOf, toNumber, beq_iff_eq]
    · obtain ⟨rfl, rfl⟩ := wellFormed_identifier s ll lr hL
      simp only [simplifyMinus, simplifyTable_minus, isNumberOf, toIdentifier, beq_iff_eq]
    · simp only [simplifyMinus, simplifyTable_minus, isNumberOf, beq_iff_eq]
  · rcases tl with a | s | cl <;> simp [simplifyMinus, simplifyTable_minus, isNumberOf]
  · rcases tl with a | s | cl <;> simp [simplifyMinus, simplifyTable_minus, isNumberOf]

theorem simplifyPlus_table (tl : Token) (ll lr : ExpTree) (tr : Token) (rl rr : ExpTree)
    (hL : wellFormed (.node tl ll lr) = true) (hR : wellFormed (.node tr rl rr) = true) :
    simplifyPlus (.node (.symbol '+') (.node tl ll lr) (.node tr rl rr)) tl ll lr tr rl rr =
      simplifyTable '+' (.node tl ll lr) (.node tr rl rr) := by
  rcases tl with a | s | cl
  · obtain ⟨rfl, rfl⟩ := wellFormed_number a ll lr hL
    clear hL
    rcases tr with b | s2 | cr
    · obtain ⟨rfl, rfl⟩ := wellFormed_number b rl rr hR
      clear hR
      simp only [simplifyPlus, simplifyTable_plus, isNumberOf, toNumber, beq_iff_eq]
    · obtain ⟨rfl, rfl⟩ := wellFormed_identifier s2 rl rr hR
      clear hR
      simp only [simplifyPlus, simplifyTable_plus, isNumberOf, toIdentifier, beq_iff_eq]
      by_cases h4 : a = 0 <;> simp_all
    · clear hR
      simp only [simplifyPlus, simplifyTable_plus, isNumberOf, beq_iff_eq]
      by_cases h4 : a = 0 <;> simp_all
  · obtain ⟨rfl, rfl⟩ := wellFormed_identifier s ll lr hL
    clear hL
    rcases tr with b | s2 | cr
    · obtain ⟨rfl, rfl⟩ := wellFormed_number b rl rr hR
      clear hR
      simp only [simplifyPlus, simplifyTable_plus, isNumberOf, toIdentifier, beq_iff_eq]
      simp
    · simp [simplifyPlus, simplifyTable_plus, isNumberOf]
    · simp [simplifyPlus, simplifyTable_plus, isNumberOf]
  · clear hL
    rcases tr with b | s2 | cr
    · obtain ⟨rfl, rfl⟩ := wellFormed_number b rl rr hR
      clear hR
      simp only [simplifyPlus, simplifyTable_plus, isNumberOf, beq_iff_eq]
      simp
    · simp [simplifyPlus, simplifyTable_plus, isNumberOf]
    · simp [simplifyPlus, simplifyTable_plus, isNumberOf]


theorem wellFormed_symbol_children (c : Char) (l r : ExpTree)
    (h : wellFormed (.node (.symbol c) l r) = true) :
    l.isNull = false ∧ r.isNull = false := by
  simp only [wellFormed, Bool.and_eq_true, Bool.not_eq_true'] at h
  exact ⟨h.1.1.1.2, h.1.1.2⟩

theorem isNull_null : ExpTree.null.isNull = true := rfl

theorem simplifyTable_wellFormed (c : Char) (L R : ExpTree) (hc : isOperator c = true)
    (hL : wellFormed L = true) (hR : wellFormed R = true)
    (hLn : L.isNull = false) (hRn : R.isNull = false) :
    wellFormed (simplifyTable c L R) = true ∧ (simplifyTable c L R).isNull = false := by
  unfold simplifyTable
  split_ifs <;> simp [wellFormed, toNumber, isNull_node, isNull_null, *]

theorem simplifySpec_wellFormed (t : ExpTree) :
    wellFormed t = true →
      wellFormed (simplifySpec t) = true ∧
        (t.isNull = false → (simplifySpec t).isNull = false) := by
  induction t with
  | null => intro _; exact ⟨rfl, fun h => h⟩
  | node tok l r ihl ihr =>
    intro hwf
    rcases tok with w | s | c
    · exact ⟨hwf, fun h => h⟩
    · exact ⟨hwf, fun h => h⟩
    · obtain ⟨hc, hl, hr⟩ := wellFormed_symbol c l r hwf
      obtain ⟨hln, hrn⟩ := wellFormed_symbol_children c l r hwf
      have h := simplifyTable_wellFormed c (simplifySpec l) (simplifySpec r) hc
        (ihl hl).1 (ihr hr).1 ((ihl hl).2 hln) ((ihr hr).2 hrn)
      exact ⟨h.1, fun _ => h.2⟩

/-- On a well-formed tree `simplifyRec` returns, and what it returns is the tree
the pattern table gives. -/
theorem simplifyRec_spec (t : ExpTree) :
    wellFormed t = true → simplifyRec t = .done (simplifySpec t) := by
  induction t with
  | null => intro _; rfl
  | node tok l r ihl ihr =>
    intro hwf
    rcases tok with w | s | c
    · obtain ⟨rfl, rfl⟩ := wellFormed_number w l r hwf
      rfl
    · obtain ⟨rfl, rfl⟩ := wellFormed_identifier s l r hwf
      rfl
    · obtain ⟨hc, hl, hr⟩ := wellFormed_symbol c l r hwf
      obtain ⟨hln, hrn⟩ := wellFormed_symbol_children c l r hwf
      have hL := simplifySpec_wellFormed l hl
      have hR := simplifySpec_wellFormed r hr
      have hLn := hL.2 hln
      have hRn := hR.2 hrn
      have hLw := hL.1
      have hRw := hR.1
      clear hL hR
      simp only [simplifyRec, ihl hl, ihr hr, simplifySpec]
      generalize simplifySpec l = L at hLn hLw ⊢
      generalize simplifySpec r = R at hRn hRw ⊢
      rcases L with _ | ⟨tl, ll, lr⟩
      · simp [ExpTree.isNull] at hLn
      rcases R with _ | ⟨tr, rl, rr⟩
      · simp [ExpTree.isNull] at hRn
      simp only [isOperator, Bool.or_eq_true, decide_eq_true_eq] at hc
      rcases hc with ((rfl | rfl) | rfl) | rfl
      · simp +decide only [or_true, true_or, if_true, if_false]
        rw [simplifyPlus_table _ _ _ _ _ _ hLw hRw]
      · simp +decide only [or_true, true_or, if_true, if_false]
        rw [simplifyMinus_table _ _ _ _ _ _ hLw hRw]
      · simp +decide only [or_true, true_or, if_true, if_false]
        rw [simplifyTimes_table _ _ _ _ _ _ hLw hRw]
      · simp +decide only [or_true, true_or, if_true, if_false]
        rw [simplifyDivide_table _ _ _ _ _ _ hLw hRw]

theorem simplifySpec_idem (t : ExpTree) :
    wellFormed t = true → simplifySpec (simplifySpec t) = simplifySpec t := by
  induction t with
  | null => intro _; rfl
  | node tok l r ihl ihr =>
    intro hwf
    rcases tok with w | s | c
    · rfl
    · rfl
    · obtain ⟨hc, hl, hr⟩ := wellFormed_symbol c l r hwf
      have hLi := ihl hl
      have hRi := ihr hr
      simp only [simplifySpec]
      generalize simplifySpec l = L at hLi ⊢
      generalize simplifySpec r = R at hRi ⊢
      unfold simplifyTable
      by_cases h1 : c = '*' ∧ (isNumberOf 0 L = true ∨ isNumberOf 0 R = true)
      · rw [if_pos h1]
        rfl
      rw [if_neg h1]
      by_cases h2 : c = '*' ∧ isNumberOf 1 L = true
      · rw [if_pos h2]
        exact hRi
      rw [if_neg h2]
      by_cases h3 : c = '*' ∧ isNumberOf 1 R = true
      · rw [if_pos h3]
        exact hLi
      rw [if_neg h3]
      by_cases h4 : c = '/' ∧ isNumberOf 1 R = true
      · rw [if_pos h4]
        exact hLi
      rw [if_neg h4]
      by_cases h5 : c = '+' ∧ isNumberOf 0 L = true
      · rw [if_pos h5]
        exact hRi
      rw [if_neg h5]
      by_cases h6 : c = '+' ∧ isNumberOf 0 R = true
      · rw [if_pos h6]
        exact hLi
      rw [if_neg h6]
      by_cases h7 : c = '-' ∧ isNumberOf 0 R = true
      · rw [if_pos h7]
        exact hLi
      rw [if_neg h7]
      rw [simplifySpec, hLi, hRi]
      unfold simplifyTable
      rw [if_neg h1, if_neg h2, if_neg h3, if_neg h4, if_neg h5, if_neg h6, if_neg h7]

theorem evalTree_isNumberOf {K : Type} [Field K] (env : String → K) (w : ℚ) (L : ExpTree)
    (h : isNumberOf w L = true) : evalTree env L = (w : K) := by
  rcases L with _ | ⟨tl, ll, lr⟩
  · simp [isNumberOf] at h
  · rcases tl with v | s | c
    · simp only [isNumberOf, beq_iff_eq] at h
      rw [evalTree_number, h]
    · simp [isNumberOf] at h
    · simp [isNumberOf] at h

theorem evalTree_simplifyTable {K : Type} [Field K] (env : String → K) (c : Char)
    (L R : ExpTree) :
    evalTree env (simplifyTable c L R) = evalTree env (.node (.symbol c) L R) := by
  unfold simplifyTable
  split_ifs with h1 h2 h3 h4 h5 h6 h7
  · obtain ⟨rfl, h | h⟩ := h1
    · simp [evalTree_times, evalTree_isNumberOf env 0 _ h, toNumber, evalTree_number]
    · simp [evalTree_times, evalTree_isNumberOf env 0 _ h, toNumber, evalTree_number]
  · obtain ⟨rfl, h⟩ := h2
    simp [evalTree_times, evalTree_isNumberOf env 1 _ h]
  · obtain ⟨rfl, h⟩ := h3
    simp [evalTree_times, evalTree_isNumberOf env 1 _ h]
  · obtain ⟨rfl, h⟩ := h4
    simp [evalTree_divide, evalTree_isNumberOf env 1 _ h]
  · obtain ⟨rfl, h⟩ := h5
    simp [evalTree_plus, evalTree_isNumberOf env 0 _ h]
  · obtain ⟨rfl, h⟩ := h6
    simp [evalTree_plus, evalTree_isNumberOf env 0 _ h]
  · obtain ⟨rfl, h⟩ := h7
    simp [evalTree_minus, evalTree_isNumberOf env 0 _ h]
  · rfl

theorem divisorsNonzero_simplifyTable {K : Type} [Field K] (env : String → K) (c : Char)
    (L R : ExpTree) (hL : divisorsNonzero env L) (hR : divisorsNonzero env R)
    (hc : c = '/' → evalTree env R ≠ 0) :
    divisorsNonzero env (simplifyTable c L R) := by
  unfold simplifyTable
  split_ifs
  · simp [toNumber, divisorsNonzero]
  · exact hR
  · exact hL
  · exact hL
  · exact hR
  · exact hL
  · exact hL
  · exact ⟨hL, hR, hc⟩

theorem simplifySpec_value {K : Type} [Field K] (env : String → K) (t : ExpTree) :
    divisorsNonzero env t →
      divisorsNonzero env (simplifySpec t) ∧
        evalTree env (simplifySpec t) = evalTree env t := by
  induction t with
  | null => intro h; exact ⟨h, rfl⟩
  | node tok l r ihl ihr =>
    intro hdiv
    rcases tok with w | s | c
    · exact ⟨hdiv, rfl⟩
    · exact ⟨hdiv, rfl⟩
    · obtain ⟨hdl, hdr, hdc⟩ := hdiv
      obtain ⟨hL, hLe⟩ := ihl hdl
      obtain ⟨hR, hRe⟩ := ihr hdr
      simp only [simplifySpec]
      refine ⟨divisorsNonzero_simplifyTable env c _ _ hL hR (fun h => ?_), ?_⟩
      · rw [hRe]
        exact hdc h
      · rw [evalTree_simplifyTable]
        simp only [evalTree, hLe, hRe]


/-! ### The rules of differentiation -/

theorem differentiate_number (w : ℚ) (l r : ExpTree) (d : Int) :
    differentiate (.node (.number w) l r) d = (.node (.number 0) l r, d) := by
  rw [differentiate]

theorem differentiate_x (l r : ExpTree) (d : Int) :
    differentiate (.node (.identifier "x") l r) d = (.node (.number 1) l r, 0) := by
  rw [differentiate]
  simp

theorem differentiate_other (s : String) (l r : ExpTree) (d : Int) (hs : s ≠ "x") :
    differentiate (.node (.identifier s) l r) d = (.node (.number 0) l r, d) := by
  rw [differentiate]
  simp [hs]

theorem differentiate_plus (a b : ExpTree) (d : Int) :
    differentiate (.node (.symbol '+') a b) d =
      (.node (.symbol '+') (differentiate a d).1 (differentiate b (differentiate a d).2).1,
        (differentiate b (differentiate a d).2).2) := by
  rw [differentiate]
  simp

theorem differentiate_minus (a b : ExpTree) (d : Int) :
    differentiate (.node (.symbol '-') a b) d =
      (.node (.symbol '-') (differentiate a d).1 (differentiate b (differentiate a d).2).1,
        (differentiate b (differentiate a d).2).2) := by
  rw [differentiate]
  simp +decide

theorem differentiate_times (a b : ExpTree) (d : Int) :
    differentiate (.node (.symbol '*') a b) d =
      (.node (.symbol '+')
        (.node (.symbol '*') (differentiate (duplicate a) d).1 b)
        (.node (.symbol '*') a
          (differentiate (duplicate b) (differentiate (duplicate a) d).2).1),
        (differentiate (duplicate b) (differentiate (duplicate a) d).2).2) := by
  rw [differentiate]
  simp +decide [newExpTreeNode]

theorem differentiate_divide (a b : ExpTree) (d : Int) :
    differentiate (.node (.symbol '/') a b) d =
      (.node (.symbol '/')
        (.node (.symbol '-')
          (.node (.symbol '*') (differentiate (duplicate a) d).1 b)
          (.node (.symbol '*') a
            (differentiate (duplicate b) (differentiate (duplicate a) d).2).1))
        (.node (.symbol '*') (duplicate b) (duplicate b)),
        (differentiate (duplicate b) (differentiate (duplicate a) d).2).2) := by
  rw [differentiate]
  simp +decide [newExpTreeNode]

theorem differentiate_symbol_other (c : Char) (a b : ExpTree) (d : Int)
    (hc : isOperator c = false) :
    differentiate (.node (.symbol c) a b) d = (.node (.symbol c) a b, d) := by
  simp only [isOperator, Bool.or_eq_false_iff, decide_eq_false_iff_not] at hc
  rw [differentiate]
  simp [hc.1.1.1, hc.1.1.2, hc.1.2, hc.2]

/-- The tree `differentiate` leaves does not depend on the value of the flag. -/
theorem differentiate_tree_flag (t : ExpTree) :
    ∀ d e : Int, (differentiate t d).1 = (differentiate t e).1 := by
  induction t with
  | null =>
    intro d e
    rw [differentiate, differentiate]
  | node tok l r ihl ihr =>
    intro d e
    rcases tok with w | s | c
    · rw [differentiate_number, differentiate_number]
    · by_cases hs : s = "x"
      · subst hs
        rw [differentiate_x, differentiate_x]
      · rw [differentiate_other _ _ _ _ hs, differentiate_other _ _ _ _ hs]
    · by_cases hc : isOperator c = true
      · simp only [isOperator, Bool.or_eq_true, decide_eq_true_eq] at hc
        rcases hc with ((rfl | rfl) | rfl) | rfl
        · rw [differentiate_plus, differentiate_plus]
          simp only
          rw [ihl d e, ihr (differentiate l d).2 (differentiate l e).2]
        · rw [differentiate_minus, differentiate_minus]
          simp only
          rw [ihl d e, ihr (differentiate l d).2 (differentiate l e).2]
        · rw [differentiate_times, differentiate_times]
          simp only [duplicate_eq]
          rw [ihl d e, ihr (differentiate l d).2 (differentiate l e).2]
        · rw [differentiate_divide, differentiate_divide]
          simp only [duplicate_eq]
          rw [ihl d e, ihr (differentiate l d).2 (differentiate l e).2]
      · have hc2 : isOperator c = false := by simpa using hc
        rw [differentiate_symbol_other _ _ _ _ hc2, differentiate_symbol_other _ _ _ _ hc2]

/-- The flag `differentiate` leaves: 0 when the tree holds an identifier `x`,
the value at entry otherwise. -/
theorem differentiate_flag_value (t : ExpTree) :
    ∀ d : Int, wellFormed t = true →
      (differentiate t d).2 = if containsX t = true then 0 else d := by
  induction t with
  | null =>
    intro d _
    rw [differentiate]
    simp [containsX]
  | node tok l r ihl ihr =>
    intro d hwf
    rcases tok with w | s | c
    · obtain ⟨rfl, rfl⟩ := wellFormed_number w l r hwf
      rw [differentiate_number]
      simp [containsX]
    · obtain ⟨rfl, rfl⟩ := wellFormed_identifier s l r hwf
      by_cases hs : s = "x"
      · subst hs
        rw [differentiate_x]
        simp [containsX]
      · rw [differentiate_other _ _ _ _ hs]
        simp [containsX, hs]
    · obtain ⟨hc, hl, hr⟩ := wellFormed_symbol c l r hwf
      simp only [isOperator, Bool.or_eq_true, decide_eq_true_eq] at hc
      have key : (differentiate r (differentiate l d).2).2 =
          if containsX (.node (.symbol c) l r) = true then 0 else d := by
        rw [ihr _ hr, ihl d hl]
        simp only [containsX, Bool.or_eq_true]
        by_cases h1 : containsX l = true <;> by_cases h2 : containsX r = true <;>
          simp [h1, h2]
      rcases hc with ((rfl | rfl) | rfl) | rfl
      · rw [differentiate_plus]
        exact key
      · rw [differentiate_minus]
        exact key
      · rw [differentiate_times]
        simp only [duplicate_eq]
        exact key
      · rw [differentiate_divide]
        simp only [duplicate_eq]
        exact key


/-- C11: `differentiate` applied to `*(a, b)` leaves the tree
`+(*(a', b), *(a, b'))`, where `a'` and `b'` are what `differentiate` makes of
copies of `a` and `b` (whatever the flag), which is what it makes of `a` and `b`
themselves; the other two operands are `a` and `b` as they were, and a copy is
structurally equal to its source. -/
theorem differentiate_product_rule (a b : ExpTree) (d e : Int) :
    (differentiate (.node (.symbol '*') a b) d).1 =
        .node (.symbol '+')
          (.node (.symbol '*') (differentiate (duplicate a) e).1 b)
          (.node (.symbol '*') a (differentiate (duplicate b) e).1) ∧
      (differentiate (duplicate a) e).1 = (differentiate a e).1 ∧
      (differentiate (duplicate b) e).1 = (differentiate b e).1 := by
  refine ⟨?_, by rw [duplicate_eq], by rw [duplicate_eq]⟩
  rw [differentiate_times]
  simp only
  rw [differentiate_tree_flag (duplicate a) d e,
    differentiate_tree_flag (duplicate b) (differentiate (duplicate a) d).2 e]

/-- C12: `differentiate` applied to `/(a, b)` leaves the tree
`/(-(*(a', b), *(a, b')), *(b, b))`, where `a'` and `b'` are what
`differentiate` makes of copies of `a` and `b` (whatever the flag), which is
what it makes of `a` and `b` themselves; both factors of the denominator are
copies of `b`, structurally equal to `b` and not differentiated. -/
theorem differentiate_quotient_rule (a b : ExpTree) (d e : Int) :
    (differentiate (.node (.symbol '/') a b) d).1 =
        .node (.symbol '/')
          (.node (.symbol '-')
            (.node (.symbol '*') (differentiate (duplicate a) e).1 b)
            (.node (.symbol '*') a (differentiate (duplicate b) e).1))
          (.node (.symbol '*') b b) ∧
      (differentiate (duplicate a) e).1 = (differentiate a e).1 ∧
      (differentiate (duplicate b) e).1 = (differentiate b e).1 ∧
      duplicate b = b := by
  refine ⟨?_, by rw [duplicate_eq], by rw [duplicate_eq], duplicate_eq b⟩
  rw [differentiate_divide]
  simp only
  rw [differentiate_tree_flag (duplicate a) d e,
    differentiate_tree_flag (duplicate b) (differentiate (duplicate a) d).2 e,
    duplicate_eq b]

/-- C13: `differentiate` turns a number leaf into the number 0 and keeps the
flag, turns the identifier leaf `x` into the number 1 and sets the flag to 0,
and turns an identifier leaf of any other name into the number 0 and keeps the
flag. -/
theorem differentiate_leaf_rules (w : ℚ) (s : String) (d : Int) (hs : s ≠ "x") :
    differentiate (leaf (.number w)) d = (leaf (.number 0), d) ∧
      differentiate (leaf (.identifier "x")) d = (leaf (.number 1), 0) ∧
      differentiate (leaf (.identifier s)) d = (leaf (.number 0), d) := by
  simp only [leaf, newExpTreeNode]
  exact ⟨differentiate_number w _ _ d, differentiate_x _ _ d,
    differentiate_other s _ _ d hs⟩

/-- Witness of C13: the leaves `7`, `x` and `y`, with the flag at 1. -/
theorem differentiate_leaf_rules_witness :
    ("y" : String) ≠ "x" ∧
      differentiate (leaf (.number 7)) 1 = (leaf (.number 0), 1) ∧
      differentiate (leaf (.identifier "x")) 1 = (leaf (.number 1), 0) ∧
      differentiate (leaf (.identifier "y")) 1 = (leaf (.number 0), 1) :=
  ⟨by decide, differentiate_leaf_rules 7 "y" 1 (by decide)⟩

/-- C14: the builder makes `*(x, x)` of `x * x`; `differentiate` turns it into
`+(*(1, x), *(x, 1))`, and `simplify` turns that into `+(x, x)`, the tree the
builder makes of `x + x`.  The tree `*(x, x)` is left as it is by the `simplify`
the caller runs before differentiating.  The identifier `x` does not read as a
parenthesis. -/
theorem derivative_x_times_x (m : Layout) (hx : m.plain (.identifier "x") = true) :
    treeInfixExpr m [.identifier "x", .symbol '*', .identifier "x"] none 0 =
        .done ⟨1, [], some (.node (.symbol '*') (leaf (.identifier "x"))
          (leaf (.identifier "x"))), 0⟩ ∧
      simplify (.node (.symbol '*') (leaf (.identifier "x")) (leaf (.identifier "x"))) =
        .done (.node (.symbol '*') (leaf (.identifier "x")) (leaf (.identifier "x"))) ∧
      (differentiate (.node (.symbol '*') (leaf (.identifier "x"))
          (leaf (.identifier "x"))) 1).1 =
        .node (.symbol '+')
          (.node (.symbol '*') (leaf (.number 1)) (leaf (.identifier "x")))
          (.node (.symbol '*') (leaf (.identifier "x")) (leaf (.number 1))) ∧
      simplify (differentiate (.node (.symbol '*') (leaf (.identifier "x"))
          (leaf (.identifier "x"))) 1).1 =
        .done (.node (.symbol '+') (leaf (.identifier "x")) (leaf (.identifier "x"))) ∧
      treeInfixExpr m [.identifier "x", .symbol '+', .identifier "x"] none 0 =
        .done ⟨1, [], some (.node (.symbol '+') (leaf (.identifier "x"))
          (leaf (.identifier "x"))), 0⟩ := by
  have hp1 : m.plainOn [.identifier "x", .symbol '*', .identifier "x"] = true := by
    simp only [Layout.plainOn, List.all_cons, List.all_nil, plain_symbol, hx, Bool.and_self]
  have hp2 : m.plainOn [.identifier "x", .symbol '+', .identifier "x"] = true := by
    simp only [Layout.plainOn, List.all_cons, List.all_nil, plain_symbol, hx, Bool.and_self]
  rw [treeInfixExpr_plain m _ _ _ hp1, treeInfixExpr_plain m _ _ _ hp2]
  have hd : (differentiate (.node (.symbol '*') (leaf (.identifier "x"))
      (leaf (.identifier "x"))) 1).1 =
      .node (.symbol '+')
        (.node (.symbol '*') (leaf (.number 1)) (leaf (.identifier "x")))
        (.node (.symbol '*') (leaf (.identifier "x")) (leaf (.number 1))) := by
    simp only [leaf, newExpTreeNode, differentiate_times, duplicate_eq, differentiate_x]
  refine ⟨by decide, by decide, hd, ?_, by decide⟩
  rw [hd]
  decide

/-- Witness of C14: the names of identifiers at addresses whose first byte is
0, the builder makes `*(x, x)` of `x * x`. -/
theorem derivative_x_times_x_witness :
    lowByteFirst.plain (.identifier "x") = true ∧
      treeInfixExpr lowByteFirst [.identifier "x", .symbol '*', .identifier "x"] none 0 =
        .done ⟨1, [], some (.node (.symbol '*') (leaf (.identifier "x"))
          (leaf (.identifier "x"))), 0⟩ :=
  ⟨by decide, (derivative_x_times_x lowByteFirst (by decide)).1⟩

/-- C15: the builder makes `/(x, 2)` of `x / 2`; `differentiate` turns it into
`/(-(*(1, 2), *(x, 0)), *(2, 2))`, and `simplify` turns that into
`/(2, *(2, 2))`, whose value is 1/2.  The identifier `x` and the number 2 do
not read as a parenthesis. -/
theorem derivative_x_over_two (m : Layout) (hx : m.plain (.identifier "x") = true)
    (h2 : m.plain (.number 2) = true) :
    treeInfixExpr m [.identifier "x", .symbol '/', .number 2] none 0 =
        .done ⟨1, [], some (.node (.symbol '/') (leaf (.identifier "x"))
          (leaf (.number 2))), 0⟩ ∧
      (differentiate (.node (.symbol '/') (leaf (.identifier "x")) (leaf (.number 2))) 1).1 =
        .node (.symbol '/')
          (.node (.symbol '-')
            (.node (.symbol '*') (leaf (.number 1)) (leaf (.number 2)))
            (.node (.symbol '*') (leaf (.identifier "x")) (leaf (.number 0))))
          (.node (.symbol '*') (leaf (.number 2)) (leaf (.number 2))) ∧
      simplify (differentiate (.node (.symbol '/') (leaf (.identifier "x"))
          (leaf (.number 2))) 1).1 =
        .done (.node (.symbol '/') (leaf (.number 2))
          (.node (.symbol '*') (leaf (.number 2)) (leaf (.number 2)))) ∧
      evalTree (fun _ => (0 : ℚ)) (.node (.symbol '/') (leaf (.number 2))
          (.node (.symbol '*') (leaf (.number 2)) (leaf (.number 2)))) = 1 / 2 := by
  have hp : m.plainOn [.identifier "x", .symbol '/', .number 2] = true := by
    simp only [Layout.plainOn, List.all_cons, List.all_nil, plain_symbol, hx, h2,
      Bool.and_self]
  rw [treeInfixExpr_plain m _ _ _ hp]
  have hd : (differentiate (.node (.symbol '/') (leaf (.identifier "x"))
      (leaf (.number 2))) 1).1 =
      .node (.symbol '/')
        (.node (.symbol '-')
          (.node (.symbol '*') (leaf (.number 1)) (leaf (.number 2)))
          (.node (.symbol '*') (leaf (.identifier "x")) (leaf (.number 0))))
        (.node (.symbol '*') (leaf (.number 2)) (leaf (.number 2))) := by
    simp only [leaf, newExpTreeNode, differentiate_divide, duplicate_eq, differentiate_x,
      differentiate_number]
  refine ⟨by decide, hd, ?_, ?_⟩
  · rw [hd]
    decide
  · simp only [leaf, newExpTreeNode, evalTree_divide, evalTree_times, evalTree_number]
    norm_num

/-- Witness of C15: the number an `int` stored low byte first and the names of
identifiers at addresses whose first byte is 0, the builder makes `/(x, 2)` of
`x / 2`. -/
theorem derivative_x_over_two_witness :
    lowByteFirst.plain (.identifier "x") = true ∧ lowByteFirst.plain (.number 2) = true ∧
      treeInfixExpr lowByteFirst [.identifier "x", .symbol '/', .number 2] none 0 =
        .done ⟨1, [], some (.node (.symbol '/') (leaf (.identifier "x"))
          (leaf (.number 2))), 0⟩ :=
  ⟨by decide, by decide, (derivative_x_over_two lowByteFirst (by decide) (by decide)).1⟩

/-- C16 (the claim fails on the code): the tree of `3` is well formed and holds
no `x`, and `differentiate` called with the flag at 1 returns with the flag
still at 1, not at 0. -/
theorem differentiate_flag_not_cleared :
    wellFormed (leaf (.number 3)) = true ∧ containsX (leaf (.number 3)) = false ∧
      (differentiate (leaf (.number 3)) 1).2 = 1 ∧
      (differentiate (leaf (.number 3)) 1).2 ≠ 0 := by
  have h : differentiate (leaf (.number 3)) 1 = (leaf (.number 0), 1) := by
    simp only [leaf, newExpTreeNode, differentiate_number]
  rw [h]
  decide

/-- C16 as amended: for a well-formed tree `differentiate` returns with the flag
at 0 when the tree holds an identifier `x`, and with the flag as it was at
entry when the tree holds none; called with the flag at 1 on a tree without `x`
it returns with the flag at 1. -/
theorem differentiate_flag (t : ExpTree) (d : Int) (hwf : wellFormed t = true) :
    (differentiate t d).2 = (if containsX t = true then 0 else d) ∧
      (containsX t = false → (differentiate t 1).2 = 1) := by
  refine ⟨differentiate_flag_value t d hwf, fun h => ?_⟩
  rw [differentiate_flag_value t 1 hwf, h]
  simp

/-- Witness of the amended C16: the tree of `3 + y`, flag at 1. -/
theorem differentiate_flag_witness :
    wellFormed (.node (.symbol '+') (leaf (.number 3)) (leaf (.identifier "y"))) = true ∧
      (differentiate (.node (.symbol '+') (leaf (.number 3)) (leaf (.identifier "y"))) 1).2 =
        (if containsX (.node (.symbol '+') (leaf (.number 3)) (leaf (.identifier "y"))) = true
          then 0 else 1) ∧
      (containsX (.node (.symbol '+') (leaf (.number 3)) (leaf (.identifier "y"))) = false →
        (differentiate (.node (.symbol '+') (leaf (.number 3))
          (leaf (.identifier "y"))) 1).2 = 1) :=
  ⟨by decide, differentiate_flag _ 1 (by decide)⟩

/-- C17: on a well-formed tree `simplify` returns the tree of the pattern table
applied bottom-up (`simplifySpec`): leaves unchanged; for an operator node, with
`L` and `R` the simplified children, the number 0 for `*` when `L` or `R` is the
number 0, `R` for `1 * R`, `L` for `L * 1`, `L / 1`, `L + 0` and `L - 0`, `R` for
`0 + R`, and the node with the same operator and children `L`, `R` otherwise. -/
theorem simplify_pattern_table (t : ExpTree) (hwf : wellFormed t = true) :
    simplify t = .done (simplifySpec t) :=
  simplifyRec_spec t hwf

/-- Witness of C17: `(0 * x) + (y / 1)` simplifies to `y`; `2 * 3`, `0 / x`,
`0 - x` and `x * y` stay as they are. -/
theorem simplify_pattern_table_witness :
    wellFormed (.node (.symbol '+')
        (.node (.symbol '*') (leaf (.number 0)) (leaf (.identifier "x")))
        (.node (.symbol '/') (leaf (.identifier "y")) (leaf (.number 1)))) = true ∧
      simplify (.node (.symbol '+')
        (.node (.symbol '*') (leaf (.number 0)) (leaf (.identifier "x")))
        (.node (.symbol '/') (leaf (.identifier "y")) (leaf (.number 1)))) =
        .done (simplifySpec (.node (.symbol '+')
          (.node (.symbol '*') (leaf (.number 0)) (leaf (.identifier "x")))
          (.node (.symbol '/') (leaf (.identifier "y")) (leaf (.number 1))))) ∧
      simplifySpec (.node (.symbol '+')
        (.node (.symbol '*') (leaf (.number 0)) (leaf (.identifier "x")))
        (.node (.symbol '/') (leaf (.identifier "y")) (leaf (.number 1)))) =
        leaf (.identifier "y") ∧
      simplify (.node (.symbol '*') (leaf (.number 2)) (leaf (.number 3))) =
        .done (.node (.symbol '*') (leaf (.number 2)) (leaf (.number 3))) ∧
      simplify (.node (.symbol '/') (leaf (.number 0)) (leaf (.identifier "x"))) =
        .done (.node (.symbol '/') (leaf (.number 0)) (leaf (.identifier "x"))) ∧
      simplify (.node (.symbol '-') (leaf (.number 0)) (leaf (.identifier "x"))) =
        .done (.node (.symbol '-') (leaf (.number 0)) (leaf (.identifier "x"))) ∧
      simplify (.node (.symbol '*') (leaf (.identifier "x")) (leaf (.identifier "y"))) =
        .done (.node (.symbol '*') (leaf (.identifier "x")) (leaf (.identifier "y"))) :=
  ⟨by decide, simplify_pattern_table _ (by decide), by decide, by decide, by decide,
    by decide, by decide⟩

/-- C18: on a well-formed tree `simplify` returns a tree that `simplify` returns
unchanged. -/
theorem simplify_idempotent (t : ExpTree) (hwf : wellFormed t = true) :
    ∃ s, simplify t = .done s ∧ simplify s = .done s := by
  refine ⟨simplifySpec t, simplifyRec_spec t hwf, ?_⟩
  have h := simplifyRec_spec (simplifySpec t) (simplifySpec_wellFormed t hwf).1
  rw [simplifySpec_idem t hwf] at h
  exact h

/-- Witness of C18: `(x * 1) + (0 * y)`. -/
theorem simplify_idempotent_witness :
    wellFormed (.node (.symbol '+')
        (.node (.symbol '*') (leaf (.identifier "x")) (leaf (.number 1)))
        (.node (.symbol '*') (leaf (.number 0)) (leaf (.identifier "y")))) = true ∧
      ∃ s, simplify (.node (.symbol '+')
        (.node (.symbol '*') (leaf (.identifier "x")) (leaf (.number 1)))
        (.node (.symbol '*') (leaf (.number 0)) (leaf (.identifier "y")))) = .done s ∧
        simplify s = .done s :=
  ⟨by decide, simplify_idempotent _ (by decide)⟩

/-- C19: on a well-formed tree none of whose divisor subexpressions has the
value 0 under the environment `env`, `simplify` returns a tree that has no
divisor of value 0 either and has the same value, in any field. -/
theorem simplify_preserves_value {K : Type} [Field K] (env : String → K) (t : ExpTree)
    (hwf : wellFormed t = true) (hdiv : divisorsNonzero env t) :
    ∃ s, simplify t = .done s ∧ divisorsNonzero env s ∧
      evalTree env s = evalTree env t := by
  obtain ⟨h1, h2⟩ := simplifySpec_value env t hdiv
  exact ⟨simplifySpec t, simplifyRec_spec t hwf, h1, h2⟩

/-- Witness of C19: `(x / 1) + (0 * y)` over the rationals, every identifier
having the value 3. -/
theorem simplify_preserves_value_witness :
    wellFormed (.node (.symbol '+')
        (.node (.symbol '/') (leaf (.identifier "x")) (leaf (.number 1)))
        (.node (.symbol '*') (leaf (.number 0)) (leaf (.identifier "y")))) = true ∧
      divisorsNonzero (fun _ => (3 : ℚ)) (.node (.symbol '+')
        (.node (.symbol '/') (leaf (.identifier "x")) (leaf (.number 1)))
        (.node (.symbol '*') (leaf (.number 0)) (leaf (.identifier "y")))) ∧
      ∃ s, simplify (.node (.symbol '+')
        (.node (.symbol '/') (leaf (.identifier "x")) (leaf (.number 1)))
        (.node (.symbol '*') (leaf (.number 0)) (leaf (.identifier "y")))) = .done s ∧
        divisorsNonzero (fun _ => (3 : ℚ)) s ∧
        evalTree (fun _ => (3 : ℚ)) s = evalTree (fun _ => (3 : ℚ)) (.node (.symbol '+')
          (.node (.symbol '/') (leaf (.identifier "x")) (leaf (.number 1)))
          (.node (.symbol '*') (leaf (.number 0)) (leaf (.identifier "y")))) :=
  have hdiv : divisorsNonzero (fun _ => (3 : ℚ)) (.node (.symbol '+')
      (.node (.symbol '/') (leaf (.identifier "x")) (leaf (.number 1)))
      (.node (.symbol '*') (leaf (.number 0)) (leaf (.identifier "y")))) := by
    simp +decide [divisorsNonzero, leaf, newExpTreeNode, evalTree_number]
  ⟨by decide, hdiv, simplify_preserves_value (fun _ => (3 : ℚ)) _ (by decide) hdiv⟩

/-- C20: `duplicate` returns a tree structurally equal to its argument, for
every tree, also one with a node that has only one child; the copy of the empty
tree is the empty tree. -/
theorem duplicate_fidelity (t : ExpTree) :
    duplicate t = t ∧ duplicate .null = .null :=
  ⟨duplicate_eq t, rfl⟩

/-! ### Well-formedness through the tree operations -/

theorem differentiate_wellFormed (t : ExpTree) :
    ∀ d : Int, wellFormed t = true →
      wellFormed (differentiate t d).1 = true ∧
        (t.isNull = false → (differentiate t d).1.isNull = false) := by
  induction t with
  | null =>
    intro d _
    rw [differentiate]
    exact ⟨rfl, fun h => h⟩
  | node tok l r ihl ihr =>
    intro d hwf
    rcases tok with w | s | c
    · obtain ⟨rfl, rfl⟩ := wellFormed_number w l r hwf
      rw [differentiate_number]
      exact ⟨rfl, fun _ => rfl⟩
    · obtain ⟨rfl, rfl⟩ := wellFormed_identifier s l r hwf
      by_cases hs : s = "x"
      · subst hs
        rw [differentiate_x]
        exact ⟨rfl, fun _ => rfl⟩
      · rw [differentiate_other _ _ _ _ hs]
        exact ⟨rfl, fun _ => rfl⟩
    · obtain ⟨hc, hl, hr⟩ := wellFormed_symbol c l r hwf
      obtain ⟨hln, hrn⟩ := wellFormed_symbol_children c l r hwf
      have h1 := fun e => ihl e hl
      have h2 := fun e => ihr e hr
      simp only [isOperator, Bool.or_eq_true, decide_eq_true_eq] at hc
      rcases hc with ((rfl | rfl) | rfl) | rfl
      · rw [differentiate_plus]
        refine ⟨?_, fun _ => rfl⟩
        simp [wellFormed, isOperator, (h1 _).1, (h2 _).1, (h1 _).2 hln, (h2 _).2 hrn]
      · rw [differentiate_minus]
        refine ⟨?_, fun _ => rfl⟩
        simp [wellFormed, isOperator, (h1 _).1, (h2 _).1, (h1 _).2 hln, (h2 _).2 hrn]
      · rw [differentiate_times]
        refine ⟨?_, fun _ => rfl⟩
        simp [wellFormed, isOperator, duplicate_eq, isNull_node, hl, hr, hln, hrn,
          (h1 _).1, (h2 _).1, (h1 _).2 hln, (h2 _).2 hrn]
      · rw [differentiate_divide]
        refine ⟨?_, fun _ => rfl⟩
        simp [wellFormed, isOperator, duplicate_eq, isNull_node, hl, hr, hln, hrn,
          (h1 _).1, (h2 _).1, (h1 _).2 hln, (h2 _).2 hrn]

/-- C22 (the code violates the claim): on `( 2 ) 3`, `2 ( 3 )` and `( 1 ) ( 2 )`,
two operands with no operator between them, the builder returns 1 and hands
back a number leaf that carries the second operand as its right child, while on
the two adjacent leaves `2 3` it returns 0.  The numbers 1, 2 and 3 do not read
as a parenthesis. -/
theorem treeInfixExpr_adjacent_parenthesis (m : Layout) (h1 : m.plain (.number 1) = true)
    (h2 : m.plain (.number 2) = true) (h3 : m.plain (.number 3) = true) :
    treeInfixExpr m [.symbol '(', .number 2, .symbol ')', .number 3] none 0 =
        .done ⟨1, [], some (.node (.number 2) .null (leaf (.number 3))), 0⟩ ∧
      treeInfixExpr m [.number 2, .symbol '(', .number 3, .symbol ')'] none 0 =
        .done ⟨1, [], some (.node (.number 2) .null (leaf (.number 3))), 0⟩ ∧
      treeInfixExpr m [.symbol '(', .number 1, .symbol ')', .symbol '(', .number 2,
          .symbol ')'] none 0 =
        .done ⟨1, [], some (.node (.number 1) .null (leaf (.number 2))), 0⟩ ∧
      wellFormed (.node (.number 2) .null (leaf (.number 3))) = false ∧
      treeInfixExpr m [.number 2, .number 3] none 0 =
        .done ⟨0, [], some (leaf (.number 2)), 0⟩ := by
  have hp1 : m.plainOn [.symbol '(', .number 2, .symbol ')', .number 3] = true := by
    simp only [Layout.plainOn, List.all_cons, List.all_nil, plain_symbol, h2, h3,
      Bool.and_self]
  have hp2 : m.plainOn [.number 2, .symbol '(', .number 3, .symbol ')'] = true := by
    simp only [Layout.plainOn, List.all_cons, List.all_nil, plain_symbol, h2, h3,
      Bool.and_self]
  have hp3 : m.plainOn [.symbol '(', .number 1, .symbol ')', .symbol '(', .number 2,
      .symbol ')'] = true := by
    simp only [Layout.plainOn, List.all_cons, List.all_nil, plain_symbol, h1, h2,
      Bool.and_self]
  have hp4 : m.plainOn [.number 2, .number 3] = true := by
    simp only [Layout.plainOn, List.all_cons, List.all_nil, h2, h3, Bool.and_self]
  rw [treeInfixExpr_plain m _ _ _ hp1, treeInfixExpr_plain m _ _ _ hp2,
    treeInfixExpr_plain m _ _ _ hp3, treeInfixExpr_plain m _ _ _ hp4]
  decide

/-- Witness of C22: the number an `int` stored low byte first; `( 2 ) 3` is
returned as success. -/
theorem treeInfixExpr_adjacent_parenthesis_witness :
    lowByteFirst.plain (.number 1) = true ∧ lowByteFirst.plain (.number 2) = true ∧
      lowByteFirst.plain (.number 3) = true ∧
      treeInfixExpr lowByteFirst [.symbol '(', .number 2, .symbol ')', .number 3] none 0 =
        .done ⟨1, [], some (.node (.number 2) .null (leaf (.number 3))), 0⟩ :=
  ⟨by decide, by decide, by decide,
    (treeInfixExpr_adjacent_parenthesis lowByteFirst (by decide) (by decide)
      (by decide)).1⟩

/-- C23: for a well-formed tree `t`, the copy `duplicate t`, the tree that
`differentiate` leaves and the tree that `simplify` returns are well formed;
`simplify` does return, and so it does after `differentiate` and, as the caller
runs them, on the derivative of the simplified tree. -/
theorem wellFormed_invariant (t : ExpTree) (d : Int) (hwf : wellFormed t = true) :
    wellFormed (duplicate t) = true ∧
      wellFormed (differentiate t d).1 = true ∧
      (∃ s, simplify t = .done s ∧ wellFormed s = true ∧
        wellFormed (differentiate s d).1 = true ∧
        ∃ s2, simplify (differentiate s d).1 = .done s2 ∧ wellFormed s2 = true) ∧
      (∃ s3, simplify (differentiate t d).1 = .done s3 ∧ wellFormed s3 = true) := by
  have hs := (simplifySpec_wellFormed t hwf).1
  have hds := (differentiate_wellFormed (simplifySpec t) d hs).1
  have hd := (differentiate_wellFormed t d hwf).1
  refine ⟨by rw [duplicate_eq]; exact hwf, hd,
    ⟨simplifySpec t, simplifyRec_spec t hwf, hs, hds,
      simplifySpec (differentiate (simplifySpec t) d).1, simplifyRec_spec _ hds,
      (simplifySpec_wellFormed _ hds).1⟩,
    ⟨simplifySpec (differentiate t d).1, simplifyRec_spec _ hd,
      (simplifySpec_wellFormed _ hd).1⟩⟩

/-- Witness of C23: the tree of `x * x / 2`. -/
theorem wellFormed_invariant_witness :
    wellFormed (.node (.symbol '/')
        (.node (.symbol '*') (leaf (.identifier "x")) (leaf (.identifier "x")))
        (leaf (.number 2))) = true ∧
      wellFormed (duplicate (.node (.symbol '/')
        (.node (.symbol '*') (leaf (.identifier "x")) (leaf (.identifier "x")))
        (leaf (.number 2)))) = true ∧
      wellFormed (differentiate (.node (.symbol '/')
        (.node (.symbol '*') (leaf (.identifier "x")) (leaf (.identifier "x")))
        (leaf (.number 2))) 1).1 = true :=
  have h := wellFormed_invariant (.node (.symbol '/')
    (.node (.symbol '*') (leaf (.identifier "x")) (leaf (.identifier "x")))
    (leaf (.number 2))) 1 (by decide)
  ⟨by decide, h.1, h.2.1⟩

/-! ### Differentiation keeps the nodes of a tree in memory distinct -/

theorem ico_succ_singleton (n : Nat) : Multiset.Ico n (n + 1) = {n} := by
  rw [Multiset.Ico, Nat.Ico_succ_singleton]
  rfl

theorem singleton_add_ico (n m : Nat) (h : n + 1 ≤ m) :
    ({n} : Multiset Nat) + Multiset.Ico (n + 1) m = Multiset.Ico n m := by
  rw [← ico_succ_singleton, Multiset.Ico_add_Ico_eq_Ico (Nat.le_succ n) h]

theorem duplicateMem_if (l : MemTree) (m : Nat) :
    (if l.isNull = true then (MemTree.null, m) else duplicateMem l m) = duplicateMem l m := by
  cases l <;> rfl

theorem duplicateMem_node (a : Nat) (t : Token) (l r : MemTree) (n : Nat) :
    duplicateMem (.node a t l r) n =
      (.node n t (duplicateMem l (n + 1)).1 (duplicateMem r (duplicateMem l (n + 1)).2).1,
        (duplicateMem r (duplicateMem l (n + 1)).2).2) := by
  rw [duplicateMem]
  simp only [duplicateMem_if]

/-- The copy `duplicate` makes: its nodes are at the addresses from `n` up to
the next free address, it has the size and, addresses apart, the shape and
payloads of the source. -/
theorem duplicateMem_spec (t : MemTree) :
    ∀ n : Nat, n ≤ (duplicateMem t n).2 ∧
      (duplicateMem t n).1.addrs = Multiset.Ico n (duplicateMem t n).2 ∧
      (duplicateMem t n).1.size = t.size ∧
      (duplicateMem t n).1.erase = t.erase := by
  induction t with
  | null =>
    intro n
    refine ⟨le_refl _, ?_, rfl, rfl⟩
    simp [duplicateMem, MemTree.addrs]
  | node a t l r ihl ihr =>
    intro n
    obtain ⟨h1, h2, h3, h4⟩ := ihl (n + 1)
    obtain ⟨k1, k2, k3, k4⟩ := ihr (duplicateMem l (n + 1)).2
    rw [duplicateMem_node]
    refine ⟨by simp only; omega, ?_, ?_, ?_⟩
    · simp only [MemTree.addrs, h2, k2]
      rw [add_assoc, Multiset.Ico_add_Ico_eq_Ico h1 k1, singleton_add_ico _ _ (by omega)]
    · simp only [MemTree.size, h3, k3]
    · simp only [MemTree.erase, h4, k4]

theorem differentiateMem_null (d : Int) (n : Nat) :
    differentiateMem .null d n = ⟨.null, d, n⟩ := by
  rw [differentiateMem]

theorem differentiateMem_number (a : Nat) (w : ℚ) (l r : MemTree) (d : Int) (n : Nat) :
    differentiateMem (.node a (.number w) l r) d n = ⟨.node a (.number 0) l r, d, n⟩ := by
  rw [differentiateMem]

theorem differentiateMem_x (a : Nat) (l r : MemTree) (d : Int) (n : Nat) :
    differentiateMem (.node a (.identifier "x") l r) d n =
      ⟨.node a (.number 1) l r, 0, n⟩ := by
  rw [differentiateMem]
  simp

theorem differentiateMem_other (a : Nat) (s : String) (l r : MemTree) (d : Int) (n : Nat)
    (hs : s ≠ "x") :
    differentiateMem (.node a (.identifier s) l r) d n =
      ⟨.node a (.number 0) l r, d, n⟩ := by
  rw [differentiateMem]
  simp [hs]

theorem differentiateMem_plus (a : Nat) (l r : MemTree) (d : Int) (n : Nat) :
    differentiateMem (.node a (.symbol '+') l r) d n =
      ⟨.node a (.symbol '+') (differentiateMem l d n).tree
          (differentiateMem r (differentiateMem l d n).flag
            (differentiateMem l d n).next).tree,
        (differentiateMem r (differentiateMem l d n).flag (differentiateMem l d n).next).flag,
        (differentiateMem r (differentiateMem l d n).flag
          (differentiateMem l d n).next).next⟩ := by
  rw [differentiateMem]
  simp

theorem differentiateMem_minus (a : Nat) (l r : MemTree) (d : Int) (n : Nat) :
    differentiateMem (.node a (.symbol '-') l r) d n =
      ⟨.node a (.symbol '-') (differentiateMem l d n).tree
          (differentiateMem r (differentiateMem l d n).flag
            (differentiateMem l d n).next).tree,
        (differentiateMem r (differentiateMem l d n).flag (differentiateMem l d n).next).flag,
        (differentiateMem r (differentiateMem l d n).flag
          (differentiateMem l d n).next).next⟩ := by
  rw [differentiateMem]
  simp +decide

theorem differentiateMem_symbol_other (a : Nat) (c : Char) (l r : MemTree) (d : Int)
    (n : Nat) (hc : isOperator c = false) :
    differentiateMem (.node a (.symbol c) l r) d n = ⟨.node a (.symbol c) l r, d, n⟩ := by
  simp only [isOperator, Bool.or_eq_false_iff, decide_eq_false_iff_not] at hc
  rw [differentiateMem]
  simp [hc.1.1.1, hc.1.1.2, hc.1.2, hc.2]


theorem differentiateMem_times (a : Nat) (l r : MemTree) (d : Int) (n : Nat) :
    differentiateMem (.node a (.symbol '*') l r) d n =
      (let c1 := duplicateMem l (n + 2)
       let p1 := differentiateMem c1.1 d c1.2
       let c2 := duplicateMem r p1.next
       let p2 := differentiateMem c2.1 p1.flag c2.2
       ⟨.node a (.symbol '+')
          (.node n (.symbol '*') p1.tree r)
          (.node (n + 1) (.symbol '*') l p2.tree), p2.flag, p2.next⟩) := by
  rw [differentiateMem]
  simp +decide

theorem differentiateMem_divide (a : Nat) (l r : MemTree) (d : Int) (n : Nat) :
    differentiateMem (.node a (.symbol '/') l r) d n =
      (let c1 := duplicateMem l (n + 4)
       let p1 := differentiateMem c1.1 d c1.2
       let c2 := duplicateMem r p1.next
       let p2 := differentiateMem c2.1 p1.flag c2.2
       let p3 := duplicateMem r p2.next
       let p4 := duplicateMem r p3.2
       ⟨.node a (.symbol '/')
          (.node n (.symbol '-')
            (.node (n + 1) (.symbol '*') p1.tree r)
            (.node (n + 2) (.symbol '*') l p2.tree))
          (.node (n + 3) (.symbol '*') p3.1 p4.1), p2.flag, p4.2⟩) := by
  rw [differentiateMem]
  simp +decide

/-- What `differentiate` does to a tree in memory: the next free address does
not go back; the nodes of the tree it leaves are the nodes of the tree it was
given together with one node at every address allocated meanwhile; and,
addresses apart, the tree and the flag are those of `differentiate` on the
tree without addresses. -/
theorem differentiateMem_spec (k : Nat) :
    ∀ t : MemTree, t.size ≤ k → ∀ (d : Int) (n : Nat),
      n ≤ (differentiateMem t d n).next ∧
        (differentiateMem t d n).tree.addrs =
          t.addrs + Multiset.Ico n (differentiateMem t d n).next ∧
        (differentiateMem t d n).tree.erase = (differentiate t.erase d).1 ∧
        (differentiateMem t d n).flag = (differentiate t.erase d).2 := by
  induction k with
  | zero =>
    intro t ht d n
    rcases t with _ | ⟨a, tok, l, r⟩
    · rw [differentiateMem_null]
      simp only [MemTree.erase]
      rw [differentiate]
      simp [MemTree.addrs]
    · simp only [MemTree.size] at ht
      omega
  | succ k ih =>
    intro t ht d n
    rcases t with _ | ⟨a, tok, l, r⟩
    · rw [differentiateMem_null]
      simp only [MemTree.erase]
      rw [differentiate]
      simp [MemTree.addrs]
    · have hl : l.size ≤ k := by
        simp only [MemTree.size] at ht
        omega
      have hr : r.size ≤ k := by
        simp only [MemTree.size] at ht
        omega
      rcases tok with w | s | c
      · rw [differentiateMem_number]
        simp only [MemTree.erase, differentiate_number]
        simp [MemTree.addrs]
      · by_cases hs : s = "x"
        · subst hs
          rw [differentiateMem_x]
          simp only [MemTree.erase, differentiate_x]
          simp [MemTree.addrs]
        · rw [differentiateMem_other _ _ _ _ _ _ hs]
          simp only [MemTree.erase, differentiate_other _ _ _ _ hs]
          simp [MemTree.addrs]
      · by_cases hc : isOperator c = true
        · simp only [isOperator, Bool.or_eq_true, decide_eq_true_eq] at hc
          rcases hc with ((rfl | rfl) | rfl) | rfl
          · obtain ⟨a1, a2, a3, a4⟩ := ih l hl d n
            obtain ⟨b1, b2, b3, b4⟩ := ih r hr (differentiateMem l d n).flag
              (differentiateMem l d n).next
            rw [differentiateMem_plus]
            simp only [MemTree.erase, differentiate_plus, MemTree.addrs]
            refine ⟨by omega, ?_, ?_, ?_⟩
            · rw [a2, b2, ← Multiset.Ico_add_Ico_eq_Ico a1 b1]
              abel
            · rw [a3, b3, a4]
            · rw [b4, a4]
          · obtain ⟨a1, a2, a3, a4⟩ := ih l hl d n
            obtain ⟨b1, b2, b3, b4⟩ := ih r hr (differentiateMem l d n).flag
              (differentiateMem l d n).next
            rw [differentiateMem_minus]
            simp only [MemTree.erase, differentiate_minus, MemTree.addrs]
            refine ⟨by omega, ?_, ?_, ?_⟩
            · rw [a2, b2, ← Multiset.Ico_add_Ico_eq_Ico a1 b1]
              abel
            · rw [a3, b3, a4]
            · rw [b4, a4]
          · rw [differentiateMem_times]
            simp only [MemTree.erase, differentiate_times, duplicate_eq, MemTree.addrs]
            obtain ⟨c1, c2, c3, c4⟩ := duplicateMem_spec l (n + 2)
            generalize duplicateMem l (n + 2) = C1 at c1 c2 c3 c4 ⊢
            obtain ⟨a1, a2, a3, a4⟩ := ih C1.1 (by omega) d C1.2
            generalize differentiateMem C1.1 d C1.2 = P1 at a1 a2 a3 a4 ⊢
            obtain ⟨e1, e2, e3, e4⟩ := duplicateMem_spec r P1.next
            generalize duplicateMem r P1.next = C2 at e1 e2 e3 e4 ⊢
            obtain ⟨b1, b2, b3, b4⟩ := ih C2.1 (by omega) P1.flag C2.2
            generalize differentiateMem C2.1 P1.flag C2.2 = P2 at b1 b2 b3 b4 ⊢
            refine ⟨by omega, ?_, ?_, ?_⟩
            · rw [a2, b2, c2, e2,
                ← singleton_add_ico n P2.next (by omega),
                ← singleton_add_ico (n + 1) P2.next (by omega),
                ← Multiset.Ico_add_Ico_eq_Ico (a := n + 1 + 1) (b := C1.2) (c := P2.next)
                  (by omega) (by omega),
                ← Multiset.Ico_add_Ico_eq_Ico (a := C1.2) (b := P1.next) (c := P2.next)
                  (by omega) (by omega),
                ← Multiset.Ico_add_Ico_eq_Ico (a := P1.next) (b := C2.2) (c := P2.next)
                  (by omega) (by omega)]
              abel
            · rw [a3, b3, c4, e4, a4, c4]
            · rw [b4, e4, a4, c4]
          · rw [differentiateMem_divide]
            simp only [MemTree.erase, differentiate_divide, duplicate_eq, MemTree.addrs]
            obtain ⟨c1, c2, c3, c4⟩ := duplicateMem_spec l (n + 4)
            generalize duplicateMem l (n + 4) = C1 at c1 c2 c3 c4 ⊢
            obtain ⟨a1, a2, a3, a4⟩ := ih C1.1 (by omega) d C1.2
            generalize differentiateMem C1.1 d C1.2 = P1 at a1 a2 a3 a4 ⊢
            obtain ⟨e1, e2, e3, e4⟩ := duplicateMem_spec r P1.next
            generalize duplicateMem r P1.next = C2 at e1 e2 e3 e4 ⊢
            obtain ⟨b1, b2, b3, b4⟩ := ih C2.1 (by omega) P1.flag C2.2
            generalize differentiateMem C2.1 P1.flag C2.2 = P2 at b1 b2 b3 b4 ⊢
            obtain ⟨f1, f2, f3, f4⟩ := duplicateMem_spec r P2.next
            generalize duplicateMem r P2.next = P3 at f1 f2 f3 f4 ⊢
            obtain ⟨g1, g2, g3, g4⟩ := duplicateMem_spec r P3.2
            generalize duplicateMem r P3.2 = P4 at g1 g2 g3 g4 ⊢
            refine ⟨by omega, ?_, ?_, ?_⟩
            · rw [a2, b2, c2, e2, f2, g2,
                ← singleton_add_ico n P4.2 (by omega),
                ← singleton_add_ico (n + 1) P4.2 (by omega),
                ← singleton_add_ico (n + 1 + 1) P4.2 (by omega),
                ← singleton_add_ico (n + 1 + 1 + 1) P4.2 (by omega),
                ← Multiset.Ico_add_Ico_eq_Ico (a := n + 1 + 1 + 1 + 1) (b := C1.2)
                  (c := P4.2) (by omega) (by omega),
                ← Multiset.Ico_add_Ico_eq_Ico (a := C1.2) (b := P1.next) (c := P4.2)
                  (by omega) (by omega),
                ← Multiset.Ico_add_Ico_eq_Ico (a := P1.next) (b := C2.2) (c := P4.2)
                  (by omega) (by omega),
                ← Multiset.Ico_add_Ico_eq_Ico (a := C2.2) (b := P2.next) (c := P4.2)
                  (by omega) (by omega),
                ← Multiset.Ico_add_Ico_eq_Ico (a := P2.next) (b := P3.2) (c := P4.2)
                  (by omega) (by omega)]
              abel
            · rw [a3, b3, c4, e4, a4, c4, f4, g4]
            · rw [b4, e4, a4, c4]
        · have hc2 : isOperator c = false := by simpa using hc
          rw [differentiateMem_symbol_other _ _ _ _ _ _ hc2]
          simp only [MemTree.erase, differentiate_symbol_other _ _ _ _ hc2]
          simp [MemTree.addrs]


theorem ico_fresh (lo a b c : Nat) (s : Multiset Nat) (hs : s = Multiset.Ico a b + Multiset.Ico b c)
    (hlo : lo ≤ a) (hab : a ≤ b) : ∀ x ∈ s, lo ≤ x := by
  intro x hx
  rw [hs, Multiset.mem_add, Multiset.mem_Ico, Multiset.mem_Ico] at hx
  omega

theorem ico_fresh_one (lo a b : Nat) (s : Multiset Nat) (hs : s = Multiset.Ico a b)
    (hlo : lo ≤ a) : ∀ x ∈ s, lo ≤ x := by
  intro x hx
  rw [hs, Multiset.mem_Ico] at hx
  omega

/-- C21: let the nodes of a tree in memory be pairwise distinct and lie below
the next free address.  Then the nodes of the tree `differentiate` leaves are
pairwise distinct, and that tree is, addresses apart, the tree of
`differentiate`.  At a `*` node the two children are found once each, as they
were, under the two new `*` nodes, next to differentiated copies all of whose
nodes are newly allocated; at a `/` node likewise, and the two factors of the
denominator are two further copies of the right child, newly allocated. -/
theorem differentiate_no_aliasing (t : MemTree) (d : Int) (n : Nat)
    (hdistinct : t.addrs.Nodup) (hfree : ∀ x ∈ t.addrs, x < n) :
    (differentiateMem t d n).tree.addrs.Nodup ∧
      (differentiateMem t d n).tree.erase = (differentiate t.erase d).1 ∧
      (∀ a l r, t = .node a (.symbol '*') l r →
        ∃ l1 r1, (differentiateMem t d n).tree =
            .node a (.symbol '+') (.node n (.symbol '*') l1 r)
              (.node (n + 1) (.symbol '*') l r1) ∧
          (∀ x ∈ l1.addrs, n + 2 ≤ x) ∧ (∀ x ∈ r1.addrs, n + 2 ≤ x)) ∧
      (∀ a l r, t = .node a (.symbol '/') l r →
        ∃ l1 r1 r3 r4, (differentiateMem t d n).tree =
            .node a (.symbol '/')
              (.node n (.symbol '-') (.node (n + 1) (.symbol '*') l1 r)
                (.node (n + 2) (.symbol '*') l r1))
              (.node (n + 3) (.symbol '*') r3 r4) ∧
          (∀ x ∈ l1.addrs, n + 4 ≤ x) ∧ (∀ x ∈ r1.addrs, n + 4 ≤ x) ∧
          (∀ x ∈ r3.addrs, n + 4 ≤ x) ∧ (∀ x ∈ r4.addrs, n + 4 ≤ x) ∧
          r3.erase = r.erase ∧ r4.erase = r.erase) := by
  obtain ⟨h1, h2, h3, _⟩ := differentiateMem_spec t.size t (le_refl _) d n
  refine ⟨?_, h3, ?_, ?_⟩
  · rw [h2, Multiset.nodup_add]
    refine ⟨hdistinct, Multiset.nodup_Ico, ?_⟩
    rw [Multiset.disjoint_left]
    intro x hx hx2
    have := hfree x hx
    rw [Multiset.mem_Ico] at hx2
    omega
  · rintro a l r rfl
    rw [differentiateMem_times]
    simp only
    obtain ⟨c1, c2, c3, _⟩ := duplicateMem_spec l (n + 2)
    generalize duplicateMem l (n + 2) = C1 at c1 c2 c3 ⊢
    obtain ⟨a1, a2, _, _⟩ := differentiateMem_spec C1.1.size C1.1 (le_refl _) d C1.2
    generalize differentiateMem C1.1 d C1.2 = P1 at a1 a2 ⊢
    obtain ⟨e1, e2, e3, _⟩ := duplicateMem_spec r P1.next
    generalize duplicateMem r P1.next = C2 at e1 e2 e3 ⊢
    obtain ⟨b1, b2, _, _⟩ := differentiateMem_spec C2.1.size C2.1 (le_refl _) P1.flag C2.2
    generalize differentiateMem C2.1 P1.flag C2.2 = P2 at b1 b2 ⊢
    rw [c2] at a2
    rw [e2] at b2
    exact ⟨P1.tree, P2.tree, rfl, ico_fresh _ _ _ _ _ a2 (le_refl _) c1,
      ico_fresh _ _ _ _ _ b2 (by omega) e1⟩
  · rintro a l r rfl
    rw [differentiateMem_divide]
    simp only
    obtain ⟨c1, c2, c3, _⟩ := duplicateMem_spec l (n + 4)
    generalize duplicateMem l (n + 4) = C1 at c1 c2 c3 ⊢
    obtain ⟨a1, a2, _, _⟩ := differentiateMem_spec C1.1.size C1.1 (le_refl _) d C1.2
    generalize differentiateMem C1.1 d C1.2 = P1 at a1 a2 ⊢
    obtain ⟨e1, e2, e3, _⟩ := duplicateMem_spec r P1.next
    generalize duplicateMem r P1.next = C2 at e1 e2 e3 ⊢
    obtain ⟨b1, b2, _, _⟩ := differentiateMem_spec C2.1.size C2.1 (le_refl _) P1.flag C2.2
    generalize differentiateMem C2.1 P1.flag C2.2 = P2 at b1 b2 ⊢
    obtain ⟨f1, f2, _, f4⟩ := duplicateMem_spec r P2.next
    generalize duplicateMem r P2.next = P3 at f1 f2 f4 ⊢
    obtain ⟨g1, g2, _, g4⟩ := duplicateMem_spec r P3.2
    generalize duplicateMem r P3.2 = P4 at g1 g2 g4 ⊢
    rw [c2] at a2
    rw [e2] at b2
    exact ⟨P1.tree, P2.tree, P3.1, P4.1, rfl, ico_fresh _ _ _ _ _ a2 (le_refl _) c1,
      ico_fresh _ _ _ _ _ b2 (by omega) e1, ico_fresh_one _ _ _ _ f2 (by omega),
      ico_fresh_one _ _ _ _ g2 (by omega), f4, g4⟩

/-- Witness of C21: the tree of `x * x` at the addresses 0, 1, 2, the next free
address being 3. -/
theorem differentiate_no_aliasing_witness :
    (MemTree.node 0 (.symbol '*') (.node 1 (.identifier "x") .null .null)
        (.node 2 (.identifier "x") .null .null)).addrs.Nodup ∧
      (∀ x ∈ (MemTree.node 0 (.symbol '*') (.node 1 (.identifier "x") .null .null)
        (.node 2 (.identifier "x") .null .null)).addrs, x < 3) ∧
      (differentiateMem (.node 0 (.symbol '*') (.node 1 (.identifier "x") .null .null)
        (.node 2 (.identifier "x") .null .null)) 1 3).tree.addrs.Nodup :=
  ⟨by decide, by decide,
    (differentiate_no_aliasing (.node 0 (.symbol '*') (.node 1 (.identifier "x") .null .null)
      (.node 2 (.identifier "x") .null .null)) 1 3 (by decide) (by decide)).1⟩

end InfixExp
